import Mathlib

/-!
Verification of the receipt-OCR deterministic parsing core of the repository
(chaif-backend/src/receipts: receiptOcr.ts, produce/produceDetector.ts,
produce/produceMerge.ts, vendorAdapters.ts).

Receipt text is modelled as lists of characters; the JavaScript regular
expressions of the source are embedded as executable character-level scanners,
and JavaScript numbers are modelled as exact rationals.
-/

set_option maxHeartbeats 2000000
set_option maxRecDepth 10000

namespace Chaif

/-- A string of the source program, modelled as a list of characters. -/
abbrev Str := List Char

/-- Shorthand turning a Lean string literal into the character-list model. -/
def S (s : String) : Str := s.toList

/-- JS whitespace (class \s) restricted to characters receipt text can contain. -/
def isWsC (c : Char) : Bool :=
  c = ' ' || c = '\t' || c = '\n' || c = '\r' || c = '\u000B' || c = '\u000C' || c = '\u00A0'

/-- ASCII digit (JS \d). -/
def isDigitC (c : Char) : Bool := '0' ≤ c && c ≤ '9'

/-- ASCII letter (JS [A-Za-z]). -/
def isLetterC (c : Char) : Bool := ('A' ≤ c && c ≤ 'Z') || ('a' ≤ c && c ≤ 'z')

/-- ASCII uppercase letter (JS [A-Z]). -/
def isUpperC (c : Char) : Bool := 'A' ≤ c && c ≤ 'Z'

/-- ASCII lowercase letter (JS [a-z]). -/
def isLowerC (c : Char) : Bool := 'a' ≤ c && c ≤ 'z'

/-- JS word character (class \w): letters, digits and underscore. -/
def isWordC (c : Char) : Bool := isLetterC c || isDigitC c || c = '_'

/-- ASCII lowercase conversion (JS toLowerCase on the characters in play). -/
def toLowerC (c : Char) : Char :=
  if isUpperC c then Char.ofNat (c.toNat + 32) else c

/-- ASCII uppercase conversion (JS toUpperCase on the characters in play). -/
def toUpperC (c : Char) : Char :=
  if isLowerC c then Char.ofNat (c.toNat - 32) else c

/-- Lowercase a whole string. -/
def toLowerS (s : Str) : Str := s.map toLowerC

/-- Numeric value of a digit character. -/
def digitVal (c : Char) : Nat := c.toNat - '0'.toNat

/-- Math.min on rationals, stated executably. -/
def jsMin (a b : ℚ) : ℚ := if a ≤ b then a else b

/-- Math.max on rationals, stated executably. -/
def jsMax (a b : ℚ) : ℚ := if a ≤ b then b else a

/-- Math.abs on rationals, stated executably. -/
def jsAbs (a : ℚ) : ℚ := if a < 0 then -a else a

theorem jsMin_eq (a b : ℚ) : jsMin a b = min a b := by
  unfold jsMin
  rcases le_total a b with h | h
  · rw [if_pos h, min_eq_left h]
  · by_cases h2 : a ≤ b
    · rw [if_pos h2, min_eq_left h2]
    · rw [if_neg h2, min_eq_right h]

theorem jsMax_eq (a b : ℚ) : jsMax a b = max a b := by
  unfold jsMax
  rcases le_total a b with h | h
  · rw [if_pos h, max_eq_right h]
  · by_cases h2 : a ≤ b
    · rw [if_pos h2, max_eq_right h2]
    · rw [if_neg h2, max_eq_left h]

theorem jsAbs_eq (a : ℚ) : jsAbs a = |a| := by
  unfold jsAbs
  by_cases h : a < 0
  · rw [if_pos h, abs_of_neg h]
  · rw [if_neg h, abs_of_nonneg (le_of_not_lt h)]

/-- JS String.prototype.trim, left part: drop leading whitespace. -/
def trimLeft (s : Str) : Str := s.dropWhile (fun c => isWsC c)

/-- JS String.prototype.trim, right part: drop trailing whitespace. -/
def trimRight (s : Str) : Str := (s.reverse.dropWhile (fun c => isWsC c)).reverse

/-- JS String.prototype.trim. -/
def trim (s : Str) : Str := trimLeft (trimRight s)

/-- State-machine core of the JS replace(/\s{2,}/g, " "): a run of two or more
whitespace characters becomes one space, a single whitespace character is kept
as it is.  The boolean state records being inside a run whose single output
space was already emitted. -/
def collapseSt : Bool → Str → Str
  | _, [] => []
  | true, c :: cs => if isWsC c then collapseSt true cs else c :: collapseSt false cs
  | false, c :: cs =>
      if isWsC c then
        match cs with
        | [] => [c]
        | d :: _ => if isWsC d then ' ' :: collapseSt true cs else c :: collapseSt false cs
      else c :: collapseSt false cs

/-- JS replace(/\s{2,}/g, " "). -/
def collapse (s : Str) : Str := collapseSt false s

/-- State-machine core of the JS replace(/\s+/g, " "): every whitespace run
(of any length) becomes one space. -/
def squashSt : Bool → Str → Str
  | _, [] => []
  | true, c :: cs => if isWsC c then squashSt true cs else c :: squashSt false cs
  | false, c :: cs => if isWsC c then ' ' :: squashSt true cs else c :: squashSt false cs

/-- JS replace(/\s+/g, " "). -/
def squash (s : Str) : Str := squashSt false s

/-- The text `t` occurs contiguously somewhere inside `s`. -/
def OccursIn (t s : Str) : Prop := ∃ x y, s = x ++ t ++ y

/-- Decidable prefix test: `p` is a prefix of `s`. -/
def litAt : Str → Str → Bool
  | [], _ => true
  | _ :: _, [] => false
  | p :: ps, c :: cs => p = c && litAt ps cs

/-- Decidable contiguous-substring test. -/
def containsSub (p : Str) : Str → Bool
  | [] => litAt p []
  | c :: cs => litAt p (c :: cs) || containsSub p cs

theorem litAt_sound {p s : Str} (h : litAt p s = true) : ∃ r, s = p ++ r := by
  induction p generalizing s with
  | nil => exact ⟨s, rfl⟩
  | cons a ps ih =>
    cases s with
    | nil => simp [litAt] at h
    | cons c cs =>
      simp only [litAt, Bool.and_eq_true, decide_eq_true_eq] at h
      obtain ⟨rfl, h2⟩ := h
      obtain ⟨r, rfl⟩ := ih h2
      exact ⟨r, rfl⟩

theorem litAt_refl (p : Str) : litAt p p = true := by
  induction p with
  | nil => rfl
  | cons a ps ih => simp [litAt, ih]

theorem litAt_append (p r : Str) : litAt p (p ++ r) = true := by
  induction p with
  | nil => rfl
  | cons a ps ih => simp [litAt, ih]

theorem containsSub_sound {p s : Str} (h : containsSub p s = true) : OccursIn p s := by
  induction s with
  | nil =>
    obtain ⟨r, hr⟩ := litAt_sound h
    exact ⟨[], r, by simp [hr]⟩
  | cons c cs ih =>
    simp only [containsSub, Bool.or_eq_true] at h
    cases h with
    | inl h =>
      obtain ⟨r, hr⟩ := litAt_sound h
      exact ⟨[], r, by simp [hr]⟩
    | inr h =>
      obtain ⟨x, y, hxy⟩ := ih h
      exact ⟨c :: x, y, by simp [hxy]⟩

theorem OccursIn.mono_left {t s : Str} (u : Str) (h : OccursIn t s) :
    OccursIn t (u ++ s) := by
  obtain ⟨x, y, rfl⟩ := h
  exact ⟨u ++ x, y, by simp⟩

theorem OccursIn.mono_right {t s : Str} (v : Str) (h : OccursIn t s) :
    OccursIn t (s ++ v) := by
  obtain ⟨x, y, rfl⟩ := h
  exact ⟨x, y ++ v, by simp⟩

theorem OccursIn.self (t : Str) : OccursIn t t := ⟨[], [], by simp⟩

theorem OccursIn.mem {t s : Str} (h : OccursIn t s) {c : Char} (hc : c ∈ t) : c ∈ s := by
  obtain ⟨x, y, rfl⟩ := h
  simp [hc]

/-! ### Money tokens

The regex `-?\$?\d{1,7}(?:[.,]\d{2})-?` is used throughout receiptOcr.ts
(moneyTokenRe, MONEY_TOKEN_RE, pickLineTotalToken).  `tryMoney` matches it at
the current position exactly as the backtracking engine does: the digit part
can only succeed on the whole maximal digit run (a shorter prefix is always
followed by another digit, which can never be `[.,]`), so a run longer than
seven digits fails at this position. -/

/-- Consume an optional expected character (regex `c?`). -/
def takeOpt (c : Char) : Str → Str × Str
  | [] => ([], [])
  | d :: r => if d = c then ([c], r) else ([], d :: r)

/-- Match the money-token regex at the start of `s`; on success return the
matched token together with the rest of the string. -/
def tryMoney (s : Str) : Option (Str × Str) :=
  match takeOpt '-' s with
  | (m1, s1) =>
    match takeOpt '$' s1 with
    | (m2, s2) =>
      let d := s2.takeWhile (fun c => isDigitC c)
      let s3 := s2.dropWhile (fun c => isDigitC c)
      if d = [] ∨ d.length > 7 then none
      else
        match s3 with
        | p :: a :: b :: s5 =>
            if (p = '.' ∨ p = ',') ∧ isDigitC a ∧ isDigitC b then
              match takeOpt '-' s5 with
              | (m3, s6) => some (m1 ++ m2 ++ d ++ p :: a :: b :: m3, s6)
            else none
        | _ => none

/-- Global scan of the money-token regex (RegExp.exec loop / String.match with
the g flag): leftmost matches, continuing after each match.  `f` is fuel, `i`
the absolute position of the head of the remaining string. -/
def moneyScanF : Nat → Nat → Str → List (Nat × Str)
  | 0, _, _ => []
  | _ + 1, _, [] => []
  | f + 1, i, c :: cs =>
      match tryMoney (c :: cs) with
      | some (t, r) => (i, t) :: moneyScanF f (i + t.length) r
      | none => moneyScanF f (i + 1) cs

/-- All money-token matches of a line, with their start positions. -/
def moneyScan (s : Str) : List (Nat × Str) := moneyScanF s.length 0 s

/-- A string that is by itself one whole money token. -/
def CleanTok (t : Str) : Prop := tryMoney t = some (t, [])

/-- Digit-string value. -/
def digitsVal (d : Str) : Nat := d.foldl (fun acc c => acc * 10 + digitVal c) 0

/-- Magnitude part of JS Number() on the cleaned strings safeParseNumber can
produce: digits with at most one dot, at least one digit overall; `none`
where JS yields NaN. -/
def jsNumberCore (s1 : Str) : Option ℚ :=
  let a := s1.takeWhile (fun c => isDigitC c)
  let s2 := s1.dropWhile (fun c => isDigitC c)
  match s2 with
  | [] => if a = [] then none else some (digitsVal a)
  | '.' :: s3 =>
      let b := s3.takeWhile (fun c => isDigitC c)
      let s4 := s3.dropWhile (fun c => isDigitC c)
      if s4 = [] ∧ (a ≠ [] ∨ b ≠ []) then
        some ((digitsVal a : ℚ) + (digitsVal b : ℚ) / ((10 ^ b.length : ℕ) : ℚ))
      else none
  | _ => none

/-- JS Number() assembled from the optional sign and the magnitude. -/
def jsNumber (s : Str) : Option ℚ :=
  match takeOpt '-' s with
  | (m1, s1) =>
    let sign : ℚ := if m1 = [] then 1 else -1
    (jsNumberCore s1).map (fun v => sign * v)

/-- safeParseNumber of receiptOcr.ts (second revision): parenthesised
negatives, unicode minus normalisation, junk stripping, comma removal,
trailing-minus negation. -/
def safeParseNumber (s : Str) : Option ℚ :=
  if s = [] then none
  else
    let raw := trim s
    let paren := raw.head? = some '(' ∧ raw.getLast? = some ')' ∧ 2 ≤ raw.length
    let raw1 := if paren then trimRight ((trimLeft raw.tail).dropLast) else raw
    let raw2 := raw1.map (fun c => if c = '−' then '-' else c)
    let cleaned :=
      (raw2.filter (fun c => isDigitC c ∨ c = '.' ∨ c = ',' ∨ c = '-')).filter
        (fun c => c ≠ ',')
    if cleaned = [] then none
    else
      let cleaned2 :=
        if cleaned.getLast? = some '-' ∧ cleaned.head? ≠ some '-' then
          '-' :: cleaned.dropLast
        else cleaned
      match jsNumber cleaned2 with
      | none => none
      | some n => some (if paren then -(jsAbs n) else n)

/-- lastMoneyToken of produceDetector.ts: last money token of the line, with
its value parsed by stripping `$` and commas and negating a trailing minus. -/
def lastMoneyVal (line : Str) : Option (Str × ℚ) :=
  match (moneyScan line).getLast? with
  | none => none
  | some (_, tok) =>
      let t := trim ((tok.filter (fun c => c ≠ '$')).filter (fun c => c ≠ ','))
      let neg := t.getLast? = some '-'
      let t2 := if neg then t.dropLast else t
      match jsNumber t2 with
      | none => none
      | some n => some (tok, if neg then -n else n)

theorem takeOpt_sound {c : Char} {s m r : Str} (h : takeOpt c s = (m, r)) :
    s = m ++ r := by
  cases s with
  | nil => simp [takeOpt] at h; simp [h.1, h.2]
  | cons d ds =>
    simp only [takeOpt] at h
    split at h
    · next hd => cases h; simp [hd]
    · cases h; simp

theorem tryMoney_sound {s t r : Str} (h : tryMoney s = some (t, r)) :
    s = t ++ r ∧ t ≠ [] := by
  unfold tryMoney at h
  rcases h1 : takeOpt '-' s with ⟨m1, s1⟩
  rw [h1] at h
  dsimp only at h
  rcases h2 : takeOpt '$' s1 with ⟨m2, s2⟩
  rw [h2] at h
  dsimp only at h
  split at h
  · exact absurd h (by simp)
  · next hd =>
    rcases h3 : List.dropWhile (fun c => isDigitC c) s2 with _ | ⟨p, _ | ⟨a, _ | ⟨b, s5⟩⟩⟩ <;>
      rw [h3] at h <;> dsimp only at h
    · simp at h
    · simp at h
    · simp at h
    · split at h
      · rcases h4 : takeOpt '-' s5 with ⟨m3, s6⟩
        rw [h4] at h
        dsimp only at h
        injection h with h
        injection h with hT hR
        subst hT; subst hR
        push_neg at hd
        constructor
        · have e1 := takeOpt_sound h1
          have e2 := takeOpt_sound h2
          have e3 := takeOpt_sound h4
          have e4 : s2 = s2.takeWhile (fun c => isDigitC c) ++
              s2.dropWhile (fun c => isDigitC c) :=
            (List.takeWhile_append_dropWhile (fun c => isDigitC c) s2).symm
          rw [e1, e2]
          conv_lhs => rw [e4, h3, e3]
          simp
        · intro hc
          have := congrArg List.length hc
          simp at this
      · exact absurd h (by simp)

theorem moneyScanF_sound {f : Nat} :
    ∀ {i : Nat} {s : Str} {j : Nat} {t : Str}, (j, t) ∈ moneyScanF f i s →
      ∃ x y, s = x ++ t ++ y ∧ x.length + i = j := by
  induction f with
  | zero => intro i s j t h; simp [moneyScanF] at h
  | succ f ih =>
    intro i s j t h
    cases s with
    | nil => simp [moneyScanF] at h
    | cons c cs =>
      simp only [moneyScanF] at h
      rcases hm : tryMoney (c :: cs) with _ | ⟨t0, r⟩
      · rw [hm] at h
        obtain ⟨x, y, hxy, hlen⟩ := ih h
        exact ⟨c :: x, y, by simp [hxy], by simp; omega⟩
      · rw [hm] at h
        rcases List.mem_cons.mp h with h | h
        · injection h with hj ht
          subst hj; subst ht
          obtain ⟨heq, -⟩ := tryMoney_sound hm
          exact ⟨[], r, by simpa using heq, by simp⟩
        · obtain ⟨x, y, hxy, hlen⟩ := ih h
          obtain ⟨heq, -⟩ := tryMoney_sound hm
          refine ⟨t0 ++ x, y, ?_, ?_⟩
          · rw [heq, hxy]; simp
          · simp; omega

theorem moneyScan_sound {s : Str} {j : Nat} {t : Str} (h : (j, t) ∈ moneyScan s) :
    ∃ x y, s = x ++ t ++ y ∧ x.length = j := by
  obtain ⟨x, y, hxy, hlen⟩ := moneyScanF_sound h
  exact ⟨x, y, hxy, by omega⟩

/-! ### Word-boundary keyword search

The source tests lines with case-insensitive `\b(..|..)\b` regexes after
lowercasing (`const low = l.toLowerCase()`), so the scanners below work on
lowered strings with lowercase literals.  All pattern alternatives begin and
end with word characters, hence a JS word boundary before a match is
equivalent to the previous character being absent or a non-word character,
and a boundary after it to the next character being absent or non-word. -/

/-- The next character is absent or not a word character (JS `\b` after a
word character). -/
def nonWordHead : Str → Bool
  | [] => true
  | c :: _ => !isWordC c

/-- Scan all positions of `s`, keeping track of the previous character, and
test `alt` at every position whose previous character is absent or non-word
(the JS `\b` before an alternative starting with a word character). -/
def scanPred (alt : Str → Bool) : Option Char → Str → Bool
  | _, [] => false
  | prev, c :: cs =>
      ((match prev with | none => true | some p => !isWordC p) && alt (c :: cs)) ||
      scanPred alt (some c) cs

theorem scanPred_sound {alt : Str → Bool} :
    ∀ {prev : Option Char} {s : Str}, scanPred alt prev s = true →
      ∃ u v, s = u ++ v ∧ alt v = true := by
  intro prev s
  induction s generalizing prev with
  | nil => intro h; simp [scanPred] at h
  | cons c cs ih =>
    intro h
    simp only [scanPred, Bool.or_eq_true, Bool.and_eq_true] at h
    rcases h with ⟨-, h⟩ | h
    · exact ⟨[], c :: cs, rfl, h⟩
    · obtain ⟨u, v, huv, hv⟩ := ih h
      exact ⟨c :: u, v, by simp [huv], hv⟩

/-- `\bkw\b` at one position: literal match plus trailing boundary. -/
def kwAlt (kw : Str) (s : Str) : Bool := litAt kw s && nonWordHead (s.drop kw.length)

/-- Case-sensitive `\bkw\b` search (used on lowered strings). -/
def hasKw (kw : Str) (s : Str) : Bool := scanPred (kwAlt kw) none s

/-- `\b(kw1|kw2|..)\b` search. -/
def anyKw (kws : List Str) (s : Str) : Bool := kws.any (fun kw => hasKw kw s)

theorem hasKw_sound {kw s : Str} (h : hasKw kw s = true) : OccursIn kw s := by
  obtain ⟨u, v, rfl, hv⟩ := scanPred_sound h
  simp only [kwAlt, Bool.and_eq_true] at hv
  obtain ⟨r, rfl⟩ := litAt_sound hv.1
  exact ⟨u, r, by simp⟩

/-- totalsRe of receiptOcr.ts. -/
def totalsHit (low : Str) : Bool :=
  anyKw [S "subtotal", S "tax", S "total", S "amount due", S "balance due", S "change"] low

/-- tenderRe of receiptOcr.ts. -/
def tenderHit (low : Str) : Bool :=
  anyKw [S "visa", S "mastercard", S "amex", S "debit", S "credit"] low

/-- cashRe of receiptOcr.ts. -/
def cashHit (low : Str) : Bool := hasKw (S "cash") low

/-- Consume a literal. -/
def pLit (w : Str) (s : Str) : Option Str :=
  if litAt w s then some (s.drop w.length) else none

/-- Consume `\s*` (greedy; the following piece never starts with whitespace). -/
def pWs0 (s : Str) : Option Str := some (s.dropWhile (fun c => isWsC c))

/-- Consume `\s+`. -/
def pWs1 : Str → Option Str
  | [] => none
  | c :: cs => if isWsC c then some (cs.dropWhile (fun c => isWsC c)) else none

/-- Trailing word boundary applied to an optional rest. -/
def restOK : Option Str → Bool
  | none => false
  | some r => nonWordHead r

/-- One alternative of headerNoiseRe (second revision) at the current
position, including its trailing `\b`. -/
def headerNoiseAlt (s : Str) : Bool :=
  restOK (((((pLit (S "orders") s).bind pWs0).bind (pLit (S "&"))).bind pWs0).bind
    (pLit (S "purchases"))) ||
  restOK (pLit (S "member") s) ||
  restOK (pLit (S "approved") s) ||
  restOK (pLit (S "purchase") s) ||
  restOK (((pLit (S "thank") s).bind pWs0).bind (pLit (S "you"))) ||
  restOK (((pLit (S "customer") s).bind pWs0).bind (pLit (S "copy"))) ||
  restOK (((pLit (S "order") s).bind pWs0).bind (pLit (S "summary"))) ||
  restOK (((pLit (S "order") s).bind pWs0).bind (pLit (S "details"))) ||
  restOK (pLit (S "delivered") s) ||
  restOK (((((((pLit (S "your") s).bind pWs0).bind (pLit (S "package"))).bind pWs1).bind
    (pLit (S "was"))).bind pWs1).bind (pLit (S "left"))) ||
  restOK (((pLit (S "sold") s).bind pWs1).bind (pLit (S "by"))) ||
  restOK (((pLit (S "supplied") s).bind pWs1).bind (pLit (S "by"))) ||
  (match ((pLit (S "return") s).bind pWs1).bind (pLit (S "item")) with
   | none => false
   | some r =>
       match r with
       | 's' :: r2 => nonWordHead r2
       | _ => nonWordHead r)

/-- headerNoiseRe of receiptOcr.ts (second revision), on the lowered line. -/
def headerNoiseHit (low : Str) : Bool := scanPred headerNoiseAlt none low

/-- One alternative of discountHintRe at the current position. -/
def discountHintAlt (s : Str) : Bool :=
  restOK (pLit (S "discount") s) ||
  restOK (pLit (S "savings") s) ||
  restOK (pLit (S "coupon") s) ||
  restOK (pLit (S "promo") s) ||
  restOK (((pLit (S "instant") s).bind pWs1).bind (pLit (S "savings")))

/-- discountHintRe of receiptOcr.ts: \b(discount|savings|coupon|promo|instant\s+savings)\b,
case-insensitively via the lowered line. -/
def discountHintHit (l : Str) : Bool := scanPred discountHintAlt none (toLowerS l)

/-- The /^discount\b/i test of receiptOcr.ts. -/
def startsDiscountWord (l : Str) : Bool :=
  kwAlt (S "discount") (toLowerS l)

/-- `\b` after a list of unit alternatives: some alternative matches here with
a trailing word boundary. -/
def unitAltAfter (units : List Str) (s : Str) : Bool :=
  units.any (fun u => litAt u s && nonWordHead (s.drop u.length))

/-- isPerUnitMoneyToken of receiptOcr.ts: the 14 characters after a money
token, lowered, match ^\s*\/\s*(lb|lbs|kg|g|oz|ea|ct|pc|pcs)\b. -/
def isPerUnitAt (line : Str) (e : Nat) : Bool :=
  let tail := toLowerS ((line.drop e).take 14)
  match tail.dropWhile (fun c => isWsC c) with
  | '/' :: r2 =>
      unitAltAfter [S "lb", S "lbs", S "kg", S "g", S "oz", S "ea", S "ct", S "pc", S "pcs"]
        (r2.dropWhile (fun c => isWsC c))
  | _ => false

/-- A money token of a line as selected by pickLineTotalToken: its value, raw
text, start and end positions and per-unit flag. -/
structure MoneyTok where
  value : ℚ
  raw : Str
  start : Nat
  stop : Nat
  perUnit : Bool
deriving DecidableEq, Repr

/-- All valued money tokens of a line (the `hits` array of pickLineTotalToken). -/
def moneyHitsOf (line : Str) : List MoneyTok :=
  (moneyScan line).filterMap (fun it =>
    match safeParseNumber it.2 with
    | none => none
    | some v => some ⟨v, it.2, it.1, it.1 + it.2.length, isPerUnitAt line (it.1 + it.2.length)⟩)

/-- pickLineTotalToken of receiptOcr.ts: the last non-per-unit money token,
else the last token. -/
def pickLineTotalToken (line : Str) : Option MoneyTok :=
  let hits := moneyHitsOf line
  match hits.reverse.find? (fun h => !h.perUnit) with
  | some h => some h
  | none => hits.getLast?

/-- Result of extractTailAmountAndFlag. -/
structure TailParts where
  pfx : Str
  amount : Str
  flag : Str
deriving DecidableEq, Repr

/-- The money-token candidates the backtracking engine tries for group 2 of
extractTailAmountAndFlag at a fixed position: the greedy match, then the
variant surrendering the trailing minus. -/
def tailCandidates (u : Str) : List (Str × Str) :=
  match tryMoney u with
  | none => []
  | some (t, r) =>
      if t.getLast? = some '-' then [(t, r), (t.dropLast, '-' :: r)] else [(t, r)]

/-- Acceptance of the rest after group 2: (?:\s+([A-Z]{1,3}))?\s*$, returning
the captured flag ([] when the optional group did not participate). -/
def tailFlagOf (r : Str) : Option Str :=
  match r with
  | [] => some []
  | c :: _ =>
      if isWsC c then
        let r1 := r.dropWhile (fun c => isWsC c)
        let L := r1.takeWhile (fun c => isUpperC c)
        if 1 ≤ L.length ∧ L.length ≤ 3 ∧ (r1.drop L.length).all (fun c => isWsC c) then
          some L
        else if r.all (fun c => isWsC c) then some []
        else none
      else none

/-- Position loop of extractTailAmountAndFlag: the lazy (.*?) tries group-2
starting positions from the left. -/
def extractTailF : Nat → Nat → Str → Str → Option TailParts
  | 0, _, _, _ => none
  | f + 1, k, t, u =>
      match (tailCandidates u).findSome? (fun c =>
        (tailFlagOf c.2).map (fun fl => TailParts.mk (trim (t.take k)) (trim c.1) fl)) with
      | some res => some res
      | none =>
          match u with
          | [] => none
          | _ :: u2 => extractTailF f (k + 1) t u2

/-- extractTailAmountAndFlag of receiptOcr.ts:
^(.*?)(-?\$?\d{1,7}(?:[.,]\d{2})-?)(?:\s+([A-Z]{1,3}))?\s*$ on the trimmed
line, returning trimmed prefix, amount and flag. -/
def extractTail (line : Str) : Option TailParts :=
  let t := trim line
  extractTailF (t.length + 1) 0 t t

/-- isDiscountRefRow of receiptOcr.ts: trailing negative amount with a
non-empty prefix containing no letters. -/
def isDiscountRefRow (line : Str) : Bool :=
  match extractTail line with
  | none => false
  | some ex =>
      match safeParseNumber ex.amount with
      | none => false
      | some n => decide (n < 0) && decide (ex.pfx ≠ []) && !(ex.pfx.any (fun c => isLetterC c))

/-- The (\s+\1)+$ loop of the noise pattern /^([A-Z])(?:\s+\1)+$/. -/
def garbageRepsF : Nat → Char → Str → Bool
  | 0, _, _ => false
  | f + 1, c, s =>
      match pWs1 s with
      | none => false
      | some r =>
          match r with
          | d :: r2 => d = c && (r2.isEmpty || garbageRepsF f c r2)
          | [] => false

/-- The Drop-garbage test of semanticRepairLogicalLines: /^([A-Z])(?:\s+\1)+$/
on the trimmed line. -/
def garbageLine (a : Str) : Bool :=
  match trim a with
  | [] => false
  | c :: cs => isUpperC c && garbageRepsF (cs.length + 1) c cs

/-- looksLikeSkuOrCode of receiptOcr.ts: /^\d{5,13}\b/ or /^([A-Z]{1,2})\b/.
A digit run 5..13 long matches only whole (a shorter take is followed by a
digit, failing the boundary), and similarly for the uppercase run. -/
def looksLikeSkuOrCode (l : Str) : Bool :=
  (let d := l.takeWhile (fun c => isDigitC c)
   decide (5 ≤ d.length) && decide (d.length ≤ 13) && nonWordHead (l.drop d.length)) ||
  (match l with
   | [] => false
   | [a] => isUpperC a
   | a :: b :: r => isUpperC a && ((isUpperC b && nonWordHead r) || !isWordC b))

/-- One weight-number alternative \d+(?:\.\d+)?\s*(lb|lbs|kg|g|oz)\b of
looksLikeWeightOrRate, at a position with a leading boundary (lowered line). -/
def weightNumAlt (s : Str) : Bool :=
  let d := s.takeWhile (fun c => isDigitC c)
  d ≠ [] &&
    (let rest0 := s.drop d.length
     (match rest0 with
      | '.' :: r1 =>
          let fr := r1.takeWhile (fun c => isDigitC c)
          fr ≠ [] && unitAltAfter [S "lb", S "lbs", S "kg", S "g", S "oz"]
            ((r1.drop fr.length).dropWhile (fun c => isWsC c))
      | _ => false) ||
     unitAltAfter [S "lb", S "lbs", S "kg", S "g", S "oz"]
        (rest0.dropWhile (fun c => isWsC c)))

/-- Scan every suffix (for patterns without a leading boundary). -/
def scanSuffix (alt : Str → Bool) : Str → Bool
  | [] => alt []
  | c :: cs => alt (c :: cs) || scanSuffix alt cs

/-- The /\/\s*(lb|lbs|kg|g|oz)\b/ alternative at one position (lowered line). -/
def slashUnitAlt (s : Str) : Bool :=
  match s with
  | '/' :: r =>
      unitAltAfter [S "lb", S "lbs", S "kg", S "g", S "oz"]
        (r.dropWhile (fun c => isWsC c))
  | _ => false

/-- looksLikeWeightOrRate of receiptOcr.ts. -/
def looksLikeWeightOrRate (l : Str) : Bool :=
  let low := toLowerS l
  scanPred weightNumAlt none low ||
  l.any (fun c => c = '@') ||
  scanSuffix slashUnitAlt low

/-- Join two line fragments with a space, collapse double whitespace and trim
(the template + replace + trim idiom of the stitcher). -/
def joinSp (a b : Str) : Str := trim (collapse (a ++ ' ' :: b))

/-- flushPending of the stitcher: an empty pending buffer is JS-falsy and
flushes nothing. -/
def flushPending (st : List Str × Str) : List Str × Str :=
  if st.2 = [] then st else (st.1 ++ [trim (collapse st.2)], [])

/-- In-place update of the last emitted logical line
(logical[logical.length-1] = ...). -/
def updateLast (f : Str → Str) : List Str → List Str
  | [] => []
  | [x] => [f x]
  | x :: y :: xs => x :: updateLast f (y :: xs)

/-- One iteration of the logical-stitching loop of
parseReceiptTextDeterministic (second revision), on the state
(emitted logical lines, pending buffer). -/
def stitchStep (st : List Str × Str) (l0 : Str) : List Str × Str :=
  let l := trim l0
  let low := toLowerS l
  if totalsHit low || tenderHit low || cashHit low || headerNoiseHit low then
    let st1 := flushPending st
    (st1.1 ++ [l], st1.2)
  else if isDiscountRefRow l then
    let st1 := flushPending st
    (st1.1 ++ [l], st1.2)
  else if (match pickLineTotalToken l with
           | some tok => !tok.perUnit
           | none => false) then
    if st.2 ≠ [] then (st.1 ++ [joinSp st.2 l], [])
    else (st.1 ++ [l], st.2)
  else if looksLikeSkuOrCode l || looksLikeWeightOrRate l then
    if st.2 ≠ [] then (st.1, joinSp st.2 l)
    else if st.1 ≠ [] then (updateLast (fun e => joinSp e l) st.1, st.2)
    else (st.1, l)
  else
    let st1 := flushPending st
    (st1.1, l)

/-- The logical-line stitcher of parseReceiptTextDeterministic (second
revision): fold the loop over the raw lines and flush the pending buffer at
the end of input. -/
def stitch (lines : List Str) : List Str :=
  (flushPending (lines.foldl stitchStep ([], []))).1

/-! ### Produce detector (produceDetector.ts) and merger (produceMerge.ts) -/

/-- Case-insensitive literal prefix test (lowercase pattern). -/
def litAtI (w : Str) (s : Str) : Bool := litAt w (toLowerS (s.take w.length))

/-- Case-insensitive unit alternation with trailing boundary, returning the
raw matched text. -/
def unitCaptureI (units : List Str) (r : Str) : Option Str :=
  let r2 := r.dropWhile (fun c => isWsC c)
  units.findSome? (fun u =>
    if litAtI u r2 && nonWordHead (r2.drop u.length) then some (r2.take u.length) else none)

/-- Case-insensitive unit alternation with trailing boundary (boolean form). -/
def unitAltAfterI (units : List Str) (s : Str) : Bool :=
  units.any (fun u => litAtI u s && nonWordHead (s.drop u.length))

/-- The /\/\s*(lb|kg|g|oz)\b/ alternative of hasAtOrSlash and
hasRateMarker (note: no "lbs"), at one position of the lowered line. -/
def slashUnitAlt4 (s : Str) : Bool :=
  match s with
  | '/' :: r =>
      unitAltAfter [S "lb", S "kg", S "g", S "oz"] (r.dropWhile (fun c => isWsC c))
  | _ => false

/-- /\b@\b/: an `@` with word characters immediately on both sides. -/
def atWordAux : Option Char → Str → Bool
  | _, [] => false
  | prev, c :: cs =>
      (c = '@' && (match prev with | some p => isWordC p | none => false) &&
        (match cs with | d :: _ => isWordC d | [] => false)) ||
      atWordAux (some c) cs

/-- /\b@\b/ test. -/
def atWordHit (low : Str) : Bool := atWordAux none low

/-- The ten produce units of produceDetector.ts regexes. -/
def produceUnits10 : List Str :=
  [S "lb", S "lbs", S "kg", S "g", S "oz", S "ea", S "ct", S "pc", S "pcs", S "each"]

/-- hasProduceSignals of produceDetector.ts. -/
def hasProduceSignals (line : Str) : Bool :=
  let low := toLowerS line
  let hasUnit := anyKw produceUnits10 low
  let hasWeightDecimal := scanPred weightNumAlt none low
  let hasAtOrSlash := low.any (fun c => c = '@') || scanSuffix slashUnitAlt4 low
  (hasUnit && hasAtOrSlash) || (hasWeightDecimal && (hasAtOrSlash || atWordHit low))

/-- UNIT_ALIASES of produceDetector.ts. -/
def unitAliases : List (Str × Str) :=
  [(S "lb", S "lb"), (S "lbs", S "lb"), (S "pound", S "lb"), (S "pounds", S "lb"),
   (S "kg", S "kg"), (S "kilogram", S "kg"), (S "kilograms", S "kg"),
   (S "g", S "g"), (S "gram", S "g"), (S "grams", S "g"),
   (S "oz", S "oz"), (S "ounce", S "oz"), (S "ounces", S "oz"),
   (S "ea", S "ea"), (S "each", S "ea"),
   (S "ct", S "ct"), (S "count", S "ct"),
   (S "pc", S "pc"), (S "pcs", S "pc"), (S "piece", S "pc"), (S "pieces", S "pc")]

/-- normalizeUnit of produceDetector.ts: lowercase, strip dots, trim, look up. -/
def normalizeUnitP (raw : Str) : Option Str :=
  let key := trim ((toLowerS raw).filter (fun c => c ≠ '.'))
  (unitAliases.find? (fun p => p.1 = key)).map (fun p => p.2)

/-- parseNum of produceDetector.ts: strip `$` and commas, trim, Number(). -/
def parseNumP (s : Str) : Option ℚ :=
  jsNumber (trim (s.filter (fun c => c ≠ '$' && c ≠ ',')))

/-- The weight+unit capture of detectProduce,
/\b(\d+(?:\.\d+)?)\s*(lb|lbs|kg|g|oz|ea|ct|pc|pcs|each)\b/i, at one position:
returns (number text, raw unit text). -/
def wuAtPos (s : Str) : Option (Str × Str) :=
  let d := s.takeWhile (fun c => isDigitC c)
  if d = [] then none
  else
    let rest0 := s.drop d.length
    let withFrac : Option (Str × Str) :=
      match rest0 with
      | '.' :: r1 =>
          let fr := r1.takeWhile (fun c => isDigitC c)
          if fr = [] then none
          else (unitCaptureI produceUnits10 (r1.drop fr.length)).map
            (fun u => (d ++ '.' :: fr, u))
      | _ => none
    match withFrac with
    | some res => some res
    | none => (unitCaptureI produceUnits10 rest0).map (fun u => (d, u))

/-- Leftmost weight+unit match with its index. -/
def wuScanAux : Option Char → Nat → Str → Option (Nat × Str × Str)
  | _, _, [] => none
  | prev, i, c :: cs =>
      match (if (match prev with | none => true | some p => !isWordC p) then
               wuAtPos (c :: cs) else none) with
      | some nu => some (i, nu.1, nu.2)
      | none => wuScanAux (some c) (i + 1) cs

/-- weightUnitMatch of detectProduce. -/
def weightUnitMatch (line : Str) : Option (Nat × Str × Str) := wuScanAux none 0 line

/-- The price capture (\d+(?:\.\d{2})?) with a trailing \b, as in the
unit-price patterns of detectProduce. -/
def priceGroup (s : Str) : Option Str :=
  let d := s.takeWhile (fun c => isDigitC c)
  if d = [] then none
  else
    let rest0 := s.drop d.length
    match rest0 with
    | '.' :: a :: b :: r =>
        if isDigitC a && isDigitC b && nonWordHead r then some (d ++ '.' :: a :: b :: [])
        else if nonWordHead rest0 then some d else none
    | _ => if nonWordHead rest0 then some d else none

/-- Unit-price pattern 1 of detectProduce,
/@\s*\d+(?:\.\d+)?\s*\/\s*\$?(\d+(?:\.\d{2})?)\b/i, at one position. -/
def upP1At (s : Str) : Option Str :=
  match s with
  | '@' :: r0 =>
      let r1 := r0.dropWhile (fun c => isWsC c)
      let d2 := r1.takeWhile (fun c => isDigitC c)
      if d2 = [] then none
      else
        let restA := r1.drop d2.length
        let tryFrom : Str → Option Str := fun r =>
          match r.dropWhile (fun c => isWsC c) with
          | '/' :: r3 =>
              let r4 := r3.dropWhile (fun c => isWsC c)
              priceGroup (takeOpt '$' r4).2
          | _ => none
        let withFrac : Option Str :=
          match restA with
          | '.' :: r1b =>
              let fr := r1b.takeWhile (fun c => isDigitC c)
              if fr = [] then none else tryFrom (r1b.drop fr.length)
          | _ => none
        match withFrac with
        | some v => some v
        | none => tryFrom restA
  | _ => none

/-- Unit-price pattern 2 of detectProduce, /@\s*\$?(\d+(?:\.\d{2})?)\b/i, at
one position. -/
def upP2At (s : Str) : Option Str :=
  match s with
  | '@' :: r0 => priceGroup (takeOpt '$' (r0.dropWhile (fun c => isWsC c))).2
  | _ => none

/-- Unit-price pattern 3 of detectProduce,
/\$?(\d+(?:\.\d{2})?)\s*\/\s*(lb|lbs|kg|g|oz)\b/i, at one position. -/
def upP3At (s : Str) : Option Str :=
  let r0 := (takeOpt '$' s).2
  let d := r0.takeWhile (fun c => isDigitC c)
  if d = [] then none
  else
    let restA := r0.drop d.length
    let tryRest : Str → Str → Option Str := fun g r =>
      match r.dropWhile (fun c => isWsC c) with
      | '/' :: r3 =>
          if unitAltAfterI [S "lb", S "lbs", S "kg", S "g", S "oz"]
              (r3.dropWhile (fun c => isWsC c)) then some g else none
      | _ => none
    let withFrac : Option Str :=
      match restA with
      | '.' :: a :: b :: r =>
          if isDigitC a && isDigitC b then tryRest (d ++ '.' :: a :: b :: []) r else none
      | _ => none
    match withFrac with
    | some v => some v
    | none => tryRest d restA

/-- Leftmost match of a positional pattern. -/
def scanFirst (alt : Str → Option Str) : Str → Option Str
  | [] => alt []
  | c :: cs =>
      match alt (c :: cs) with
      | some v => some v
      | none => scanFirst alt cs

/-- Find the last occurrence (start index) of `pat` inside `s`
(JS lastIndexOf). -/
def lastIndexOfSub (pat : Str) (s : Str) : Option Nat :=
  let n := s.length
  (List.range (n + 1)).foldl
    (fun acc i => if litAt pat (s.drop i) then some i else acc) none

/-- ProduceMeta of produceDetector.ts (the isProduce field, always true, is
omitted). -/
structure ProduceMeta where
  weight : Option ℚ
  unit : Option Str
  unitPrice : Option ℚ
  lineTotal : Option ℚ
  namePart : Option Str
  confidenceScore : ℚ
  reason : Str
  mathValidated : Bool
deriving DecidableEq, Repr

/-- approxEqual of produceDetector.ts. -/
def approxEqual (a b tolerance : ℚ) : Bool := jsAbs (a - b) ≤ tolerance

/-- detectProduce of produceDetector.ts.  The options argument carries the
tolerance (None models an absent or non-finite tolerance). -/
def detectProduce (lineRaw : Str) (tolOpt : Option ℚ) : Option ProduceMeta :=
  let line := trim (squash lineRaw)
  if line = [] then none
  else if !hasProduceSignals line then none
  else
    let last := lastMoneyVal line
    let lineTotal : Option ℚ := last.map (fun p => p.2)
    let wu := weightUnitMatch line
    let weight : Option ℚ := wu.bind (fun m => parseNumP m.2.1)
    let unit : Option Str := wu.bind (fun m => normalizeUnitP m.2.2)
    let unitPrice : Option ℚ :=
      match scanFirst upP1At line with
      | some g => parseNumP g
      | none =>
          match scanFirst upP2At line with
          | some g => parseNumP g
          | none =>
              match scanFirst upP3At line with
              | some g => parseNumP g
              | none => none
    let namePart : Option Str :=
      match wu with
      | some m =>
          let np := trim (line.take m.1)
          some (trim ((np.reverse.dropWhile
            (fun c => c = '@' || c = '-' || isWsC c)).reverse))
      | none =>
          match last with
          | some p =>
              match lastIndexOfSub p.1 line with
              | some idx => some (trim (line.take idx))
              | none => none
          | none => none
    let tol : ℚ := match tolOpt with | some t => t | none => 2 / 100
    let hasAll := weight.isSome && unit.isSome && unitPrice.isSome && lineTotal.isSome
    let mathValidated :=
      match weight, unitPrice, lineTotal with
      | some w, some up, some lt => hasAll && approxEqual (w * up) lt (jsMax tol (2 / 100))
      | _, _, _ => false
    let c1 : ℚ := if weight.isSome && unit.isSome then 35 / 100 else 0
    let c2 : ℚ := if unitPrice.isSome then 35 / 100 else 0
    let c3 : ℚ := if lineTotal.isSome then 20 / 100 else 0
    let nameOK := match namePart with
      | some np => np ≠ [] && np.any (fun c => isLetterC c)
      | none => false
    let c4 : ℚ := if nameOK then 10 / 100 else 0
    let base := c1 + c2 + c3 + c4
    let conf :=
      if hasAll && mathValidated then jsMin 1 (base + 15 / 100)
      else if hasAll && !mathValidated then jsMax (20 / 100) (base - 15 / 100)
      else base
    let missing :=
      (if weight.isSome && unit.isSome then [] else [S "weight"]) ++
      (if unitPrice.isSome then [] else [S "unitPrice"]) ++
      (if lineTotal.isSome then [] else [S "lineTotal"]) ++
      (if nameOK then [] else [S "name"])
    let reason :=
      if hasAll = true then
        (if mathValidated then S "produce:full+mathOK" else S "produce:full+mathMismatch")
      else S "produce:partial missing=" ++ List.intercalate (S ",") missing
    some
      { weight := weight
        unit := unit
        unitPrice := unitPrice
        lineTotal := lineTotal
        namePart := namePart.bind (fun np => if np = [] then none else some np)
        confidenceScore := jsMax 0 (jsMin 1 conf)
        reason := reason
        mathValidated := mathValidated }

/-- isMoneyOnlyLine of produceMerge.ts:
/^-?\$?\d{1,7}(?:[.,]\d{2})-?\s*[A-Z]{0,2}\s*$/i on the trimmed line. -/
def isMoneyOnly (l : Str) : Bool :=
  match tryMoney (trim l) with
  | none => false
  | some (_, r) =>
      let r1 := r.dropWhile (fun c => isWsC c)
      let L := r1.takeWhile (fun c => isLetterC c)
      decide (L.length ≤ 2) && (r1.drop L.length).all (fun c => isWsC c)

/-- looksLikeProduceDetail of produceMerge.ts. -/
def looksLikeProduceDetail (line : Str) : Bool :=
  let low := toLowerS line
  let hasUnit := anyKw produceUnits10 low
  let hasWeight := scanPred weightNumAlt none low
  let hasRateMarker := low.any (fun c => c = '@') || scanSuffix slashUnitAlt4 low
  let hasDigits := low.any (fun c => isDigitC c)
  hasDigits && hasUnit && (hasWeight || hasRateMarker)

/-- hasLettersNoMoney of produceMerge.ts. -/
def hasLettersNoMoney (line : Str) : Bool :=
  let l := trim line
  decide (l ≠ []) && l.any (fun c => isLetterC c) && (moneyScan l).isEmpty

/-- joinClean of produceMerge.ts. -/
def joinClean (a b : Str) : Str := trim (collapse (trim a ++ ' ' :: trim b))

/-- The scan loop of mergeProduceLines, with fuel; `oi` is the next output
index.  Returns the merged lines and the output indexes that were merged. -/
def mergeGoF : Nat → Nat → List Str → List Str × List Nat
  | 0, _, rest => (rest, [])
  | _ + 1, _, [] => ([], [])
  | f + 1, oi, a :: rest =>
      match rest with
      | b :: rest2 =>
          if hasLettersNoMoney a && looksLikeProduceDetail b then
            match rest2 with
            | c :: rest3 =>
                if isMoneyOnly c then
                  let res := mergeGoF f (oi + 1) rest3
                  (joinClean (joinClean a b) c :: res.1, oi :: res.2)
                else
                  let res := mergeGoF f (oi + 1) rest2
                  (joinClean a b :: res.1, oi :: res.2)
            | [] => ([joinClean a b], [oi])
          else
            let res := mergeGoF f (oi + 1) rest
            (a :: res.1, res.2)
      | [] => ([a], [])

/-- mergeProduceLines of produceMerge.ts. -/
def mergeProduceLines (inputLines : List Str) : List Str × List Nat :=
  let src := (inputLines.map trim).filter (fun l => l ≠ [])
  mergeGoF src.length 0 src

/-- One line of semanticRepairLogicalLines of receiptOcr.ts (second
revision): none when the line is dropped as noise, otherwise the possibly
discount-normalised line. -/
def repairLine (a : Str) : Option Str :=
  if garbageLine a then none
  else
    match extractTail a with
    | some ex =>
        (match safeParseNumber ex.amount with
         | some n =>
             if n < 0 then
               if ex.pfx = [] then some (trim (S "DISCOUNT " ++ ex.amount))
               else if !(ex.pfx.any (fun c => isLetterC c)) then
                 some (trim (collapse (S "DISCOUNT " ++ ex.pfx ++ ' ' :: ex.amount)))
               else some a
             else some a
         | none => some a)
    | none => some a

/-- semanticRepairLogicalLines of receiptOcr.ts (second revision). -/
def semanticRepair (lines : List Str) : List Str :=
  ((lines.map trim).filter (fun l => l ≠ [])).filterMap repairLine

/-- The replace(/\s*(?:[A-Z]{1,2})\s*$/i, "") marker strip of the item
extractor: remove the last one or two trailing letters together with the
whitespace around them (nothing is removed when no letter ends the line). -/
def stripTrailingMarker (s : Str) : Str :=
  let r := s.reverse
  let r1 := r.dropWhile (fun c => isWsC c)
  let L := r1.takeWhile (fun c => isLetterC c)
  if L = [] then s
  else ((r1.drop (min 2 L.length)).dropWhile (fun c => isWsC c)).reverse

/-- The /^(\d{5,8})\b\s*(.*)$/ vendor-SKU split of the item extractor. -/
def skuSplit (s : Str) : Option (Str × Str) :=
  let d := s.takeWhile (fun c => isDigitC c)
  if 5 ≤ d.length ∧ d.length ≤ 8 ∧ nonWordHead (s.drop d.length) = true then
    some (d, (s.drop d.length).dropWhile (fun c => isWsC c))
  else none

/-- The unit alternatives of unitRe of the item extractor, in source order. -/
def itemUnitAlts : List Str :=
  [S "oz", S "lb", S "lbs", S "g", S "kg", S "ml", S "l", S "ct", S "pk", S "pack", S "each"]

/-- Leftmost unitRe match on a name, returning the raw matched text. -/
def unitSearchAux : Option Char → Str → Option Str
  | _, [] => none
  | prev, c :: cs =>
      match (if (match prev with | none => true | some p => !isWordC p) then
               itemUnitAlts.findSome? (fun u =>
                 if litAtI u (c :: cs) && nonWordHead ((c :: cs).drop u.length) then
                   some ((c :: cs).take u.length)
                 else none)
             else none) with
      | some r => some r
      | none => unitSearchAux (some c) cs

/-- unitRe search of the item extractor. -/
def unitSearch (name : Str) : Option Str := unitSearchAux none name

/-- normalizeUnit of the item extractor (receiptOcr.ts, second revision). -/
def normalizeItemUnit (u : Str) : Str :=
  let low := toLowerS u
  if low = S "lbs" then S "lb"
  else if low = S "ct" then S "each"
  else if low = S "pk" then S "pack"
  else low

/-- produceMeta attached to an extracted item. -/
structure ItemProduceMeta where
  confidenceScore : ℚ
  reason : Str
  mathValidated : Bool
  mergeApplied : Bool
deriving DecidableEq, Repr

/-- ParsedLineItem as built by the item extractor of
parseReceiptTextDeterministic (second revision). -/
structure Item where
  rawLineText : Str
  name : Str
  description : Option Str
  vendorSku : Option Str
  barcode : Option Str
  originalQuantity : Option ℚ
  originalUnit : Option Str
  unitPrice : Option ℚ
  lineTotal : Option ℚ
  weight : Option ℚ
  unit : Option Str
  produceMeta : Option ItemProduceMeta
deriving DecidableEq, Repr

/-- The default produce tolerance: Number(env("RECEIPT_PRODUCE_TOLERANCE",
"0.02")) with the environment unset. -/
def produceTolDefault : ℚ := 2 / 100

/-- One iteration of the item-extraction loop of
parseReceiptTextDeterministic (second revision); `mergeApplied` reports
whether the produce merger formed this line.  Returns none where the loop
skips the line. -/
def extractItem1 (mergeApplied : Bool) (l : Str) : Option Item :=
  let low := toLowerS l
  if totalsHit low || tenderHit low || cashHit low then none
  else
    let totalTok := pickLineTotalToken l
    let lineTotal : Option ℚ := totalTok.map (fun t => t.value)
    let isDiscountish := discountHintHit l || startsDiscountWord l
    if lineTotal = none ∧ isDiscountish = false then none
    else
      let produce := detectProduce l (some produceTolDefault)
      let noPrice0 := trim l
      let noPrice1 :=
        match totalTok with
        | some tk => trim (noPrice0.take tk.start ++ noPrice0.drop tk.stop)
        | none =>
            match (moneyScan l).getLast? with
            | some pr =>
                match lastIndexOfSub pr.2 noPrice0 with
                | some idx => trim (noPrice0.take idx ++ noPrice0.drop (idx + pr.2.length))
                | none => noPrice0
            | none => noPrice0
      let noPrice := trim (stripTrailingMarker noPrice1)
      let noPricePreferred :=
        match produce with
        | some p => match p.namePart with
            | some np => np
            | none => noPrice
        | none => noPrice
      let sku := skuSplit noPricePreferred
      let vendorSku := sku.map (fun p => p.1)
      let nameRaw := trim (match sku with | some p => p.2 | none => noPricePreferred)
      let name0 := trim (collapse nameRaw)
      let name := if name0 = [] ∧ startsDiscountWord l = true then S "DISCOUNT" else name0
      if name = [] then none
      else
        let unitM := unitSearch name
        let originalUnit := unitM.map normalizeItemUnit
        let unitPrice : Option ℚ :=
          match produce with
          | some p => match p.unitPrice with
              | some up => some up
              | none => lineTotal
          | none => lineTotal
        some
          { rawLineText := l
            name := name
            description := none
            vendorSku := vendorSku
            barcode := none
            originalQuantity := some 1
            originalUnit := originalUnit
            unitPrice := unitPrice
            lineTotal := lineTotal
            weight := produce.bind (fun p => p.weight)
            unit := produce.bind (fun p => p.unit)
            produceMeta := produce.map (fun p =>
              ItemProduceMeta.mk p.confidenceScore p.reason p.mathValidated mergeApplied) }

/-- Whether the item loop counts a line into pricedLineCount. -/
def pricedLine (l : Str) : Bool :=
  let low := toLowerS l
  !(totalsHit low || tenderHit low || cashHit low) &&
    ((pickLineTotalToken l).isSome || discountHintHit l || startsDiscountWord l)

/-! ### Remaining pipeline pieces of parseReceiptTextDeterministic -/

/-- Does /\b\d{5,8}\b/ match at this position (previous character given)?
Only a whole maximal digit run of length 5..8 with non-word neighbours can
match. -/
def skuRunHere (prev : Option Char) (s : Str) : Bool :=
  (match prev with | none => true | some p => !isWordC p) &&
    (let d := s.takeWhile (fun c => isDigitC c)
     decide (5 ≤ d.length) && decide (d.length ≤ 8) && nonWordHead (s.drop d.length))

/-- All positions of /\b\d{5,8}\b/ matches (equivalently of the zero-width
lookahead /(?=\b\d{5,8}\b)/ used by the split). -/
def skuPosAux : Option Char → Nat → Str → List Nat
  | _, _, [] => []
  | prev, i, c :: cs =>
      (if skuRunHere prev (c :: cs) then [i] else []) ++ skuPosAux (some c) (i + 1) cs

/-- Cut a line at ascending positions. -/
def cutsToParts (line : Str) : Nat → List Nat → List Str
  | start, [] => [line.drop start]
  | start, p :: ps => (line.drop start).take (p - start) :: cutsToParts line p ps

/-- splitMultiSkuLines of receiptOcr.ts: a line containing more than one
5..8-digit SKU is split before each SKU (JS split on the lookahead never cuts
at position 0), and the pieces are trimmed. -/
def splitMultiSkuLines (lines : List Str) : List Str :=
  lines.foldr
    (fun line acc =>
      let pos := skuPosAux none 0 line
      if pos.length ≤ 1 then line :: acc
      else (cutsToParts line 0 (pos.filter (fun p => 0 < p))).map trim ++ acc)
    []

/-- The preferred-vendor header keywords of parseReceiptTextDeterministic
(second revision). -/
def preferredVendors : List Str :=
  [S "costco", S "walmart", S "kroger", S "target", S "amazon",
   S "whole foods", S "heb", S "aldi"]

/-- The pv.replace(/\b\w/g, c => c.toUpperCase()) capitalisation. -/
def capWords : Option Char → Str → Str
  | _, [] => []
  | prev, c :: cs =>
      (if (match prev with | none => true | some p => !isWordC p) && isWordC c then
         toUpperC c
       else c) :: capWords (some c) cs

/-- The generic fallback ignore list. -/
def vendorIgnore : List Str :=
  [S "welcome", S "receipt", S "thank you", S "customer copy", S "member",
   S "orders & purchases"]

/-- Vendor detection of parseReceiptTextDeterministic (second revision):
preferred keyword in the first 25 cleaned lines, else the first of the first
15 lines that is no boilerplate and has at least three letters. -/
def detectVendor (rawLines : List Str) : Option Str :=
  let header := rawLines.take 25
  let joined := toLowerS (List.intercalate (S "\n") header)
  match preferredVendors.find? (fun pv => containsSub pv joined) with
  | some pv => some (if pv = S "heb" then S "H-E-B" else capWords none pv)
  | none =>
      (rawLines.take 15).find? (fun l =>
        let low := toLowerS l
        decide (2 ≤ low.length) &&
          !(vendorIgnore.any (fun w => containsSub w low)) &&
          decide (3 ≤ (l.filter (fun c => isLetterC c)).length))

/-- Month alternation (0?[1-9]|1[0-2]) of extractDate, as the ordered list of
candidate (consumed, rest) splits the engine tries. -/
def monthCands : Str → List (Str × Str)
  | [] => []
  | c :: r =>
      (if c = '0' then
         (match r with
          | d :: r2 => if isDigitC d && d ≠ '0' then [(['0', d], r2)] else []
          | [] => [])
       else []) ++
      (if '1' ≤ c ∧ c ≤ '9' then [([c], r)] else []) ++
      (if c = '1' then
         (match r with
          | d :: r2 => if '0' ≤ d ∧ d ≤ '2' then [([c, d], r2)] else []
          | [] => [])
       else [])

/-- Day alternation (0?[1-9]|[12]\d|3[01]) of extractDate. -/
def dayCands : Str → List (Str × Str)
  | [] => []
  | c :: r =>
      (if c = '0' then
         (match r with
          | d :: r2 => if isDigitC d && d ≠ '0' then [(['0', d], r2)] else []
          | [] => [])
       else []) ++
      (if '1' ≤ c ∧ c ≤ '9' then [([c], r)] else []) ++
      (if c = '1' ∨ c = '2' then
         (match r with
          | d :: r2 => if isDigitC d then [([c, d], r2)] else []
          | [] => [])
       else []) ++
      (if c = '3' then
         (match r with
          | d :: r2 => if d = '0' ∨ d = '1' then [([c, d], r2)] else []
          | [] => [])
       else [])

/-- A date separator [-\/]. -/
def isDateSep (c : Char) : Bool := c = '-' || c = '/'

/-- Date pattern 1, \b(20\d{2})[-\/](0?[1-9]|1[0-2])[-\/](0?[1-9]|[12]\d|3[01])\b,
at one position (the leading boundary is handled by the scanner). -/
def p1DateAt (s : Str) : Option (Str × Str × Str) :=
  match s with
  | c0 :: c1 :: c2 :: c3 :: sep1 :: r1 =>
      if c0 = '2' ∧ c1 = '0' ∧ isDigitC c2 ∧ isDigitC c3 ∧ isDateSep sep1 then
        (monthCands r1).findSome? (fun mc =>
          match mc.2 with
          | sep2 :: r2 =>
              if isDateSep sep2 then
                (dayCands r2).findSome? (fun dc =>
                  if nonWordHead dc.2 then some ([c0, c1, c2, c3], mc.1, dc.1) else none)
              else none
          | [] => none)
      else none
  | _ => none

/-- Date pattern 2, \b(0?[1-9]|1[0-2])[-\/](0?[1-9]|[12]\d|3[01])[-\/](20\d{2})\b. -/
def p2DateAt (s : Str) : Option (Str × Str × Str) :=
  (monthCands s).findSome? (fun mc =>
    match mc.2 with
    | sep1 :: r1 =>
        if isDateSep sep1 then
          (dayCands r1).findSome? (fun dc =>
            match dc.2 with
            | sep2 :: y0 :: y1 :: y2 :: y3 :: r2 =>
                if isDateSep sep2 ∧ y0 = '2' ∧ y1 = '0' ∧ isDigitC y2 ∧ isDigitC y3 ∧
                    nonWordHead r2 = true then
                  some (mc.1, dc.1, [y0, y1, y2, y3])
                else none
            | _ => none)
        else none
    | [] => none)

/-- Date pattern 3, \b(0?[1-9]|1[0-2])[-\/](0?[1-9]|[12]\d|3[01])[-\/](\d{2})\b. -/
def p3DateAt (s : Str) : Option (Str × Str × Str) :=
  (monthCands s).findSome? (fun mc =>
    match mc.2 with
    | sep1 :: r1 =>
        if isDateSep sep1 then
          (dayCands r1).findSome? (fun dc =>
            match dc.2 with
            | sep2 :: y0 :: y1 :: r2 =>
                if isDateSep sep2 ∧ isDigitC y0 ∧ isDigitC y1 ∧ nonWordHead r2 = true then
                  some (mc.1, dc.1, [y0, y1])
                else none
            | _ => none)
        else none
    | [] => none)

/-- Leftmost match of a position matcher that needs a word boundary before
its (word) first character. -/
def scanFirstB {α : Type} (alt : Str → Option α) : Option Char → Str → Option α
  | _, [] => none
  | prev, c :: cs =>
      match (if (match prev with | none => true | some p => !isWordC p) then
               alt (c :: cs) else none) with
      | some v => some v
      | none => scanFirstB alt (some c) cs

/-- String.prototype.padStart(2, "0"). -/
def padStart2 (s : Str) : Str :=
  if 2 ≤ s.length then s else List.replicate (2 - s.length) '0' ++ s

/-- extractDate of receiptOcr.ts. -/
def extractDate (text : Str) : Option Str :=
  match scanFirstB p1DateAt none text with
  | some (y, m, d) => some (y ++ '-' :: padStart2 m ++ '-' :: padStart2 d)
  | none =>
      match scanFirstB p2DateAt none text with
      | some (m, d, y) => some (y ++ '-' :: padStart2 m ++ '-' :: padStart2 d)
      | none =>
          match scanFirstB p3DateAt none text with
          | some (m, d, y2) =>
              some (S "20" ++ padStart2 y2 ++ '-' :: padStart2 m ++ '-' :: padStart2 d)
          | none => none

/-- Uppercase a whole string. -/
def toUpperS (s : Str) : Str := s.map toUpperC

/-- likelyCurrencyFromText of receiptOcr.ts. -/
def likelyCurrency (t : Str) : Option Str :=
  let up := toUpperS t
  if containsSub (S " USD") up || containsSub (S "$") up then some (S "USD")
  else if containsSub (S " CAD") up || containsSub (S "C$") up then some (S "CAD")
  else if containsSub (S " EUR") up || containsSub (S "€") up then some (S "EUR")
  else if containsSub (S " GBP") up || containsSub (S "£") up then some (S "GBP")
  else none

/-- clamp01 of receiptOcr.ts (rationals are always finite). -/
def clamp01 (n : ℚ) : ℚ := jsMax 0 (jsMin 1 n)

/-- scoreConfidence of receiptOcr.ts. -/
def scoreConfidence (hasVendor hasDate hasTotal : Bool)
    (lineCount pricedLineCount : Nat) : ℚ :=
  let s0 : ℚ := 0
  let s1 := if hasVendor then s0 + 20 / 100 else s0
  let s2 := if hasDate then s1 + 20 / 100 else s1
  let s3 := if hasTotal then s2 + 25 / 100 else s2
  let s4 := s3 + jsMin (20 / 100) ((lineCount : ℚ) / 40)
  let pricedFrac : ℚ :=
    if 0 < lineCount then (pricedLineCount : ℚ) / (lineCount : ℚ) else 0
  let s5 := s4 + jsMin (15 / 100) (pricedFrac * (25 / 100))
  clamp01 s5

/-- The minimum-confidence threshold:
Number(env("RECEIPT_OCR_MIN_CONFIDENCE", "0.85")) with the environment unset. -/
def minConfDefault : ℚ := 85 / 100

/-- The needsReview computation of parseReceiptTextDeterministic. -/
def needsReviewCalc (confidence : ℚ) (itemCount : Nat) (total : Option ℚ) : Bool :=
  decide (confidence < minConfDefault) || decide (itemCount < 3) || total.isNone

/-- The bottom-up totals/tax scan of parseReceiptTextDeterministic (second
revision), on the reversed bottom slice; state is (total, tax). -/
def totalsScanGo : List Str → Option ℚ × Option ℚ → Option ℚ × Option ℚ
  | [], st => st
  | l :: rest, (total, tax) =>
      let low := toLowerS l
      let tax2 :=
        if tax = none ∧ hasKw (S "tax") low = true then
          (match (moneyScan l).getLast? with
           | some pr => (match safeParseNumber pr.2 with | some v => some v | none => tax)
           | none => tax)
        else tax
      if total = none ∧ anyKw [S "total", S "amount due", S "balance due"] low = true then
        match (moneyScan l).getLast? with
        | some pr =>
            (match safeParseNumber pr.2 with
             | some v => (some v, tax2)
             | none => totalsScanGo rest (total, tax2))
        | none => totalsScanGo rest (total, tax2)
      else totalsScanGo rest (total, tax2)

/-- Totals extraction over the last 60 logical lines, scanned bottom-up with
a break once the total is found. -/
def totalsScan (logicalFixed : List Str) : Option ℚ × Option ℚ :=
  let bottom := logicalFixed.drop (logicalFixed.length - 60)
  totalsScanGo bottom.reverse (none, none)

/-! ### Vendor adapter resolver (vendorAdapters.ts) and the full parse -/

/-- VendorAdapter of vendorAdapters.ts: key plus the optional hooks (each
hook receives the data and the vendor context). -/
structure VendorAdapter where
  key : Str
  preprocessRawLines : Option (List Str → Option Str → List Str)
  preprocessLogicalLines : Option (List Str → Option Str → List Str)
  postprocessItems : Option (List Item → Option Str → List Item)

/-- getVendorAdapter of vendorAdapters.ts: after lowercasing the vendor the
body unconditionally returns null. -/
def getVendorAdapter (vendor : Option Str) : Option VendorAdapter :=
  match vendor with
  | none => none
  | some v =>
      let _lowered := toLowerS v
      none

/-- adapter?.preprocessRawLines ? adapter.preprocessRawLines(rawLines, ctx) :
rawLines. -/
def applyRawHook (adapter : Option VendorAdapter) (vendor : Option Str)
    (rawLines : List Str) : List Str :=
  match adapter with
  | some a => match a.preprocessRawLines with
      | some f => f rawLines vendor
      | none => rawLines
  | none => rawLines

/-- adapter?.preprocessLogicalLines application. -/
def applyLogicalHook (adapter : Option VendorAdapter) (vendor : Option Str)
    (logical : List Str) : List Str :=
  match adapter with
  | some a => match a.preprocessLogicalLines with
      | some f => f logical vendor
      | none => logical
  | none => logical

/-- adapter?.postprocessItems application. -/
def applyPostHook (adapter : Option VendorAdapter) (vendor : Option Str)
    (items : List Item) : List Item :=
  match adapter with
  | some a => match a.postprocessItems with
      | some f => f items vendor
      | none => items
  | none => items

/-- The receipt header of the extraction result. -/
structure ReceiptInfo where
  vendor : Option Str
  purchaseDate : Option Str
  currency : Option Str
  total : Option ℚ
  tax : Option ℚ
deriving DecidableEq, Repr

/-- The ExtractResult contract of receiptOcr.ts (provider/raw fields of the
network layer omitted). -/
structure ExtractResult where
  receipt : ReceiptInfo
  lines : List Item
  confidence : ℚ
  needsReview : Bool
deriving DecidableEq, Repr

/-- The character normalisation at the top of parseReceiptTextDeterministic
(second revision): \r to \n, non-breaking space to space, unicode minus to
hyphen. -/
def normChar (c : Char) : Char :=
  if c = '\r' then '\n' else if c = ' ' then ' ' else if c = '−' then '-' else c

/-- The page-marker filter /^\d+\s*\/\s*\d+$/ of the raw-line cleaner. -/
def pageMarker (l : Str) : Bool :=
  let t := trim l
  let d1 := t.takeWhile (fun c => isDigitC c)
  if d1 = [] then false
  else
    match (t.drop d1.length).dropWhile (fun c => isWsC c) with
    | '/' :: r =>
        let r2 := r.dropWhile (fun c => isWsC c)
        let d2 := r2.takeWhile (fun c => isDigitC c)
        decide (d2 ≠ []) && decide (r2.drop d2.length = [])
    | _ => false

/-- The raw-line cleaner of parseReceiptTextDeterministic: keep lines with an
alphanumeric character, without URL markers, that are no page markers. -/
def keepLine (l : Str) : Bool :=
  let low := toLowerS l
  l.any (fun c => isLetterC c || isDigitC c) &&
    !(containsSub (S "http://") low) && !(containsSub (S "https://") low) &&
    !(containsSub (S "www.") low) && !(pageMarker l)

/-- The cleaned raw lines of parseReceiptTextDeterministic (second
revision): normalise characters, split on newlines, trim, drop empties, drop
noise lines. -/
def cleanedRawLines (fullText : Str) : List Str :=
  let text := fullText.map normChar
  (((text.splitOn '\n').map trim).filter (fun s => s ≠ [])).filter keepLine

/-- The detected vendor of a parse. -/
def vendorOf (fullText : Str) : Option Str := detectVendor (cleanedRawLines fullText)

/-- The produce-merge result of a parse (lines and merged output indexes),
after stitching, multi-SKU splitting and the (never firing) vendor hooks. -/
def produceMergeOf (fullText : Str) : List Str × List Nat :=
  let vendor := vendorOf fullText
  let adapter := getVendorAdapter vendor
  let rawLines := applyRawHook adapter vendor (cleanedRawLines fullText)
  let logical := stitch rawLines
  let logicalFixed0 := splitMultiSkuLines logical
  mergeProduceLines (applyLogicalHook adapter vendor logicalFixed0)

/-- The final logical lines of a parse, after semantic repair. -/
def logicalFixedOf (fullText : Str) : List Str :=
  semanticRepair (produceMergeOf fullText).1

/-- The extracted items of a parse (before the never-firing postprocess
hook). -/
def itemsOf (fullText : Str) : List Item :=
  ((logicalFixedOf fullText).enum).filterMap
    (fun p => extractItem1 ((produceMergeOf fullText).2.contains p.1) p.2)

/-- The pricedLineCount of a parse. -/
def pricedCountOf (fullText : Str) : Nat :=
  ((logicalFixedOf fullText).filter pricedLine).length

/-- parseReceiptTextDeterministic of receiptOcr.ts (second revision),
assembled from the stage embeddings above. -/
def parseReceiptTextDeterministic (fullText : Str) : ExtractResult :=
  let text := fullText.map normChar
  let vendor := vendorOf fullText
  let purchaseDate := extractDate text
  let currency := likelyCurrency text
  let adapter := getVendorAdapter vendor
  let logicalFixed := logicalFixedOf fullText
  let tt := totalsScan logicalFixed
  let finalItems := applyPostHook adapter vendor (itemsOf fullText)
  let confidence := scoreConfidence vendor.isSome purchaseDate.isSome tt.1.isSome
    finalItems.length (pricedCountOf fullText)
  let needsReview := needsReviewCalc confidence finalItems.length tt.1
  { receipt := ⟨vendor, purchaseDate, currency, tt.1, tt.2⟩
    lines := finalItems
    confidence := confidence
    needsReview := needsReview }

/-! ### Source selector (scoreReceiptText / chooseOcrText) -/

/-- Generic global-count scan with jumps past matches (String.match(..g)
length); the matcher sees the previous character for its leading boundary. -/
def gScanCount (alt : Option Char → Str → Option Nat) : Nat → Option Char → Str → Nat
  | 0, _, _ => 0
  | _ + 1, _, [] => 0
  | f + 1, prev, c :: cs =>
      match alt prev (c :: cs) with
      | some len =>
          if len = 0 then gScanCount alt f (some c) cs
          else 1 + gScanCount alt f (((c :: cs).take len).getLast?) ((c :: cs).drop len)
      | none => gScanCount alt f (some c) cs

/-- Boundary-before test shared by the counting matchers. -/
def bOK : Option Char → Bool
  | none => true
  | some p => !isWordC p

/-- Matcher for /\b\d{1,7}[.,]\d{2}\b/ at one position. -/
def moneyBAlt (prev : Option Char) (s : Str) : Option Nat :=
  if bOK prev then
    let d := s.takeWhile (fun c => isDigitC c)
    if d = [] ∨ 7 < d.length then none
    else
      match s.drop d.length with
      | p :: a :: b :: r =>
          if (p = '.' ∨ p = ',') ∧ isDigitC a ∧ isDigitC b ∧ nonWordHead r = true then
            some (d.length + 3)
          else none
      | _ => none
  else none

/-- Matcher for a bounded whole digit run of length lo..hi at one position. -/
def digitRunAlt (lo hi : Nat) (prev : Option Char) (s : Str) : Option Nat :=
  if bOK prev then
    let d := s.takeWhile (fun c => isDigitC c)
    if lo ≤ d.length ∧ d.length ≤ hi ∧ nonWordHead (s.drop d.length) = true then
      some d.length
    else none
  else none

/-- Matcher for /\b(subtotal|total|tax|change\s+due)\b/ at one position of the
lowered text, returning the consumed length. -/
def totalsKwAlt (prev : Option Char) (s : Str) : Option Nat :=
  if bOK prev then
    let tryAlt : Option Str → Option Nat := fun r =>
      match r with
      | some rest => if nonWordHead rest then some (s.length - rest.length) else none
      | none => none
    match tryAlt (pLit (S "subtotal") s) with
    | some v => some v
    | none =>
        match tryAlt (pLit (S "total") s) with
        | some v => some v
        | none =>
            match tryAlt (pLit (S "tax") s) with
            | some v => some v
            | none => tryAlt (((pLit (S "change") s).bind pWs1).bind (pLit (S "due")))
  else none

/-- Matcher for /https?:\/\// at one position of the lowered text. -/
def urlAlt (_prev : Option Char) (s : Str) : Option Nat :=
  match pLit (S "http") s with
  | none => none
  | some r1 =>
      let r2 := (takeOpt 's' r1).2
      match pLit (S "://") r2 with
      | some rest => some (s.length - rest.length)
      | none =>
          match pLit (S "://") r1 with
          | some rest => some (s.length - rest.length)
          | none => none

/-- scoreReceiptText of receiptOcr.ts: the heuristic source-selection score. -/
def scoreReceiptText (text : Str) : ℚ :=
  let t := text.filter (fun c => c ≠ '\r')
  if trim t = [] then -1000000000
  else
    let low := toLowerS t
    let moneyHits := gScanCount moneyBAlt t.length none t
    let upcHits := gScanCount (digitRunAlt 11 14) t.length none t
    let skuHits := gScanCount (digitRunAlt 4 7) t.length none t
    let totalsHits := gScanCount totalsKwAlt low.length none low
    let urlHits := gScanCount urlAlt low.length none low
    let structureCount := min (((t.splitOn '\n').map trim).filter (fun l => l ≠ [])).length 120
    (moneyHits : ℚ) * 6 + (upcHits : ℚ) * 4 + (skuHits : ℚ) * 2 +
      (totalsHits : ℚ) * 8 + (structureCount : ℚ) * (1 / 2) - (urlHits : ℚ) * 10

/-- The RECEIPT_OCR_MODE values. -/
inductive OcrMode where
  | auto
  | text
  | geo
deriving DecidableEq, Repr

/-- Result of chooseOcrText: the chosen text, whether geometry was chosen,
and both scores. -/
structure OcrChoice where
  chosenText : Str
  chosenGeo : Bool
  scoreText : ℚ
  scoreGeo : ℚ
deriving DecidableEq, Repr

/-- chooseOcrText of receiptOcr.ts.  An empty geometry text is JS-falsy and
treated as absent everywhere it is consulted. -/
def chooseOcrText (text : Str) (geoText : Option Str) (mode : OcrMode) : OcrChoice :=
  let geo := match geoText with
    | some g => if g = [] then none else some g
    | none => none
  let scoreText := scoreReceiptText text
  let scoreGeo := match geo with
    | some g => scoreReceiptText g
    | none => -1000000000
  match mode, geo with
  | OcrMode.geo, some g => ⟨g, true, scoreText, scoreGeo⟩
  | OcrMode.text, _ => ⟨text, false, scoreText, scoreGeo⟩
  | _, _ =>
      match geo with
      | some g =>
          if scoreText + 5 < scoreGeo then ⟨g, true, scoreText, scoreGeo⟩
          else ⟨text, false, scoreText, scoreGeo⟩
      | none => ⟨text, false, scoreText, scoreGeo⟩

/-- The source-selector score exactly as the specification words it, for
comparison with scoreReceiptText: weighted counts of money-like tokens (6),
barcode-length digit runs (4), short digit runs (2) and totals keywords (8),
plus half a point per non-empty line capped at 120 lines, minus ten per URL
occurrence.  The specification states no special case for blank text. -/
def specSelectorScore (text : Str) : ℚ :=
  let t := text.filter (fun c => c ≠ '\r')
  let low := toLowerS t
  let moneyHits := gScanCount moneyBAlt t.length none t
  let upcHits := gScanCount (digitRunAlt 11 14) t.length none t
  let skuHits := gScanCount (digitRunAlt 4 7) t.length none t
  let totalsHits := gScanCount totalsKwAlt low.length none low
  let urlHits := gScanCount urlAlt low.length none low
  let structureCount := min (((t.splitOn '\n').map trim).filter (fun l => l ≠ [])).length 120
  (moneyHits : ℚ) * 6 + (upcHits : ℚ) * 4 + (skuHits : ℚ) * 2 +
    (totalsHits : ℚ) * 8 + (structureCount : ℚ) * (1 / 2) - (urlHits : ℚ) * 10

/-- The produce-confidence additive base of the specification, read off the
returned metadata: 0.35 for weight with unit, 0.35 for unitPrice, 0.20 for
lineTotal, 0.10 for a letter-bearing name part. -/
def specProduceBase (m : ProduceMeta) : ℚ :=
  (if m.weight.isSome && m.unit.isSome then 35 / 100 else 0) +
  (if m.unitPrice.isSome then 35 / 100 else 0) +
  (if m.lineTotal.isSome then 20 / 100 else 0) +
  (if (match m.namePart with
       | some np => np.any (fun c => isLetterC c)
       | none => false) then 10 / 100 else 0)

/-- The produce metadata the detector returns for the merged line
"BANANAS 3.04 lb @ 0.54 1.64" (used as a concrete instance). -/
def bananasProduceMeta : ProduceMeta :=
  ⟨some (76 / 25), some (S "lb"), some (27 / 50), some (41 / 25), some (S "BANANAS"),
    1, S "produce:full+mathOK", true⟩

/-- Whether a string starts with a whitespace character. -/
def headWs : Str → Bool
  | [] => false
  | c :: _ => isWsC c

/-- Whether a string ends with a whitespace character. -/
def lastWs (s : Str) : Bool :=
  match s.getLast? with
  | some c => isWsC c
  | none => false

/-- No two adjacent whitespace characters (the shape of collapse output). -/
def noDD : Str → Bool
  | [] => true
  | [_] => true
  | a :: b :: r => !(isWsC a && isWsC b) && noDD (b :: r)

/-- The characters a money token can contain (sign, dollar, digits, dot,
comma); used to reason about token spans. -/
def isTokC (c : Char) : Bool :=
  isDigitC c || c = '-' || c = '$' || c = '.' || c = ','

/-! ### General helper lemmas -/

theorem dropWhile_eq_self_of {p : Char → Bool} {s : Str}
    (h : ∀ c ∈ s, p c = false) : s.dropWhile p = s := by
  cases s with
  | nil => rfl
  | cons c cs => simp [List.dropWhile_cons, h c (by simp)]

theorem trim_eq_self_of_no_ws {s : Str} (h : ∀ c ∈ s, isWsC c = false) :
    trim s = s := by
  unfold trim trimLeft trimRight
  rw [dropWhile_eq_self_of (fun c hc => h c (List.mem_reverse.mp hc))]
  rw [List.reverse_reverse]
  exact dropWhile_eq_self_of h

theorem mapIdOn {f : Char → Char} {s : Str} (h : ∀ c ∈ s, f c = c) :
    s.map f = s := by
  induction s with
  | nil => rfl
  | cons c cs ih => simp [h c (by simp)]; exact ih (fun d hd => h d (by simp [hd]))

theorem isWsC_of_isDigitC {c : Char} (h : isDigitC c = true) : isWsC c = false := by
  by_contra hw
  simp only [Bool.not_eq_false] at hw
  simp only [isWsC, Bool.or_eq_true, decide_eq_true_eq] at hw
  rcases hw with ((((((h1 | h1) | h1) | h1) | h1) | h1) | h1) <;>
    (subst h1; simp [isDigitC] at h)

/-! ### C9: getVendorAdapter always returns null -/

/-- C9: getVendorAdapter returns null for every vendor argument, so none of
the vendor hooks (preprocessRawLines, preprocessLogicalLines,
postprocessItems) is ever applied in the deterministic parse pipeline: every
hook application around it is the identity. -/
theorem getVendorAdapter_none :
    (∀ v : Option Str, getVendorAdapter v = none) ∧
    (∀ (v : Option Str) (ls : List Str), applyRawHook (getVendorAdapter v) v ls = ls) ∧
    (∀ (v : Option Str) (ls : List Str), applyLogicalHook (getVendorAdapter v) v ls = ls) ∧
    (∀ (v : Option Str) (its : List Item), applyPostHook (getVendorAdapter v) v its = its) := by
  refine ⟨fun v => ?_, fun v ls => ?_, fun v ls => ?_, fun v its => ?_⟩ <;>
    cases v <;> rfl

/-! ### C10: safeParseNumber trailing minus and parenthesised negatives -/

theorem jsNumber_neg_cons {t : Str} (h : t.head? ≠ some '-') :
    jsNumber ('-' :: t) = (jsNumber t).map (fun q => -q) := by
  have h1 : takeOpt '-' ('-' :: t) = (['-'], t) := by simp [takeOpt]
  have h2 : takeOpt '-' t = ([], t) := by
    cases t with
    | nil => rfl
    | cons c cs =>
      simp only [takeOpt, ite_eq_right_iff]
      intro hc
      subst hc
      simp at h
  unfold jsNumber
  rw [h1, h2]
  dsimp only
  cases jsNumberCore t <;> simp

theorem filter_eq_self_of {p : Char → Bool} {s : Str}
    (h : ∀ c ∈ s, p c = true) : s.filter p = s :=
  List.filter_eq_self.mpr h

/-- C10: safeParseNumber treats a trailing minus sign as negation: for every
numeric string (digits and dots) the value of the string with a trailing
minus appended is the negation of the value of the string itself; and a
fully parenthesised amount such as "($3.00)" parses to a negative value. -/
theorem safeParseNumber_trailing_minus :
    (∀ t : Str, t ≠ [] → (∀ c ∈ t, isDigitC c = true ∨ c = '.') →
      safeParseNumber (t ++ ['-']) = (safeParseNumber t).map (fun q => -q)) ∧
    safeParseNumber (S "($3.00)") = some (-3) := by
  constructor
  · intro t hne hchars
    have hchars2 : ∀ c ∈ t ++ ['-'], isDigitC c = true ∨ c = '.' ∨ c = '-' := by
      intro c hc
      rcases List.mem_append.mp hc with hc | hc
      · rcases hchars c hc with h | h
        · exact Or.inl h
        · exact Or.inr (Or.inl h)
      · simp at hc; subst hc; simp
    have hnws : ∀ c ∈ t ++ ['-'], isWsC c = false := by
      intro c hc
      rcases hchars2 c hc with h | h | h
      · exact isWsC_of_isDigitC h
      · subst h; decide
      · subst h; decide
    have hnwsT : ∀ c ∈ t, isWsC c = false := fun c hc => hnws c (by simp [hc])
    obtain ⟨c0, t0, rfl⟩ : ∃ c0 t0, t = c0 :: t0 := by
      cases t with
      | nil => exact absurd rfl hne
      | cons a b => exact ⟨a, b, rfl⟩
    have hc0 : isDigitC c0 = true ∨ c0 = '.' := hchars c0 (by simp)
    have hc0ne : c0 ≠ '(' := by
      rcases hc0 with h | h
      · intro hx; subst hx; simp [isDigitC] at h
      · intro hx; rw [hx] at h; exact absurd h (by decide)
    have hc0nm : c0 ≠ '-' := by
      rcases hc0 with h | h
      · intro hx; subst hx; simp [isDigitC] at h
      · intro hx; rw [hx] at h; exact absurd h (by decide)
    have hcharNe : ∀ c, (isDigitC c = true ∨ c = '.' ∨ c = '-') →
        (c ≠ '−' ∧ (isDigitC c || c = '.' || c = ',' || c = '-') = true ∧ (c ≠ ',')) := by
      intro c hc
      rcases hc with h | h | h
      · refine ⟨?_, by simp [h], ?_⟩ <;> (intro hx; subst hx; simp [isDigitC] at h)
      · subst h; refine ⟨by decide, by simp, by decide⟩
      · subst h; refine ⟨by decide, by simp, by decide⟩
    -- left side
    unfold safeParseNumber
    rw [if_neg (by simp)]
    rw [if_neg (by simp : ¬(c0 :: t0 = []))]
    rw [trim_eq_self_of_no_ws hnws, trim_eq_self_of_no_ws hnwsT]
    dsimp only
    have hparenL : ¬((c0 :: t0 ++ ['-']).head? = some '(' ∧
        (c0 :: t0 ++ ['-']).getLast? = some ')' ∧ 2 ≤ (c0 :: t0 ++ ['-']).length) := by
      intro hx
      have := hx.1
      simp at this
      exact hc0ne this
    have hparenR : ¬((c0 :: t0).head? = some '(' ∧
        (c0 :: t0).getLast? = some ')' ∧ 2 ≤ (c0 :: t0).length) := by
      intro hx
      have := hx.1
      simp at this
      exact hc0ne this
    rw [if_neg hparenL, if_neg hparenR]
    rw [mapIdOn (fun c hc => by simp [(hcharNe c (hchars2 c hc)).1]),
        mapIdOn (fun c hc => by
          simp [(hcharNe c (by
            rcases hchars c hc with h | h
            · exact Or.inl h
            · exact Or.inr (Or.inl h))).1])]
    rw [filter_eq_self_of (fun c hc => by
          simp only [decide_eq_true_eq]
          exact (hcharNe c (hchars2 c (List.mem_of_mem_filter hc))).2.2),
        filter_eq_self_of (fun c hc => by
          have := (hcharNe c (hchars2 c hc)).2.1
          simp only [Bool.or_eq_true, decide_eq_true_eq] at this ⊢
          tauto),
        filter_eq_self_of (fun c hc => by
          simp only [decide_eq_true_eq]
          exact (hcharNe c (by
            rcases hchars c (List.mem_of_mem_filter hc) with h | h
            · exact Or.inl h
            · exact Or.inr (Or.inl h))).2.2),
        filter_eq_self_of (fun c hc => by
          have := (hcharNe c (by
            rcases hchars c hc with h | h
            · exact Or.inl h
            · exact Or.inr (Or.inl h))).2.1
          simp only [Bool.or_eq_true, decide_eq_true_eq] at this ⊢
          tauto)]
    rw [if_neg (by simp), if_neg (by simp : ¬(c0 :: t0 = []))]
    have hlastL : (c0 :: t0 ++ ['-']).getLast? = some '-' :=
      List.getLast?_concat _
    have hheadL : (c0 :: t0 ++ ['-']).head? = some c0 := by simp
    rw [if_pos (by
      refine ⟨hlastL, ?_⟩
      rw [hheadL]
      simp
      intro hx
      exact hc0nm hx)]
    have hlastR : ¬((c0 :: t0).getLast? = some '-' ∧ (c0 :: t0).head? ≠ some '-') := by
      intro hx
      have hl := hx.1
      have hmem : '-' ∈ c0 :: t0 := by
        exact List.mem_of_mem_getLast? hl
      rcases hchars '-' hmem with h | h
      · simp [isDigitC] at h
      · exact absurd h (by decide)
    rw [if_neg hlastR]
    have hdrop : (c0 :: t0 ++ ['-']).dropLast = c0 :: t0 :=
      List.dropLast_concat
    rw [hdrop]
    rw [jsNumber_neg_cons (by simp; intro hx; exact hc0nm hx)]
    cases jsNumber (c0 :: t0) <;> simp
    rw [if_neg (fun hx => hc0ne hx.1), if_neg (fun hx => hc0ne hx.1)]
  · with_unfolding_all decide

/-- Witness for C10: the trailing-minus law applied at the concrete numeric
string "2.40", so "2.40-" parses to -2.40. -/
theorem safeParseNumber_trailing_minus_witness :
    safeParseNumber (S "2.40" ++ ['-']) = (safeParseNumber (S "2.40")).map (fun q => -q) :=
  safeParseNumber_trailing_minus.1 (S "2.40") (by decide) (by decide)

theorem scoreConfidence_bounds (hv hd ht : Bool) (lc pc : Nat) :
    0 ≤ scoreConfidence hv hd ht lc pc ∧ scoreConfidence hv hd ht lc pc ≤ 1 := by
  simp only [scoreConfidence, clamp01, jsMax_eq, jsMin_eq]
  exact ⟨le_max_left 0 _, max_le (by norm_num) (min_le_left 1 _)⟩

/-- C5: the confidence score follows the additive formula (0.20 vendor, 0.20
date, 0.25 total, capped line-count and priced-ratio terms) clamped to [0,1];
needsReview holds exactly when the score is under the 0.85 default minimum,
fewer than 3 items were extracted, or no total was found; and the parse wires
exactly these quantities together. -/
theorem scoreConfidence_formula :
    (∀ (hv hd ht : Bool) (lc pc : Nat),
        scoreConfidence hv hd ht lc pc =
          max 0 (min 1
            ((if hv then (20 : ℚ) / 100 else 0) + (if hd then (20 : ℚ) / 100 else 0) +
              (if ht then (25 : ℚ) / 100 else 0) + min ((20 : ℚ) / 100) ((lc : ℚ) / 40) +
              min ((15 : ℚ) / 100)
                ((if 0 < lc then (pc : ℚ) / (lc : ℚ) else 0) * (25 / 100))))) ∧
    (∀ (conf : ℚ) (n : Nat) (tot : Option ℚ),
        needsReviewCalc conf n tot = true ↔
          conf < minConfDefault ∨ n < 3 ∨ tot = none) ∧
    minConfDefault = 85 / 100 ∧
    (∀ t : Str,
        (parseReceiptTextDeterministic t).confidence =
          scoreConfidence (vendorOf t).isSome (extractDate (t.map normChar)).isSome
            (totalsScan (logicalFixedOf t)).1.isSome
            (parseReceiptTextDeterministic t).lines.length (pricedCountOf t) ∧
        (parseReceiptTextDeterministic t).needsReview =
          needsReviewCalc (parseReceiptTextDeterministic t).confidence
            (parseReceiptTextDeterministic t).lines.length
            (totalsScan (logicalFixedOf t)).1) := by
  refine ⟨?_, ?_, rfl, fun t => ⟨rfl, rfl⟩⟩
  · intro hv hd ht lc pc
    simp only [scoreConfidence, clamp01, jsMin_eq, jsMax_eq]
    split_ifs <;> ring_nf
  · intro conf n tot
    simp [needsReviewCalc, Option.isNone_iff_eq_none, minConfDefault, or_assoc]

/-- C7: the deterministic parser is a total function whose confidence always
lies in [0,1]; on empty input text it yields no items, confidence 0,
needsReview true and an empty receipt header. -/
theorem parse_empty_and_total :
    (∀ t : Str, 0 ≤ (parseReceiptTextDeterministic t).confidence ∧
        (parseReceiptTextDeterministic t).confidence ≤ 1) ∧
    (parseReceiptTextDeterministic (S "")).lines = [] ∧
    (parseReceiptTextDeterministic (S "")).confidence = 0 ∧
    (parseReceiptTextDeterministic (S "")).needsReview = true ∧
    (parseReceiptTextDeterministic (S "")).receipt = ⟨none, none, none, none, none⟩ := by
  refine ⟨fun t => scoreConfidence_bounds _ _ _ _ _, ?_, ?_, ?_, ?_⟩ <;>
    with_unfolding_all decide

/-- C2: the actual result of the pipeline on ["BANANAS", "3.04 lb @ 0.54",
"1.64"]: one item named BANANAS with weight 3.04 and unit lb, but with
unitPrice and lineTotal both 0.54 (the @-rate token) and produce metadata not
math-validated, while the claim expects lineTotal 1.64 and mathValidated
true; 0.54 differs from 1.64. -/
theorem bananas_pipeline_actual :
    (parseReceiptTextDeterministic (S "BANANAS\n3.04 lb @ 0.54\n1.64")).lines =
      [⟨S "BANANAS 3.04 lb @ 0.54", S "BANANAS", none, none, none, some 1, none,
        some (27 / 50), some (27 / 50), some (304 / 100), some (S "lb"),
        some ⟨17 / 20, S "produce:full+mathMismatch", false, false⟩⟩] ∧
    ¬((27 / 50 : ℚ) = 164 / 100) := by
  constructor <;> with_unfolding_all decide

/-- Counterexample to C4 as stated: on "BANANAS 3.04 lb @ 0.54 1.64" all four
components resolve and the math validates, yet the confidence is 1 (the +0.15
shift is capped at 1.0), not the additive 0.35+0.35+0.20+0.10+0.15 = 1.15. -/
theorem detectProduce_cap_cex :
    ((detectProduce (S "BANANAS 3.04 lb @ 0.54 1.64") none).map
        (fun m => (m.confidenceScore, m.mathValidated))) = some (1, true) ∧
    ¬((1 : ℚ) = 35 / 100 + 35 / 100 + 20 / 100 + 10 / 100 + 15 / 100) := by
  constructor <;> with_unfolding_all decide

/-- Counterexample to C6 as stated: on blank text the selector score is the
sentinel -1000000000, while the claimed formula evaluates to 0. -/
theorem scoreReceiptText_blank_cex :
    scoreReceiptText (S "") = -1000000000 ∧ specSelectorScore (S "") = 0 ∧
    ¬(scoreReceiptText (S "") = specSelectorScore (S "")) := by
  have h1 : scoreReceiptText (S "") = -1000000000 := by
    show (if trim ((S "").filter (fun c => c ≠ '\r')) = [] then (-1000000000 : ℚ)
        else scoreReceiptText (S "")) = -1000000000
    rw [if_pos (by decide)]
  have h2 : specSelectorScore (S "") = 0 := by with_unfolding_all decide
  refine ⟨h1, h2, ?_⟩
  rw [h1, h2]
  norm_num

/-- C6 (amended): the selector score follows the claimed weighted formula for
every text that is non-blank after removing carriage returns, while blank
text scores the sentinel -1000000000; in automatic mode the geometry text is
chosen exactly when it is non-empty and its score strictly exceeds the linear
score plus 5, and with no geometry text the linear text is kept. -/
theorem scoreReceiptText_amended :
    (∀ t : Str,
        scoreReceiptText t =
          if trim (t.filter (fun c => c ≠ '\r')) = [] then -1000000000
          else specSelectorScore t) ∧
    (∀ t g : Str,
        ((chooseOcrText t (some g) OcrMode.auto).chosenGeo = true ↔
          g ≠ [] ∧ scoreReceiptText t + 5 < scoreReceiptText g) ∧
        (chooseOcrText t (some g) OcrMode.auto).chosenText =
          (if g ≠ [] ∧ scoreReceiptText t + 5 < scoreReceiptText g then g else t)) ∧
    (∀ t : Str, chooseOcrText t none OcrMode.auto =
        ⟨t, false, scoreReceiptText t, -1000000000⟩) := by
  refine ⟨fun t => rfl, ?_, fun t => rfl⟩
  intro t g
  rcases g with _ | ⟨c, cs⟩
  · rw [show chooseOcrText t (some []) OcrMode.auto =
        ⟨t, false, scoreReceiptText t, -1000000000⟩ from rfl]
    constructor
    · simp
    · simp
  · rw [show chooseOcrText t (some (c :: cs)) OcrMode.auto =
        (if scoreReceiptText t + 5 < scoreReceiptText (c :: cs)
         then ⟨c :: cs, true, scoreReceiptText t, scoreReceiptText (c :: cs)⟩
         else ⟨t, false, scoreReceiptText t, scoreReceiptText (c :: cs)⟩ : OcrChoice)
        from rfl]
    by_cases hcmp : scoreReceiptText t + 5 < scoreReceiptText (c :: cs)
    · rw [if_pos hcmp]
      constructor
      · simp [hcmp]
      · simp [hcmp]
    · rw [if_neg hcmp]
      constructor
      · simp [hcmp]
      · simp [hcmp]

theorem produce_spec_core (tol : ℚ) (N0 : Option Str) (m : ProduceMeta)
    (hN : m.namePart = N0.bind (fun np => if np = [] then none else some np))
    (hMV : m.mathValidated =
      (match m.weight, m.unitPrice, m.lineTotal with
       | some w, some up, some lt =>
           (m.weight.isSome && m.unit.isSome && m.unitPrice.isSome && m.lineTotal.isSome)
             && approxEqual (w * up) lt (jsMax tol (2 / 100))
       | _, _, _ => false))
    (hCS : m.confidenceScore = jsMax 0 (jsMin 1
      (if (m.weight.isSome && m.unit.isSome && m.unitPrice.isSome && m.lineTotal.isSome)
          && m.mathValidated then
         jsMin 1 (((if m.weight.isSome && m.unit.isSome then (35 : ℚ) / 100 else 0) +
           (if m.unitPrice.isSome then (35 : ℚ) / 100 else 0) +
           (if m.lineTotal.isSome then (20 : ℚ) / 100 else 0) +
           (if (match N0 with
                | some np => np ≠ [] && np.any (fun c => isLetterC c)
                | none => false) then (10 : ℚ) / 100 else 0)) + 15 / 100)
       else if (m.weight.isSome && m.unit.isSome && m.unitPrice.isSome && m.lineTotal.isSome)
          && !m.mathValidated then
         jsMax (20 / 100) (((if m.weight.isSome && m.unit.isSome then (35 : ℚ) / 100 else 0) +
           (if m.unitPrice.isSome then (35 : ℚ) / 100 else 0) +
           (if m.lineTotal.isSome then (20 : ℚ) / 100 else 0) +
           (if (match N0 with
                | some np => np ≠ [] && np.any (fun c => isLetterC c)
                | none => false) then (10 : ℚ) / 100 else 0)) - 15 / 100)
       else ((if m.weight.isSome && m.unit.isSome then (35 : ℚ) / 100 else 0) +
           (if m.unitPrice.isSome then (35 : ℚ) / 100 else 0) +
           (if m.lineTotal.isSome then (20 : ℚ) / 100 else 0) +
           (if (match N0 with
                | some np => np ≠ [] && np.any (fun c => isLetterC c)
                | none => false) then (10 : ℚ) / 100 else 0))))) :
    (m.mathValidated = true ↔
      ∃ w up lt, m.weight = some w ∧ m.unitPrice = some up ∧ m.lineTotal = some lt ∧
        m.unit.isSome = true ∧ jsAbs (w * up - lt) ≤ jsMax tol (2 / 100)) ∧
    m.confidenceScore = jsMax 0 (jsMin 1
      (if (m.weight.isSome && m.unit.isSome && m.unitPrice.isSome && m.lineTotal.isSome)
          && m.mathValidated then jsMin 1 (specProduceBase m + 15 / 100)
       else if (m.weight.isSome && m.unit.isSome && m.unitPrice.isSome && m.lineTotal.isSome)
          && !m.mathValidated then jsMax (20 / 100) (specProduceBase m - 15 / 100)
       else specProduceBase m)) := by
  have hname : (match N0 with
      | some np => np ≠ [] && np.any (fun c => isLetterC c)
      | none => false) =
      (match N0.bind (fun np => if np = [] then none else some np) with
       | some np => np.any (fun c => isLetterC c)
       | none => false) := by
    rcases N0 with _ | np
    · rfl
    · by_cases hnp : np = []
      · subst hnp; rfl
      · simp [hnp]
  constructor
  · rw [hMV]
    cases hw : m.weight with
    | none => simp
    | some w =>
      cases hp : m.unitPrice with
      | none => simp
      | some up =>
        cases hl : m.lineTotal with
        | none => simp
        | some lt =>
          simp [approxEqual, decide_eq_true_eq, Bool.and_eq_true, and_assoc]
  · rw [hCS]
    simp only [specProduceBase, hN]
    rw [hname]

/-- C4 (amended): whenever detectProduce fires, mathValidated holds exactly
when weight, unit, unitPrice and lineTotal all resolved and
|weight × unitPrice − lineTotal| ≤ max(tolerance, 0.02) with the tolerance
defaulting to 0.02; and the confidence is the additive base (0.35, 0.35,
0.20, 0.10) shifted by math validation — up by 0.15 capped at 1.0, down by
0.15 floored at 0.2 — and clamped to [0,1]. -/
theorem detectProduce_amended :
    ∀ (lineRaw : Str) (tolOpt : Option ℚ) (m : ProduceMeta),
      detectProduce lineRaw tolOpt = some m →
      ((m.mathValidated = true ↔
          ∃ w up lt, m.weight = some w ∧ m.unitPrice = some up ∧ m.lineTotal = some lt ∧
            m.unit.isSome = true ∧
            jsAbs (w * up - lt) ≤ jsMax (tolOpt.getD (2 / 100)) (2 / 100)) ∧
        m.confidenceScore = jsMax 0 (jsMin 1
          (if (m.weight.isSome && m.unit.isSome && m.unitPrice.isSome && m.lineTotal.isSome)
              && m.mathValidated then jsMin 1 (specProduceBase m + 15 / 100)
           else if (m.weight.isSome && m.unit.isSome && m.unitPrice.isSome &&
              m.lineTotal.isSome) && !m.mathValidated then
             jsMax (20 / 100) (specProduceBase m - 15 / 100)
           else specProduceBase m))) := by
  intro lineRaw tolOpt m h
  rcases tolOpt with _ | t0 <;>
  · unfold detectProduce at h
    dsimp only at h
    by_cases h0 : trim (squash lineRaw) = []
    · rw [if_pos h0] at h
      exact absurd h (by simp)
    · rw [if_neg h0] at h
      cases hs : hasProduceSignals (trim (squash lineRaw)) with
      | false =>
          rw [if_pos (show (!hasProduceSignals (trim (squash lineRaw))) = true by
            rw [hs]; rfl)] at h
          exact absurd h (by simp)
      | true =>
          rw [if_neg (show ¬(!hasProduceSignals (trim (squash lineRaw))) = true by
            rw [hs]; decide)] at h
          rw [Option.some.injEq] at h
          subst h
          exact produce_spec_core _ _ _ rfl rfl rfl

/-- Witness for C4: the amended characterization applied to the detector's
output on "BANANAS 3.04 lb @ 0.54 1.64". -/
theorem detectProduce_amended_witness :
    ((bananasProduceMeta.mathValidated = true ↔
        ∃ w up lt, bananasProduceMeta.weight = some w ∧
          bananasProduceMeta.unitPrice = some up ∧ bananasProduceMeta.lineTotal = some lt ∧
          bananasProduceMeta.unit.isSome = true ∧
          jsAbs (w * up - lt) ≤ jsMax ((none : Option ℚ).getD (2 / 100)) (2 / 100)) ∧
      bananasProduceMeta.confidenceScore = jsMax 0 (jsMin 1
        (if (bananasProduceMeta.weight.isSome && bananasProduceMeta.unit.isSome &&
            bananasProduceMeta.unitPrice.isSome && bananasProduceMeta.lineTotal.isSome)
            && bananasProduceMeta.mathValidated then
           jsMin 1 (specProduceBase bananasProduceMeta + 15 / 100)
         else if (bananasProduceMeta.weight.isSome && bananasProduceMeta.unit.isSome &&
            bananasProduceMeta.unitPrice.isSome && bananasProduceMeta.lineTotal.isSome)
            && !bananasProduceMeta.mathValidated then
           jsMax (20 / 100) (specProduceBase bananasProduceMeta - 15 / 100)
         else specProduceBase bananasProduceMeta))) :=
  detectProduce_amended (S "BANANAS 3.04 lb @ 0.54 1.64") none bananasProduceMeta
    (by with_unfolding_all decide)

theorem pickTok_core {l : Str} {tok : MoneyTok} (h : pickLineTotalToken l = some tok) :
    (tok.start, tok.raw) ∈ moneyScan l ∧ tok.stop = tok.start + tok.raw.length := by
  have hmem : tok ∈ moneyHitsOf l := by
    unfold pickLineTotalToken at h
    dsimp only at h
    rcases hf : (moneyHitsOf l).reverse.find? (fun h => !h.perUnit) with _ | tk
    · rw [hf] at h
      dsimp only at h
      exact List.mem_of_mem_getLast? h
    · rw [hf] at h
      dsimp only at h
      rw [Option.some.injEq] at h
      subst h
      exact List.mem_reverse.mp (List.mem_of_find?_eq_some hf)
  unfold moneyHitsOf at hmem
  obtain ⟨⟨j, t⟩, hjt, hcase⟩ := List.mem_filterMap.mp hmem
  rcases hv : safeParseNumber t with _ | v
  · rw [hv] at hcase
    exact absurd hcase (by simp)
  · rw [hv] at hcase
    dsimp only at hcase
    rw [Option.some.injEq] at hcase
    subst hcase
    exact ⟨hjt, rfl⟩

/-- C8: removing the picked line-total token's matched span and re-inserting
the token's raw text at the same offset reproduces the line: the line equals
its prefix up to the token's start, the raw text, then the suffix from the
token's stop, and the stop is the start plus the raw text's length. -/
theorem pickLineTotalToken_roundtrip :
    ∀ (l : Str) (tok : MoneyTok), pickLineTotalToken l = some tok →
      l = l.take tok.start ++ tok.raw ++ l.drop tok.stop ∧
      tok.stop = tok.start + tok.raw.length := by
  intro l tok h
  obtain ⟨hmem, hstop⟩ := pickTok_core h
  obtain ⟨x, y, hxy, hlen⟩ := moneyScan_sound hmem
  rw [hstop, ← hlen]
  constructor
  · conv_lhs => rw [hxy]
    rw [hxy, List.append_assoc, List.take_left' rfl, ← List.append_assoc,
      List.drop_left' (by simp)]
  · rfl

/-- Witness for C8: the round trip at the concrete line "MILK 3.99", whose
picked token is "3.99" spanning positions 5 to 9. -/
theorem pickLineTotalToken_roundtrip_witness :
    S "MILK 3.99" =
      (S "MILK 3.99").take (MoneyTok.mk (399 / 100) (S "3.99") 5 9 false).start ++
        (MoneyTok.mk (399 / 100) (S "3.99") 5 9 false).raw ++
        (S "MILK 3.99").drop (MoneyTok.mk (399 / 100) (S "3.99") 5 9 false).stop ∧
    (MoneyTok.mk (399 / 100) (S "3.99") 5 9 false).stop =
      (MoneyTok.mk (399 / 100) (S "3.99") 5 9 false).start +
        (MoneyTok.mk (399 / 100) (S "3.99") 5 9 false).raw.length :=
  pickLineTotalToken_roundtrip (S "MILK 3.99") (MoneyTok.mk (399 / 100) (S "3.99") 5 9 false)
    (by with_unfolding_all decide)

theorem headWs_append {x y : Str} (h : x ≠ []) : headWs (x ++ y) = headWs x := by
  cases x with
  | nil => exact absurd rfl h
  | cons c cs => rfl

theorem lastWs_cons {c : Char} {cs : Str} (h : cs ≠ []) : lastWs (c :: cs) = lastWs cs := by
  cases cs with
  | nil => exact absurd rfl h
  | cons d ds => rfl

theorem lastWs_append {x y : Str} (h : y ≠ []) : lastWs (x ++ y) = lastWs y := by
  unfold lastWs
  rw [List.getLast?_append_of_ne_nil x h]

theorem lastWs_reverse (z : Str) : lastWs z.reverse = headWs z := by
  unfold lastWs
  rw [List.getLast?_reverse]
  cases z <;> rfl

theorem headWs_reverse (s : Str) : headWs s.reverse = lastWs s := by
  have := lastWs_reverse s.reverse
  rw [List.reverse_reverse] at this
  exact this.symm

theorem headWs_dropWhileWs (s : Str) : headWs (s.dropWhile (fun c => isWsC c)) = false := by
  induction s with
  | nil => rfl
  | cons c cs ih =>
    by_cases h : isWsC c = true
    · rw [List.dropWhile_cons_of_pos (by simpa using h)]
      exact ih
    · rw [List.dropWhile_cons_of_neg (by simpa using h)]
      simpa [headWs] using h

theorem dropWhileWs_eq_self {s : Str} (h : headWs s = false) :
    s.dropWhile (fun c => isWsC c) = s := by
  cases s with
  | nil => rfl
  | cons c cs =>
    exact List.dropWhile_cons_of_neg (by simpa [headWs] using h)

theorem lastWs_dropWhileWs {s : Str} (h : lastWs s = false) :
    lastWs (s.dropWhile (fun c => isWsC c)) = false := by
  induction s with
  | nil => exact h
  | cons c cs ih =>
    by_cases hc : isWsC c = true
    · rw [List.dropWhile_cons_of_pos (by simpa using hc)]
      cases cs with
      | nil => rfl
      | cons d ds => exact ih (by rwa [lastWs_cons (by simp)] at h)
    · rwa [List.dropWhile_cons_of_neg (by simpa using hc)]

theorem trimLeft_eq_self_clean {s : Str} (h : headWs s = false) : trimLeft s = s :=
  dropWhileWs_eq_self h

theorem trimRight_eq_self_clean {s : Str} (h : lastWs s = false) : trimRight s = s := by
  unfold trimRight
  rw [dropWhileWs_eq_self (by rwa [headWs_reverse]), List.reverse_reverse]

theorem trim_eq_self_clean {s : Str} (h1 : headWs s = false) (h2 : lastWs s = false) :
    trim s = s := by
  unfold trim
  rw [trimRight_eq_self_clean h2, trimLeft_eq_self_clean h1]

theorem trim_headWs (s : Str) : headWs (trim s) = false :=
  headWs_dropWhileWs _

theorem trim_lastWs (s : Str) : lastWs (trim s) = false := by
  unfold trim trimLeft
  apply lastWs_dropWhileWs
  unfold trimRight
  rw [lastWs_reverse]
  exact headWs_dropWhileWs _

theorem trim_trim (s : Str) : trim (trim s) = trim s :=
  trim_eq_self_clean (trim_headWs s) (trim_lastWs s)

theorem noDD_cons (a : Char) (X : Str) :
    noDD (a :: X) = (!(isWsC a && headWs X) && noDD X) := by
  cases X with
  | nil => simp [noDD, headWs]
  | cons b r => rfl

theorem collapseSt_true_head : ∀ s : Str, headWs (collapseSt true s) = false := by
  intro s
  induction s with
  | nil => rfl
  | cons c cs ih =>
    cases hc : isWsC c with
    | true => simpa [collapseSt, hc] using ih
    | false =>
      rw [show collapseSt true (c :: cs) = c :: collapseSt false cs by
        simp [collapseSt, hc]]
      simpa [headWs] using hc

theorem collapseSt_false_head {d : Char} {r : Str} (h : isWsC d = false) :
    headWs (collapseSt false (d :: r)) = false := by
  rw [show collapseSt false (d :: r) = d :: collapseSt false r by simp [collapseSt, h]]
  simpa [headWs] using h

theorem collapseSt_noDD : ∀ (s : Str) (b : Bool), noDD (collapseSt b s) = true := by
  intro s
  induction s with
  | nil => intro b; cases b <;> rfl
  | cons c cs ih =>
    intro b
    cases b with
    | true =>
      cases hc : isWsC c with
      | true => simpa [collapseSt, hc] using ih true
      | false =>
        rw [show collapseSt true (c :: cs) = c :: collapseSt false cs by
          simp [collapseSt, hc], noDD_cons]
        simp [hc, ih false]
    | false =>
      cases hc : isWsC c with
      | false =>
        rw [show collapseSt false (c :: cs) = c :: collapseSt false cs by
          simp [collapseSt, hc], noDD_cons]
        simp [hc, ih false]
      | true =>
        cases cs with
        | nil => simp [collapseSt, hc, noDD]
        | cons d r =>
          cases hd : isWsC d with
          | true =>
            rw [show collapseSt false (c :: d :: r) = ' ' :: collapseSt true (d :: r) by
              simp [collapseSt, hc, hd], noDD_cons]
            simp [collapseSt_true_head, ih true]
          | false =>
            rw [show collapseSt false (c :: d :: r) = c :: collapseSt false (d :: r) by
              simp [collapseSt, hc, hd], noDD_cons]
            simp [collapseSt_false_head hd, ih false]

theorem collapse_eq_self_of_noDD : ∀ {s : Str}, noDD s = true → collapse s = s := by
  intro s
  induction s with
  | nil => intro _; rfl
  | cons c cs ih =>
    intro h
    rw [noDD_cons, Bool.and_eq_true] at h
    obtain ⟨h1, h2⟩ := h
    cases hc : isWsC c with
    | false =>
      unfold collapse at ih ⊢
      rw [show collapseSt false (c :: cs) = c :: collapseSt false cs by
        simp [collapseSt, hc], ih h2]
    | true =>
      rw [hc] at h1
      simp only [Bool.true_and, Bool.not_eq_true'] at h1
      cases cs with
      | nil => simp [collapse, collapseSt, hc]
      | cons d r =>
        have hd : isWsC d = false := by simpa [headWs] using h1
        unfold collapse at ih ⊢
        rw [show collapseSt false (c :: d :: r) = c :: collapseSt false (d :: r) by
          simp [collapseSt, hc, hd], ih h2]

theorem collapseSt_lastWs : ∀ (s : Str), s ≠ [] → lastWs s = false →
    ∀ b, collapseSt b s ≠ [] ∧ lastWs (collapseSt b s) = false := by
  intro s
  induction s with
  | nil => intro h; exact absurd rfl h
  | cons c cs ih =>
    intro _ hlast b
    cases cs with
    | nil =>
      have hc : isWsC c = false := by simpa [lastWs] using hlast
      cases b <;>
        (rw [show collapseSt _ [c] = [c] by simp [collapseSt, hc]]
         exact ⟨by simp, by simpa [lastWs] using hc⟩)
    | cons d r =>
      have hlast2 : lastWs (d :: r) = false := by
        rwa [lastWs_cons (by simp)] at hlast
      have ihd := ih (by simp) hlast2
      cases b with
      | true =>
        cases hc : isWsC c with
        | true => simpa [collapseSt, hc] using ihd true
        | false =>
          rw [show collapseSt true (c :: d :: r) = c :: collapseSt false (d :: r) by
            simp [collapseSt, hc]]
          refine ⟨by simp, ?_⟩
          rw [lastWs_cons (ihd false).1]
          exact (ihd false).2
      | false =>
        cases hc : isWsC c with
        | false =>
          rw [show collapseSt false (c :: d :: r) = c :: collapseSt false (d :: r) by
            simp [collapseSt, hc]]
          refine ⟨by simp, ?_⟩
          rw [lastWs_cons (ihd false).1]
          exact (ihd false).2
        | true =>
          cases hd : isWsC d with
          | true =>
            rw [show collapseSt false (c :: d :: r) = ' ' :: collapseSt true (d :: r) by
              simp [collapseSt, hc, hd]]
            refine ⟨by simp, ?_⟩
            rw [lastWs_cons (ihd true).1]
            exact (ihd true).2
          | false =>
            rw [show collapseSt false (c :: d :: r) = c :: collapseSt false (d :: r) by
              simp [collapseSt, hc, hd]]
            refine ⟨by simp, ?_⟩
            rw [lastWs_cons (ihd false).1]
            exact (ihd false).2

theorem collapseSt_append : ∀ (a : Str), a ≠ [] → lastWs a = false →
    ∀ (b : Bool) (r : Str), collapseSt b (a ++ r) = collapseSt b a ++ collapseSt false r := by
  intro a
  induction a with
  | nil => intro h; exact absurd rfl h
  | cons c cs ih =>
    intro _ hlast b r
    cases cs with
    | nil =>
      have hc : isWsC c = false := by simpa [lastWs] using hlast
      cases b <;>
        simp [collapseSt, hc]
    | cons d cs2 =>
      have hlast2 : lastWs (d :: cs2) = false := by
        rwa [lastWs_cons (by simp)] at hlast
      have ihd : ∀ b, collapseSt b (d :: (cs2 ++ r)) =
          collapseSt b (d :: cs2) ++ collapseSt false r := by
        intro b
        have h0 := ih (by simp) hlast2 b r
        rwa [List.cons_append] at h0
      rw [List.cons_append, List.cons_append]
      cases b with
      | true =>
        cases hc : isWsC c with
        | true =>
          rw [show collapseSt true (c :: (d :: (cs2 ++ r))) =
              collapseSt true (d :: (cs2 ++ r)) by simp [collapseSt, hc],
            show collapseSt true (c :: (d :: cs2)) = collapseSt true (d :: cs2) by
              simp [collapseSt, hc]]
          exact ihd true
        | false =>
          rw [show collapseSt true (c :: (d :: (cs2 ++ r))) =
              c :: collapseSt false (d :: (cs2 ++ r)) by simp [collapseSt, hc],
            show collapseSt true (c :: (d :: cs2)) = c :: collapseSt false (d :: cs2) by
              simp [collapseSt, hc]]
          rw [List.cons_append, ihd false]
      | false =>
        cases hc : isWsC c with
        | false =>
          rw [show collapseSt false (c :: (d :: (cs2 ++ r))) =
              c :: collapseSt false (d :: (cs2 ++ r)) by simp [collapseSt, hc],
            show collapseSt false (c :: (d :: cs2)) = c :: collapseSt false (d :: cs2) by
              simp [collapseSt, hc]]
          rw [List.cons_append, ihd false]
        | true =>
          cases hd : isWsC d with
          | true =>
            rw [show collapseSt false (c :: (d :: (cs2 ++ r))) =
                ' ' :: collapseSt true (d :: (cs2 ++ r)) by simp [collapseSt, hc, hd],
              show collapseSt false (c :: (d :: cs2)) = ' ' :: collapseSt true (d :: cs2) by
                simp [collapseSt, hc, hd]]
            rw [List.cons_append, ihd true]
          | false =>
            rw [show collapseSt false (c :: (d :: (cs2 ++ r))) =
                c :: collapseSt false (d :: (cs2 ++ r)) by simp [collapseSt, hc, hd],
              show collapseSt false (c :: (d :: cs2)) = c :: collapseSt false (d :: cs2) by
                simp [collapseSt, hc, hd]]
            rw [List.cons_append, ihd false]

theorem collapse_sep {bb : Str} (h : headWs bb = false) (hne : bb ≠ []) :
    collapseSt false (' ' :: bb) = ' ' :: collapse bb := by
  cases bb with
  | nil => exact absurd rfl hne
  | cons e r =>
    have he : isWsC e = false := by simpa [headWs] using h
    rw [show collapseSt false (' ' :: e :: r) = ' ' :: collapseSt false (e :: r) by
      simp [collapseSt, he, show isWsC ' ' = true from rfl]]
    rfl

theorem collapse_head_clean {c : Char} {cs : Str} (hc : isWsC c = false) :
    collapse (c :: cs) ≠ [] ∧ headWs (collapse (c :: cs)) = false := by
  unfold collapse
  rw [show collapseSt false (c :: cs) = c :: collapseSt false cs by simp [collapseSt, hc]]
  exact ⟨by simp, by simpa [headWs] using hc⟩

theorem collapse_clean {a : Str} (ha : a ≠ []) (hha : headWs a = false)
    (hla : lastWs a = false) :
    collapse a ≠ [] ∧ headWs (collapse a) = false ∧ lastWs (collapse a) = false := by
  rcases a with _ | ⟨c, cs⟩
  · exact absurd rfl ha
  · have hc : isWsC c = false := by simpa [headWs] using hha
    obtain ⟨h1, h2⟩ := @collapse_head_clean c cs hc
    exact ⟨h1, h2, (collapseSt_lastWs (c :: cs) (by simp) hla false).2⟩

theorem joinSp_eq {a b : Str} (ha : a ≠ []) (hha : headWs a = false) (hla : lastWs a = false)
    (hb : b ≠ []) (hhb : headWs b = false) (hlb : lastWs b = false) :
    joinSp a b = collapse a ++ ' ' :: collapse b := by
  have hca := collapse_clean ha hha hla
  have hcb := collapse_clean hb hhb hlb
  have h1 : collapse (a ++ ' ' :: b) = collapse a ++ ' ' :: collapse b := by
    unfold collapse
    rw [collapseSt_append a ha hla false (' ' :: b), collapse_sep hhb hb]
    rfl
  unfold joinSp
  rw [h1]
  apply trim_eq_self_clean
  · rw [headWs_append hca.1]
    exact hca.2.1
  · rw [lastWs_append (show ' ' :: collapse b ≠ [] from by simp),
      lastWs_cons hcb.1]
    exact hcb.2.2

theorem noDD_append_sep : ∀ {x : Str}, noDD x = true → lastWs x = false →
    ∀ {y : Str}, noDD y = true → headWs y = false → noDD (x ++ ' ' :: y) = true := by
  intro x
  induction x with
  | nil =>
    intro _ _ y hy hhy
    rw [List.nil_append, noDD_cons]
    simp [hy, hhy]
  | cons a x2 ih =>
    intro hx hlx y hy hhy
    rw [noDD_cons, Bool.and_eq_true] at hx
    obtain ⟨h1, h2⟩ := hx
    rw [List.cons_append, noDD_cons]
    cases x2 with
    | nil =>
      have hha : isWsC a = false := by simpa [lastWs] using hlx
      rw [List.nil_append, noDD_cons]
      simp [hha, hy, hhy]
    | cons b x3 =>
      have hlx2 : lastWs (b :: x3) = false := by rwa [lastWs_cons (by simp)] at hlx
      have ihx := ih h2 hlx2 hy hhy
      rw [headWs_append (show b :: x3 ≠ [] from by simp), ihx]
      simpa using h1

theorem occursIn_self (t : Str) : OccursIn t t := ⟨[], [], by simp⟩

theorem occursIn_append_right {t s : Str} (h : OccursIn t s) (r : Str) :
    OccursIn t (s ++ r) := by
  obtain ⟨x, y, rfl⟩ := h
  exact ⟨x, y ++ r, by simp⟩

theorem occursIn_append_left {t s : Str} (h : OccursIn t s) (r : Str) :
    OccursIn t (r ++ s) := by
  obtain ⟨x, y, rfl⟩ := h
  exact ⟨r ++ x, y, by simp⟩

theorem updateLast_spec (f : Str → Str) : ∀ (xs : List Str) (h : xs ≠ []),
    updateLast f xs = xs.dropLast ++ [f (xs.getLast h)] := by
  intro xs
  induction xs with
  | nil => intro h; exact absurd rfl h
  | cons x xs2 ih =>
    intro h
    cases xs2 with
    | nil => rfl
    | cons y ys =>
      rw [show updateLast f (x :: y :: ys) = x :: updateLast f (y :: ys) from rfl,
        ih (by simp)]
      rfl

theorem flushPending_clean {st : List Str × Str}
    (hout : ∀ s ∈ st.1, s ≠ [] ∧ headWs s = false ∧ lastWs s = false)
    (hpend : st.2 ≠ [] → headWs st.2 = false ∧ lastWs st.2 = false) :
    (∀ s ∈ (flushPending st).1, s ≠ [] ∧ headWs s = false ∧ lastWs s = false) ∧
    (flushPending st).2 = [] ∧
    (∀ X : Str,
      ((∃ s ∈ st.1, OccursIn X (collapse s)) ∨ (st.2 ≠ [] ∧ OccursIn X (collapse st.2))) →
      ∃ u ∈ (flushPending st).1, OccursIn X (collapse u)) := by
  unfold flushPending
  by_cases hp : st.2 = []
  · rw [if_pos hp]
    refine ⟨hout, hp, ?_⟩
    intro X hX
    rcases hX with ⟨s, hs, hXs⟩ | ⟨hne, _⟩
    · exact ⟨s, hs, hXs⟩
    · exact absurd hp hne
  · rw [if_neg hp]
    obtain ⟨hh, hl⟩ := hpend hp
    have hcl := collapse_clean hp hh hl
    have htc : trim (collapse st.2) = collapse st.2 := trim_eq_self_clean hcl.2.1 hcl.2.2
    refine ⟨?_, rfl, ?_⟩
    · intro s hs
      rcases List.mem_append.mp hs with hs | hs
      · exact hout s hs
      · rw [List.mem_singleton] at hs
        subst hs
        rw [htc]
        exact hcl
    · intro X hX
      rcases hX with ⟨s, hs, hXs⟩ | ⟨_, hXp⟩
      · exact ⟨s, List.mem_append_left _ hs, hXs⟩
      · refine ⟨trim (collapse st.2), List.mem_append_right _ (by simp), ?_⟩
        rw [htc, @collapse_eq_self_of_noDD (collapse st.2) (collapseSt_noDD st.2 false)]
        exact hXp

theorem joinSp_clean {a b : Str} (ha : a ≠ []) (hha : headWs a = false) (hla : lastWs a = false)
    (hb : b ≠ []) (hhb : headWs b = false) (hlb : lastWs b = false) :
    joinSp a b ≠ [] ∧ headWs (joinSp a b) = false ∧ lastWs (joinSp a b) = false ∧
    collapse (joinSp a b) = collapse a ++ ' ' :: collapse b := by
  have he := joinSp_eq ha hha hla hb hhb hlb
  have hnd : noDD (joinSp a b) = true := by
    rw [he]
    exact noDD_append_sep (collapseSt_noDD a false) (collapse_clean ha hha hla).2.2
      (collapseSt_noDD b false) (collapse_clean hb hhb hlb).2.1
  refine ⟨?_, trim_headWs _, trim_lastWs _, ?_⟩
  · rw [he]; simp
  · rw [collapse_eq_self_of_noDD hnd, he]

theorem stitch_emit_case {st : List Str × Str} {l0 : Str}
    (hout : ∀ s ∈ st.1, s ≠ [] ∧ headWs s = false ∧ lastWs s = false)
    (hpend : st.2 ≠ [] → headWs st.2 = false ∧ lastWs st.2 = false)
    (hl0 : trim l0 ≠ []) :
    (∀ s ∈ (flushPending st).1 ++ [trim l0], s ≠ [] ∧ headWs s = false ∧ lastWs s = false) ∧
    ((flushPending st).2 ≠ [] → headWs (flushPending st).2 = false ∧
      lastWs (flushPending st).2 = false) ∧
    (∀ X : Str,
      ((∃ s ∈ st.1, OccursIn X (collapse s)) ∨ (st.2 ≠ [] ∧ OccursIn X (collapse st.2))) →
      ((∃ s ∈ (flushPending st).1 ++ [trim l0], OccursIn X (collapse s)) ∨
       ((flushPending st).2 ≠ [] ∧ OccursIn X (collapse (flushPending st).2)))) ∧
    ((∃ s ∈ (flushPending st).1 ++ [trim l0],
        OccursIn (collapse (trim l0)) (collapse s)) ∨
     ((flushPending st).2 ≠ [] ∧
        OccursIn (collapse (trim l0)) (collapse (flushPending st).2))) := by
  obtain ⟨hfo, hfp, hcov⟩ := flushPending_clean hout hpend
  refine ⟨?_, ?_, ?_, ?_⟩
  · intro s hs
    rcases List.mem_append.mp hs with hs | hs
    · exact hfo s hs
    · rw [List.mem_singleton] at hs
      subst hs
      exact ⟨hl0, trim_headWs l0, trim_lastWs l0⟩
  · intro hne
    exact absurd hfp hne
  · intro X hX
    obtain ⟨u, hu, hXu⟩ := hcov X hX
    exact Or.inl ⟨u, List.mem_append_left _ hu, hXu⟩
  · exact Or.inl ⟨trim l0, List.mem_append_right _ (by simp), occursIn_self _⟩

theorem stitchStep_transfer (st : List Str × Str) (l0 : Str)
    (hout : ∀ s ∈ st.1, s ≠ [] ∧ headWs s = false ∧ lastWs s = false)
    (hpend : st.2 ≠ [] → headWs st.2 = false ∧ lastWs st.2 = false)
    (hl0 : trim l0 ≠ []) :
    (∀ s ∈ (stitchStep st l0).1, s ≠ [] ∧ headWs s = false ∧ lastWs s = false) ∧
    ((stitchStep st l0).2 ≠ [] → headWs (stitchStep st l0).2 = false ∧
      lastWs (stitchStep st l0).2 = false) ∧
    (∀ X : Str,
      ((∃ s ∈ st.1, OccursIn X (collapse s)) ∨ (st.2 ≠ [] ∧ OccursIn X (collapse st.2))) →
      ((∃ s ∈ (stitchStep st l0).1, OccursIn X (collapse s)) ∨
       ((stitchStep st l0).2 ≠ [] ∧ OccursIn X (collapse (stitchStep st l0).2)))) ∧
    ((∃ s ∈ (stitchStep st l0).1, OccursIn (collapse (trim l0)) (collapse s)) ∨
     ((stitchStep st l0).2 ≠ [] ∧
        OccursIn (collapse (trim l0)) (collapse (stitchStep st l0).2))) := by
  unfold stitchStep
  dsimp only
  by_cases hc1 : (totalsHit (toLowerS (trim l0)) || tenderHit (toLowerS (trim l0)) ||
      cashHit (toLowerS (trim l0)) || headerNoiseHit (toLowerS (trim l0))) = true
  · rw [if_pos hc1]
    exact stitch_emit_case hout hpend hl0
  rw [if_neg hc1]
  by_cases hc2 : isDiscountRefRow (trim l0) = true
  · rw [if_pos hc2]
    exact stitch_emit_case hout hpend hl0
  rw [if_neg hc2]
  by_cases hc3 : (match pickLineTotalToken (trim l0) with
      | some tok => !tok.perUnit
      | none => false) = true
  · rw [if_pos hc3]
    by_cases hp : st.2 ≠ []
    · rw [if_pos hp]
      obtain ⟨hph, hpl⟩ := hpend hp
      obtain ⟨hjne, hjh, hjl, hjc⟩ :=
        joinSp_clean hp hph hpl hl0 (trim_headWs l0) (trim_lastWs l0)
      refine ⟨?_, ?_, ?_, ?_⟩
      · intro s hs
        rcases List.mem_append.mp hs with hs | hs
        · exact hout s hs
        · rw [List.mem_singleton] at hs
          subst hs
          exact ⟨hjne, hjh, hjl⟩
      · intro hne
        exact absurd rfl hne
      · intro X hX
        rcases hX with ⟨s, hs, hXs⟩ | ⟨_, hXp⟩
        · exact Or.inl ⟨s, List.mem_append_left _ hs, hXs⟩
        · refine Or.inl ⟨joinSp st.2 (trim l0), List.mem_append_right _ (by simp), ?_⟩
          rw [hjc]
          exact occursIn_append_right hXp _
      · refine Or.inl ⟨joinSp st.2 (trim l0), List.mem_append_right _ (by simp), ?_⟩
        rw [hjc]
        exact ⟨collapse st.2 ++ [' '], [], by simp⟩
    · rw [if_neg hp]
      push_neg at hp
      refine ⟨?_, ?_, ?_, ?_⟩
      · intro s hs
        rcases List.mem_append.mp hs with hs | hs
        · exact hout s hs
        · rw [List.mem_singleton] at hs
          subst hs
          exact ⟨hl0, trim_headWs l0, trim_lastWs l0⟩
      · intro hne
        exact absurd hp hne
      · intro X hX
        rcases hX with ⟨s, hs, hXs⟩ | ⟨hne, _⟩
        · exact Or.inl ⟨s, List.mem_append_left _ hs, hXs⟩
        · exact absurd hp hne
      · exact Or.inl ⟨trim l0, List.mem_append_right _ (by simp), occursIn_self _⟩
  rw [if_neg hc3]
  by_cases hc4 : (looksLikeSkuOrCode (trim l0) || looksLikeWeightOrRate (trim l0)) = true
  · rw [if_pos hc4]
    by_cases hp : st.2 ≠ []
    · rw [if_pos hp]
      obtain ⟨hph, hpl⟩ := hpend hp
      obtain ⟨hjne, hjh, hjl, hjc⟩ :=
        joinSp_clean hp hph hpl hl0 (trim_headWs l0) (trim_lastWs l0)
      refine ⟨hout, fun _ => ⟨hjh, hjl⟩, ?_, ?_⟩
      · intro X hX
        rcases hX with ⟨s, hs, hXs⟩ | ⟨_, hXp⟩
        · exact Or.inl ⟨s, hs, hXs⟩
        · refine Or.inr ⟨hjne, ?_⟩
          rw [hjc]
          exact occursIn_append_right hXp _
      · refine Or.inr ⟨hjne, ?_⟩
        rw [hjc]
        exact ⟨collapse st.2 ++ [' '], [], by simp⟩
    · rw [if_neg hp]
      push_neg at hp
      by_cases hq : st.1 ≠ []
      · rw [if_pos hq]
        have hlast := hout (st.1.getLast hq) (List.getLast_mem hq)
        obtain ⟨hjne, hjh, hjl, hjc⟩ := joinSp_clean hlast.1 hlast.2.1 hlast.2.2
          hl0 (trim_headWs l0) (trim_lastWs l0)
        have hus := updateLast_spec (fun e => joinSp e (trim l0)) st.1 hq
        refine ⟨?_, ?_, ?_, ?_⟩
        · intro s hs
          rw [hus] at hs
          rcases List.mem_append.mp hs with hs | hs
          · exact hout s (List.mem_of_mem_dropLast hs)
          · rw [List.mem_singleton] at hs
            subst hs
            exact ⟨hjne, hjh, hjl⟩
        · intro hne
          exact absurd hp hne
        · intro X hX
          rcases hX with ⟨s, hs, hXs⟩ | ⟨hne, _⟩
          · conv at hs => rw [← List.dropLast_concat_getLast hq]
            rcases List.mem_append.mp hs with hs | hs
            · refine Or.inl ⟨s, ?_, hXs⟩
              rw [hus]
              exact List.mem_append_left _ hs
            · rw [List.mem_singleton] at hs
              subst hs
              refine Or.inl ⟨joinSp (st.1.getLast hq) (trim l0), ?_, ?_⟩
              · rw [hus]
                exact List.mem_append_right _ (by simp)
              · rw [hjc]
                exact occursIn_append_right hXs _
          · exact absurd hp hne
        · refine Or.inl ⟨joinSp (st.1.getLast hq) (trim l0), ?_, ?_⟩
          · rw [hus]
            exact List.mem_append_right _ (by simp)
          · rw [hjc]
            exact ⟨collapse (st.1.getLast hq) ++ [' '], [], by simp⟩
      · rw [if_neg hq]
        refine ⟨hout, fun _ => ⟨trim_headWs l0, trim_lastWs l0⟩, ?_, ?_⟩
        · intro X hX
          rcases hX with ⟨s, hs, hXs⟩ | ⟨hne, _⟩
          · exact Or.inl ⟨s, hs, hXs⟩
          · exact absurd hp hne
        · exact Or.inr ⟨hl0, occursIn_self _⟩
  rw [if_neg hc4]
  obtain ⟨hfo, hfp, hcov⟩ := flushPending_clean hout hpend
  refine ⟨hfo, fun _ => ⟨trim_headWs l0, trim_lastWs l0⟩, ?_, ?_⟩
  · intro X hX
    obtain ⟨u, hu, hXu⟩ := hcov X hX
    exact Or.inl ⟨u, hu, hXu⟩
  · exact Or.inr ⟨hl0, occursIn_self _⟩

theorem stitch_inv : ∀ (rest : List Str) (st : List Str × Str),
    (∀ s ∈ st.1, s ≠ [] ∧ headWs s = false ∧ lastWs s = false) →
    (st.2 ≠ [] → headWs st.2 = false ∧ lastWs st.2 = false) →
    (∀ l ∈ rest, trim l ≠ []) →
    (∀ X : Str,
      ((∃ s ∈ st.1, OccursIn X (collapse s)) ∨ (st.2 ≠ [] ∧ OccursIn X (collapse st.2))) →
      ∃ u ∈ (flushPending (rest.foldl stitchStep st)).1, OccursIn X (collapse u)) ∧
    (∀ l ∈ rest, ∃ u ∈ (flushPending (rest.foldl stitchStep st)).1,
      OccursIn (collapse (trim l)) (collapse u)) := by
  intro rest
  induction rest with
  | nil =>
    intro st hout hpend _
    refine ⟨?_, by simp⟩
    intro X hX
    exact (flushPending_clean hout hpend).2.2 X hX
  | cons l0 rest ih =>
    intro st hout hpend hall
    obtain ⟨ho2, hp2, htr, hnew⟩ := stitchStep_transfer st l0 hout hpend (hall l0 (by simp))
    have ihs := ih (stitchStep st l0) ho2 hp2 (fun l hl => hall l (by simp [hl]))
    rw [List.foldl_cons]
    refine ⟨?_, ?_⟩
    · intro X hX
      exact ihs.1 X (htr X hX)
    · intro l hl
      rcases List.mem_cons.mp hl with rfl | hl
      · exact ihs.1 (collapse (trim l)) hnew
      · exact ihs.2 l hl

/-- C1: the logical-line stitcher of parseReceiptTextDeterministic loses no
line: for every sequence of raw lines that are non-blank, every input line's
text (up to the stitcher's own whitespace collapsing) occurs contiguously
inside some line of the stitcher's output — it was either emitted standalone,
merged through the pending buffer and flushed, or appended to an
already-emitted logical line. -/
theorem stitch_no_loss :
    ∀ (lines : List Str), (∀ l ∈ lines, trim l ≠ []) →
      ∀ l ∈ lines, ∃ u ∈ stitch lines, OccursIn (collapse (trim l)) (collapse u) := by
  intro lines hall l hl
  exact (stitch_inv lines ([], []) (by simp) (by simp) hall).2 l hl

/-- Witness for C1: the no-loss property applied to the one-line input
["AB"], whose text survives into the stitched output. -/
theorem stitch_no_loss_witness :
    ∃ u ∈ stitch [S "AB"], OccursIn (collapse (trim (S "AB"))) (collapse u) :=
  stitch_no_loss [S "AB"] (by decide) (S "AB") (by simp)

theorem dropWhile_ws_append {ru : Str} (h : headWs ru = false) :
    ∀ rw0 : Str, List.dropWhile (fun c => isWsC c) (rw0 ++ ru) =
      List.dropWhile (fun c => isWsC c) rw0 ++ ru := by
  intro rw0
  induction rw0 with
  | nil =>
    simp only [List.dropWhile_nil, List.nil_append]
    exact dropWhileWs_eq_self h
  | cons c cs ih =>
    by_cases hc : isWsC c = true
    · rw [List.cons_append, List.dropWhile_cons_of_pos (by simpa using hc),
        List.dropWhile_cons_of_pos (by simpa using hc)]
      exact ih
    · rw [List.cons_append, List.dropWhile_cons_of_neg (by simpa using hc),
        List.dropWhile_cons_of_neg (by simpa using hc), List.cons_append]

theorem trimRight_append_of_lastWs {u : Str} (h : lastWs u = false) (w : Str) :
    trimRight (u ++ w) = u ++ trimRight w := by
  unfold trimRight
  rw [List.reverse_append, dropWhile_ws_append (by rwa [headWs_reverse]),
    List.reverse_append, List.reverse_reverse]

theorem trimLeft_append_head {u : Str} (hu : u ≠ []) (h : headWs u = false) (y : Str) :
    trimLeft (u ++ y) = u ++ y := by
  rcases u with _ | ⟨c, cs⟩
  · exact absurd rfl hu
  · rw [List.cons_append]
    exact List.dropWhile_cons_of_neg (by simpa [headWs] using h)

theorem isDigitC_false_of_isLetterC {c : Char} (h : isLetterC c = true) :
    isDigitC c = false := by
  simp only [isLetterC, Bool.or_eq_true, Bool.and_eq_true, decide_eq_true_eq] at h
  by_contra hd
  simp only [Bool.not_eq_false, isDigitC, Bool.and_eq_true, decide_eq_true_eq] at hd
  rcases h with ⟨h1, _⟩ | ⟨h1, _⟩ <;> exact absurd (le_trans h1 hd.2) (by decide)

theorem isLetterC_false_of_isDigitC {c : Char} (h : isDigitC c = true) :
    isLetterC c = false := by
  by_contra hl
  simp only [Bool.not_eq_false] at hl
  rw [isDigitC_false_of_isLetterC hl] at h
  exact absurd h (by decide)

theorem isLetterC_toLowerC {c : Char} (h : isLetterC c = false) : toLowerC c = c := by
  unfold toLowerC
  rw [if_neg ?_]
  intro hu
  have hl : isLetterC c = true := by
    simp only [isUpperC, Bool.and_eq_true, decide_eq_true_eq] at hu
    simp only [isLetterC, Bool.or_eq_true, Bool.and_eq_true, decide_eq_true_eq]
    exact Or.inl hu
  rw [hl] at h
  exact absurd h (by decide)

theorem isTokC_classes {c : Char} (h : isTokC c = true) :
    isWsC c = false ∧ isLetterC c = false := by
  simp only [isTokC, Bool.or_eq_true, decide_eq_true_eq] at h
  rcases h with ((((hd | h1) | h1) | h1) | h1)
  · exact ⟨isWsC_of_isDigitC hd, isLetterC_false_of_isDigitC hd⟩
  all_goals (subst h1; exact ⟨by decide, by decide⟩)

theorem dropWhile_eq_nil_all {p : Char → Bool} :
    ∀ {s : Str}, s.dropWhile p = [] → ∀ c ∈ s, p c = true := by
  intro s
  induction s with
  | nil => intro _ c hc; simp at hc
  | cons a t ih =>
    intro h c hc
    by_cases ha : p a = true
    · rw [List.dropWhile_cons_of_pos ha] at h
      rcases List.mem_cons.mp hc with rfl | hc
      · exact ha
      · exact ih h c hc
    · rw [List.dropWhile_cons_of_neg (by simpa using ha)] at h
      exact absurd h (by simp)

theorem getLast_exists {s : Str} (h : s ≠ []) : ∃ c, s.getLast? = some c := by
  induction s with
  | nil => exact absurd rfl h
  | cons a t ih =>
    cases t with
    | nil => exact ⟨a, rfl⟩
    | cons b t2 =>
      obtain ⟨c, hc⟩ := ih (by simp)
      exact ⟨c, by rwa [List.getLast?_cons_cons]⟩

theorem lastWs_false_of_all_nonws {s : Str} (h : ∀ c ∈ s, isWsC c = false) :
    lastWs s = false := by
  unfold lastWs
  rcases hg : s.getLast? with _ | c
  · rfl
  · exact h c (List.mem_of_mem_getLast? hg)

theorem lastWs_true_of_all_ws {s : Str} (h : ∀ c ∈ s, isWsC c = true) (hne : s ≠ []) :
    lastWs s = true := by
  obtain ⟨c, hc⟩ := getLast_exists hne
  unfold lastWs
  rw [hc]
  exact h c (List.mem_of_mem_getLast? hc)

theorem trimRight_lastWs (u : Str) : lastWs (trimRight u) = false := by
  unfold trimRight
  rw [lastWs_reverse]
  exact headWs_dropWhileWs _

theorem mem_trimRight {c : Char} {u : Str} (h : c ∈ trimRight u) : c ∈ u := by
  unfold trimRight at h
  rw [List.mem_reverse] at h
  have := List.dropWhile_sublist (l := u.reverse) (p := fun c => isWsC c)
  rw [← List.mem_reverse]
  exact this.mem h

theorem trimRight_ne_nil_of {c : Char} {u : Str} (hc : c ∈ u) (hw : isWsC c = false) :
    trimRight u ≠ [] := by
  intro h
  unfold trimRight at h
  rw [List.reverse_eq_nil_iff] at h
  exact absurd (dropWhile_eq_nil_all h c (by simpa using hc)) (by simp [hw])

theorem noDD_of_no_ws {s : Str} (h : ∀ c ∈ s, isWsC c = false) : noDD s = true := by
  induction s with
  | nil => rfl
  | cons a t ih =>
    rw [noDD_cons]
    simp only [h a (by simp), Bool.false_and, Bool.not_false, Bool.true_and]
    exact ih (fun c hc => h c (by simp [hc]))

theorem collapse_eq_self_of_no_ws {s : Str} (h : ∀ c ∈ s, isWsC c = false) :
    collapse s = s :=
  collapse_eq_self_of_noDD (noDD_of_no_ws h)

theorem mem_collapseSt {c : Char} : ∀ {b : Bool} {s : Str}, c ∈ collapseSt b s →
    c ∈ s ∨ c = ' ' := by
  intro b s
  induction s generalizing b with
  | nil => intro h; cases b <;> simp [collapseSt] at h
  | cons a t ih =>
    intro h
    cases b with
    | true =>
      cases ha : isWsC a with
      | true =>
        rw [show collapseSt true (a :: t) = collapseSt true t by simp [collapseSt, ha]] at h
        rcases ih h with h | h
        · exact Or.inl (by simp [h])
        · exact Or.inr h
      | false =>
        rw [show collapseSt true (a :: t) = a :: collapseSt false t by
          simp [collapseSt, ha]] at h
        rcases List.mem_cons.mp h with rfl | h
        · exact Or.inl (by simp)
        · rcases ih h with h | h
          · exact Or.inl (by simp [h])
          · exact Or.inr h
    | false =>
      cases ha : isWsC a with
      | false =>
        rw [show collapseSt false (a :: t) = a :: collapseSt false t by
          simp [collapseSt, ha]] at h
        rcases List.mem_cons.mp h with rfl | h
        · exact Or.inl (by simp)
        · rcases ih h with h | h
          · exact Or.inl (by simp [h])
          · exact Or.inr h
      | true =>
        cases t with
        | nil =>
          rw [show collapseSt false [a] = [a] by simp [collapseSt, ha]] at h
          exact Or.inl h
        | cons d t2 =>
          cases hd : isWsC d with
          | true =>
            rw [show collapseSt false (a :: d :: t2) = ' ' :: collapseSt true (d :: t2) by
              simp [collapseSt, ha, hd]] at h
            rcases List.mem_cons.mp h with rfl | h
            · exact Or.inr rfl
            · rcases ih h with h | h
              · exact Or.inl (by simp [h])
              · exact Or.inr h
          | false =>
            rw [show collapseSt false (a :: d :: t2) = a :: collapseSt false (d :: t2) by
              simp [collapseSt, ha, hd]] at h
            rcases List.mem_cons.mp h with rfl | h
            · exact Or.inl (by simp)
            · rcases ih h with h | h
              · exact Or.inl (by simp [h])
              · exact Or.inr h

theorem mem_squashSt {c : Char} : ∀ {b : Bool} {s : Str}, c ∈ squashSt b s →
    c ∈ s ∨ c = ' ' := by
  intro b s
  induction s generalizing b with
  | nil => intro h; cases b <;> simp [squashSt] at h
  | cons a t ih =>
    intro h
    have step : ∀ (h2 : c ∈ a :: squashSt false t ∨ c ∈ a :: squashSt true t),
        c ∈ a :: t ∨ c = ' ' := by
      intro h2
      rcases h2 with h2 | h2 <;>
        (rcases List.mem_cons.mp h2 with rfl | h2
         · exact Or.inl (by simp)
         · rcases ih h2 with h3 | h3
           · exact Or.inl (by simp [h3])
           · exact Or.inr h3)
    cases b with
    | true =>
      cases ha : isWsC a with
      | true =>
        rw [show squashSt true (a :: t) = squashSt true t by simp [squashSt, ha]] at h
        rcases ih h with h | h
        · exact Or.inl (by simp [h])
        · exact Or.inr h
      | false =>
        rw [show squashSt true (a :: t) = a :: squashSt false t by
          simp [squashSt, ha]] at h
        exact step (Or.inl h)
    | false =>
      cases ha : isWsC a with
      | false =>
        rw [show squashSt false (a :: t) = a :: squashSt false t by
          simp [squashSt, ha]] at h
        exact step (Or.inl h)
      | true =>
        rw [show squashSt false (a :: t) = ' ' :: squashSt true t by
          simp [squashSt, ha]] at h
        rcases List.mem_cons.mp h with rfl | h
        · exact Or.inr rfl
        · rcases ih h with h | h
          · exact Or.inl (by simp [h])
          · exact Or.inr h

theorem squashSt_append : ∀ (a : Str), a ≠ [] → lastWs a = false →
    ∀ (b : Bool) (r : Str), squashSt b (a ++ r) = squashSt b a ++ squashSt false r := by
  intro a
  induction a with
  | nil => intro h; exact absurd rfl h
  | cons c cs ih =>
    intro _ hlast b r
    cases cs with
    | nil =>
      have hc : isWsC c = false := by simpa [lastWs] using hlast
      cases b <;> simp [squashSt, hc]
    | cons d cs2 =>
      have hlast2 : lastWs (d :: cs2) = false := by
        rwa [lastWs_cons (by simp)] at hlast
      have ihd : ∀ b, squashSt b (d :: (cs2 ++ r)) =
          squashSt b (d :: cs2) ++ squashSt false r := by
        intro b
        have h0 := ih (by simp) hlast2 b r
        rwa [List.cons_append] at h0
      rw [List.cons_append, List.cons_append]
      cases b with
      | true =>
        cases hc : isWsC c with
        | true =>
          rw [show squashSt true (c :: (d :: (cs2 ++ r))) =
              squashSt true (d :: (cs2 ++ r)) by simp [squashSt, hc],
            show squashSt true (c :: (d :: cs2)) = squashSt true (d :: cs2) by
              simp [squashSt, hc]]
          exact ihd true
        | false =>
          rw [show squashSt true (c :: (d :: (cs2 ++ r))) =
              c :: squashSt false (d :: (cs2 ++ r)) by simp [squashSt, hc],
            show squashSt true (c :: (d :: cs2)) = c :: squashSt false (d :: cs2) by
              simp [squashSt, hc]]
          rw [List.cons_append, ihd false]
      | false =>
        cases hc : isWsC c with
        | false =>
          rw [show squashSt false (c :: (d :: (cs2 ++ r))) =
              c :: squashSt false (d :: (cs2 ++ r)) by simp [squashSt, hc],
            show squashSt false (c :: (d :: cs2)) = c :: squashSt false (d :: cs2) by
              simp [squashSt, hc]]
          rw [List.cons_append, ihd false]
        | true =>
          rw [show squashSt false (c :: (d :: (cs2 ++ r))) =
              ' ' :: squashSt true (d :: (cs2 ++ r)) by simp [squashSt, hc],
            show squashSt false (c :: (d :: cs2)) = ' ' :: squashSt true (d :: cs2) by
              simp [squashSt, hc]]
          rw [List.cons_append, ihd true]

theorem lastIndexOfSub_sound {pat s : Str} {i : Nat}
    (h : lastIndexOfSub pat s = some i) : litAt pat (s.drop i) = true := by
  unfold lastIndexOfSub at h
  have main : ∀ (L : List Nat) (acc : Option Nat),
      (∀ j, acc = some j → litAt pat (s.drop j) = true) →
      L.foldl (fun acc i => if litAt pat (s.drop i) then some i else acc) acc = some i →
      litAt pat (s.drop i) = true := by
    intro L
    induction L with
    | nil =>
      intro acc hacc hf
      exact hacc i hf
    | cons a L2 ih =>
      intro acc hacc hf
      rw [List.foldl_cons] at hf
      by_cases ha : litAt pat (s.drop a) = true
      · exact ih _ (by
          intro j hj
          rw [if_pos ha] at hj
          rw [Option.some.injEq] at hj
          subst hj
          exact ha) hf
      · exact ih _ (by
          intro j hj
          rw [if_neg ha] at hj
          exact hacc j hj) hf
  exact main _ none (by intro j hj; exact absurd hj (by simp)) h

theorem takeOpt_shape {c : Char} {s m r : Str} (h : takeOpt c s = (m, r)) :
    m = [] ∨ m = [c] := by
  cases s with
  | nil => simp [takeOpt] at h; exact Or.inl h.1
  | cons d ds =>
    simp only [takeOpt] at h
    split at h
    · cases h; exact Or.inr rfl
    · cases h; exact Or.inl rfl

theorem tryMoney_class {s t r : Str} (h : tryMoney s = some (t, r)) :
    (∀ c ∈ t, isTokC c = true) ∧ 4 ≤ t.length := by
  unfold tryMoney at h
  rcases h1 : takeOpt '-' s with ⟨m1, s1⟩
  rw [h1] at h
  dsimp only at h
  rcases h2 : takeOpt '$' s1 with ⟨m2, s2⟩
  rw [h2] at h
  dsimp only at h
  split at h
  · exact absurd h (by simp)
  · next hd =>
    rcases h3 : List.dropWhile (fun c => isDigitC c) s2 with _ | ⟨p, _ | ⟨a, _ | ⟨b, s5⟩⟩⟩ <;>
      rw [h3] at h <;> dsimp only at h
    · simp at h
    · simp at h
    · simp at h
    · split at h
      · next hcond =>
        rcases h4 : takeOpt '-' s5 with ⟨m3, s6⟩
        rw [h4] at h
        dsimp only at h
        injection h with h
        injection h with hT hR
        subst hT
        push_neg at hd
        have hm1 := takeOpt_shape h1
        have hm2 := takeOpt_shape h2
        have hm3 := takeOpt_shape h4
        have hdig : ∀ c ∈ List.takeWhile (fun c => isDigitC c) s2, isDigitC c = true := by
          intro c hc
          simpa using List.mem_takeWhile_imp hc
        constructor
        · intro c hc
          simp only [List.mem_append, List.mem_cons] at hc
          rcases hc with ((hc | hc) | hc) | hc | hc | hc | hc
          · rcases hm1 with rfl | rfl
            · simp at hc
            · rw [List.mem_singleton] at hc
              subst hc; decide
          · rcases hm2 with rfl | rfl
            · simp at hc
            · rw [List.mem_singleton] at hc
              subst hc; decide
          · simp [isTokC, hdig c hc]
          · subst hc
            rcases hcond.1 with rfl | rfl <;> decide
          · subst hc
            simp [isTokC, hcond.2.1]
          · subst hc
            simp [isTokC, hcond.2.2]
          · rcases hm3 with rfl | rfl
            · simp at hc
            · rw [List.mem_singleton] at hc
              subst hc; decide
        · have : 1 ≤ (List.takeWhile (fun c => isDigitC c) s2).length := by
            rcases he : List.takeWhile (fun c => isDigitC c) s2 with _ | _
            · exact absurd he hd.1
            · simp
          simp only [List.length_append, List.length_cons]
          omega
      · exact absurd h (by simp)

theorem moneyScanF_class {f : Nat} :
    ∀ {i : Nat} {s : Str} {j : Nat} {t : Str}, (j, t) ∈ moneyScanF f i s →
      t ≠ [] ∧ ∀ c ∈ t, isTokC c = true := by
  induction f with
  | zero => intro i s j t h; simp [moneyScanF] at h
  | succ f ih =>
    intro i s j t h
    cases s with
    | nil => simp [moneyScanF] at h
    | cons c cs =>
      simp only [moneyScanF] at h
      rcases hm : tryMoney (c :: cs) with _ | ⟨t0, r⟩
      · rw [hm] at h
        exact ih h
      · rw [hm] at h
        rcases List.mem_cons.mp h with h | h
        · injection h with hj ht
          subst hj; subst ht
          obtain ⟨hcl, hlen⟩ := tryMoney_class hm
          exact ⟨by intro hx; rw [hx] at hlen; simp at hlen, hcl⟩
        · exact ih h

theorem moneyScan_class {s : Str} {j : Nat} {t : Str} (h : (j, t) ∈ moneyScan s) :
    t ≠ [] ∧ ∀ c ∈ t, isTokC c = true :=
  moneyScanF_class h

theorem tailCandidates_mem {u : Str} {c : Str × Str} (h : c ∈ tailCandidates u) :
    c.1 ≠ [] ∧ ∀ ch ∈ c.1, isTokC ch = true := by
  unfold tailCandidates at h
  rcases htm : tryMoney u with _ | ⟨t0, r0⟩
  · rw [htm] at h; simp at h
  · rw [htm] at h
    dsimp only at h
    obtain ⟨hclass, hlen⟩ := tryMoney_class htm
    have ht0 : t0 ≠ [] := by intro hx; rw [hx] at hlen; simp at hlen
    split at h
    · rcases List.mem_cons.mp h with rfl | h
      · exact ⟨ht0, hclass⟩
      · rw [List.mem_singleton] at h
        subst h
        refine ⟨?_, fun ch hch => hclass ch (List.mem_of_mem_dropLast hch)⟩
        intro hx
        have := congrArg List.length hx
        simp [List.length_dropLast] at this
        omega
    · rw [List.mem_singleton] at h
      subst h
      exact ⟨ht0, hclass⟩

theorem extractTailF_succ (f k : Nat) (t u : Str) :
    extractTailF (f + 1) k t u =
      (match (tailCandidates u).findSome? (fun c =>
        (tailFlagOf c.2).map (fun fl => TailParts.mk (trim (t.take k)) (trim c.1) fl)) with
      | some res => some res
      | none => match u with | [] => none | _ :: u2 => extractTailF f (k + 1) t u2) := by
  with_unfolding_all rfl

theorem extractTailF_inv : ∀ {f k : Nat} {t u : Str} {ex : TailParts},
    extractTailF f k t u = some ex →
    (headWs ex.pfx = false ∧ lastWs ex.pfx = false) ∧
    ex.amount ≠ [] ∧ (∀ c ∈ ex.amount, isTokC c = true) := by
  intro f
  induction f with
  | zero => intro k t u ex h; simp [extractTailF] at h
  | succ f ih =>
    intro k t u ex h
    rw [extractTailF_succ] at h
    rcases hfs : (tailCandidates u).findSome? (fun c =>
        (tailFlagOf c.2).map (fun fl => TailParts.mk (trim (t.take k)) (trim c.1) fl))
      with _ | res
    · rw [hfs] at h
      dsimp only at h
      cases u with
      | nil => simp at h
      | cons c0 u2 => exact ih h
    · rw [hfs] at h
      rw [Option.some.injEq] at h
      subst h
      obtain ⟨cand, hcand, hmap⟩ := List.exists_of_findSome?_eq_some hfs
      rcases hfl : tailFlagOf cand.2 with _ | fl
      · rw [hfl] at hmap
        exact absurd hmap (by simp)
      · rw [hfl] at hmap
        rw [Option.map_some', Option.some.injEq] at hmap
        subst hmap
        obtain ⟨hne, hcl⟩ := tailCandidates_mem hcand
        have hnws : ∀ ch ∈ cand.1, isWsC ch = false :=
          fun ch hch => (isTokC_classes (hcl ch hch)).1
        have htr : trim cand.1 = cand.1 := trim_eq_self_of_no_ws hnws
        exact ⟨⟨trim_headWs _, trim_lastWs _⟩, by simpa [htr] using ⟨hne, hcl⟩⟩

theorem extractTail_inv {l : Str} {ex : TailParts} (h : extractTail l = some ex) :
    (headWs ex.pfx = false ∧ lastWs ex.pfx = false) ∧
    ex.amount ≠ [] ∧ (∀ c ∈ ex.amount, isTokC c = true) :=
  extractTailF_inv h

theorem squashSt_lastWs : ∀ (s : Str), s ≠ [] → lastWs s = false →
    ∀ b, squashSt b s ≠ [] ∧ lastWs (squashSt b s) = false := by
  intro s
  induction s with
  | nil => intro h; exact absurd rfl h
  | cons c cs ih =>
    intro _ hlast b
    cases cs with
    | nil =>
      have hc : isWsC c = false := by simpa [lastWs] using hlast
      cases b <;>
        (rw [show squashSt _ [c] = [c] by simp [squashSt, hc]]
         exact ⟨by simp, by simpa [lastWs] using hc⟩)
    | cons d r =>
      have hlast2 : lastWs (d :: r) = false := by
        rwa [lastWs_cons (by simp)] at hlast
      have ihd := ih (by simp) hlast2
      cases b with
      | true =>
        cases hc : isWsC c with
        | true => simpa [squashSt, hc] using ihd true
        | false =>
          rw [show squashSt true (c :: d :: r) = c :: squashSt false (d :: r) by
            simp [squashSt, hc]]
          refine ⟨by simp, ?_⟩
          rw [lastWs_cons (ihd false).1]
          exact (ihd false).2
      | false =>
        cases hc : isWsC c with
        | false =>
          rw [show squashSt false (c :: d :: r) = c :: squashSt false (d :: r) by
            simp [squashSt, hc]]
          refine ⟨by simp, ?_⟩
          rw [lastWs_cons (ihd false).1]
          exact (ihd false).2
        | true =>
          rw [show squashSt false (c :: d :: r) = ' ' :: squashSt true (d :: r) by
            simp [squashSt, hc]]
          refine ⟨by simp, ?_⟩
          rw [lastWs_cons (ihd true).1]
          exact (ihd true).2

theorem mem_of_dropWhile {p : Char → Bool} {c : Char} {l : Str}
    (h : c ∈ l.dropWhile p) : c ∈ l :=
  List.Sublist.subset (List.dropWhile_sublist (l := l) (p := p)) h

theorem wuScanAux_nil (prev : Option Char) (i : Nat) : wuScanAux prev i [] = none := by
  with_unfolding_all rfl

theorem wuScanAux_cons (prev : Option Char) (i : Nat) (c : Char) (cs : Str) :
    wuScanAux prev i (c :: cs) =
      (match (if (match prev with | none => true | some p => !isWordC p) then
               wuAtPos (c :: cs) else none) with
      | some nu => some (i, nu.1, nu.2)
      | none => wuScanAux (some c) (i + 1) cs) := by
  with_unfolding_all rfl

theorem litAtI_false_of_nonletter {u r : Str} (hu : u ≠ [])
    (h0 : isLetterC u.headI = true) (hr : ∀ c ∈ r, isLetterC c = false) :
    litAtI u r = false := by
  rcases u with _ | ⟨u0, u'⟩
  · exact absurd rfl hu
  rcases r with _ | ⟨c, r'⟩
  · rfl
  · have hne : u0 ≠ c := by
      intro he
      have : isLetterC c = true := by rw [← he]; exact h0
      rw [hr c (by simp)] at this
      exact absurd this (by decide)
    unfold litAtI
    rw [show ((c :: r').take (u0 :: u').length) = c :: r'.take u'.length from by
      simp [List.length_cons]]
    rw [show toLowerS (c :: r'.take u'.length) =
      toLowerC c :: toLowerS (r'.take u'.length) from rfl]
    rw [isLetterC_toLowerC (hr c (by simp))]
    simp [litAt, hne]

theorem unitCaptureI_none_of_letterless {r : Str} (h : ∀ c ∈ r, isLetterC c = false) :
    unitCaptureI produceUnits10 r = none := by
  have hall : ∀ u ∈ produceUnits10, u ≠ [] ∧ isLetterC u.headI = true := by decide
  unfold unitCaptureI
  dsimp only
  rw [List.findSome?_eq_none_iff]
  intro u hu
  have hlit : litAtI u (r.dropWhile fun c => isWsC c) = false :=
    litAtI_false_of_nonletter (hall u hu).1 (hall u hu).2
      (fun c hc => h c (mem_of_dropWhile hc))
  rw [hlit]
  rfl

theorem wuAtPos_none_of_nondigit_head {c : Char} {r : Str} (h : isDigitC c = false) :
    wuAtPos (c :: r) = none := by
  unfold wuAtPos
  dsimp only
  rw [show (c :: r).takeWhile (fun c => isDigitC c) = [] from by
    simp [List.takeWhile_cons, h]]
  rw [if_pos rfl]

theorem wuAtPos_none_of_letterless {s : Str} (h : ∀ c ∈ s, isLetterC c = false) :
    wuAtPos s = none := by
  have hsub : ∀ t : Str, (∀ c ∈ t, c ∈ s) → unitCaptureI produceUnits10 t = none :=
    fun t ht => unitCaptureI_none_of_letterless (fun c hc => h c (ht c hc))
  unfold wuAtPos
  dsimp only
  by_cases hd : s.takeWhile (fun c => isDigitC c) = []
  · rw [if_pos hd]
  · rw [if_neg hd]
    split
    · next res heq =>
        exfalso
        split at heq
        · next r1 hr1 =>
            by_cases hfr : r1.takeWhile (fun c => isDigitC c) = []
            · rw [if_pos hfr] at heq
              exact absurd heq (by simp)
            · rw [if_neg hfr] at heq
              rw [hsub (r1.drop (r1.takeWhile (fun c => isDigitC c)).length)
                (fun c hc => by
                  have h1 : c ∈ r1 := List.mem_of_mem_drop hc
                  have h2 : c ∈ '.' :: r1 := by simp [h1]
                  rw [← hr1] at h2
                  exact List.mem_of_mem_drop h2)] at heq
              exact absurd heq (by simp)
        · next hne2 => exact absurd heq (by simp)
    · next heq =>
        rw [hsub (s.drop (s.takeWhile fun c => isDigitC c).length)
          (fun c hc => List.mem_of_mem_drop hc)]
        rfl

theorem wuScanAux_none_letterless : ∀ (w2 : Str), (∀ c ∈ w2, isLetterC c = false) →
    ∀ (prev : Option Char) (i : Nat), wuScanAux prev i w2 = none := by
  intro w2
  induction w2 with
  | nil => intro _ prev i; exact wuScanAux_nil prev i
  | cons c cs ih =>
    intro h prev i
    rw [wuScanAux_cons, wuAtPos_none_of_letterless h, ite_self]
    exact ih (fun x hx => h x (by simp [hx])) (some c) (i + 1)

theorem wuScanAux_none_mixed : ∀ (d2 : Str), (∀ c ∈ d2, isLetterC c = true) →
    ∀ {w2 : Str}, (∀ c ∈ w2, isLetterC c = false) →
    ∀ (prev : Option Char) (i : Nat), wuScanAux prev i (d2 ++ w2) = none := by
  intro d2
  induction d2 with
  | nil =>
    intro _ w2 hw prev i
    simpa using wuScanAux_none_letterless w2 hw prev i
  | cons c d2' ih =>
    intro hd w2 hw prev i
    rw [List.cons_append, wuScanAux_cons,
      wuAtPos_none_of_nondigit_head (isDigitC_false_of_isLetterC (hd c (by simp))),
      ite_self]
    exact ih (fun x hx => hd x (by simp [hx])) hw (some c) (i + 1)

theorem weightUnitMatch_dnone {w2 : Str} (hw : ∀ c ∈ w2, isLetterC c = false) :
    weightUnitMatch (S "DISCOUNT" ++ w2) = none := by
  unfold weightUnitMatch
  exact wuScanAux_none_mixed (S "DISCOUNT") (by decide) hw none 0

theorem tok_pos_ge {v t : Str} {idx : Nat}
    (ht : litAt t (List.drop idx (S "DISCOUNT" ++ ' ' :: v)) = true)
    (hne : t ≠ []) (hcl : ∀ c ∈ t, isTokC c = true) : 9 ≤ idx := by
  by_contra hlt
  push_neg at hlt
  rw [show S "DISCOUNT" = ['D', 'I', 'S', 'C', 'O', 'U', 'N', 'T'] from by decide] at ht
  rcases t with _ | ⟨t0, t'⟩
  · exact hne rfl
  have h0 : isTokC t0 = true := hcl t0 (by simp)
  interval_cases idx <;>
    (simp only [List.cons_append, List.drop_succ_cons, List.drop_zero, litAt,
      Bool.and_eq_true, decide_eq_true_eq] at ht
     rw [ht.1] at h0
     exact absurd h0 (by decide))

theorem dline_take {v : Str} {n : Nat} (h : 9 ≤ n) :
    (S "DISCOUNT" ++ ' ' :: v).take n = S "DISCOUNT" ++ ' ' :: v.take (n - 9) := by
  rw [List.take_append_eq_append_take]
  rw [List.take_of_length_le (by
    rw [show (S "DISCOUNT" : Str).length = 8 from by decide]; omega)]
  congr 1
  rw [show (S "DISCOUNT" : Str).length = 8 from by decide]
  rw [show n - 8 = (n - 9) + 1 from by omega]
  rfl

theorem span_keeps_nonws {P A x raw y : Str}
    (hP : P ≠ []) (hPh : headWs P = false)
    (hA : A ≠ []) (hAn : ∀ c ∈ A, isWsC c = false)
    (hraw : ∀ c ∈ raw, isWsC c = false)
    (hv : P ++ ' ' :: A = x ++ (raw ++ y)) :
    ∃ c ∈ x ++ y, isWsC c = false := by
  rcases x with _ | ⟨c0, x'⟩
  · rcases y with _ | ⟨d0, y'⟩
    · exfalso
      have hsp : (' ' : Char) ∈ raw := by
        have hm : (' ' : Char) ∈ P ++ ' ' :: A := by simp
        rw [hv] at hm
        simpa using hm
      have := hraw ' ' hsp
      exact absurd this (by decide)
    · have hlv : lastWs (P ++ ' ' :: A) = false := by
        rw [lastWs_append (show (' ' :: A : Str) ≠ [] by simp), lastWs_cons hA]
        exact lastWs_false_of_all_nonws hAn
      rw [hv] at hlv
      simp only [List.nil_append] at hlv ⊢
      rw [lastWs_append (show (d0 :: y' : Str) ≠ [] by simp)] at hlv
      obtain ⟨c, hc⟩ := getLast_exists (show (d0 :: y' : Str) ≠ [] by simp)
      refine ⟨c, List.mem_of_mem_getLast? hc, ?_⟩
      unfold lastWs at hlv
      rwa [hc] at hlv
  · rcases P with _ | ⟨p0, P'⟩
    · exact absurd rfl hP
    · have h0 : p0 = c0 := by
        have hh := congrArg (fun l : Str => l.head?) hv
        simpa using hh
      refine ⟨c0, by simp, ?_⟩
      rw [← h0]
      simpa [headWs] using hPh

theorem stripTrailingMarker_noop {s : Str} {c : Char} (hg : s.getLast? = some c)
    (hw : isWsC c = false) (hl : isLetterC c = false) :
    stripTrailingMarker s = s := by
  unfold stripTrailingMarker
  dsimp only
  have hh : s.reverse.head? = some c := by rw [List.head?_reverse]; exact hg
  rcases hr : s.reverse with _ | ⟨c0, r'⟩
  · rw [hr] at hh; exact absurd hh (by simp)
  · rw [hr] at hh
    simp only [List.head?_cons, Option.some.injEq] at hh
    subst hh
    rw [show List.dropWhile (fun c => isWsC c) (c0 :: r') = c0 :: r' from by
      simp [List.dropWhile_cons, hw]]
    rw [show List.takeWhile (fun c => isLetterC c) (c0 :: r') = [] from by
      simp [List.takeWhile_cons, hl]]
    rw [if_pos rfl]

theorem trim_dpre {u w : Str} (hu : u ≠ []) (hhu : headWs u = false)
    (hlu : lastWs u = false) : trim (u ++ w) = u ++ trimRight w := by
  unfold trim
  rw [trimRight_append_of_lastWs hlu, trimLeft_append_head hu hhu]

theorem skuSplit_dpre (w : Str) : skuSplit (S "DISCOUNT" ++ w) = none := by
  unfold skuSplit
  dsimp only
  have hd : (S "DISCOUNT" ++ w).takeWhile (fun c => isDigitC c) = [] := by
    rw [show S "DISCOUNT" = 'D' :: S "ISCOUNT" from by decide, List.cons_append]
    simp [List.takeWhile_cons, show isDigitC 'D' = false from by decide]
  rw [if_neg (by rw [hd]; simp)]

theorem name0_dpre (w : Str) :
    trim (collapse (trim (S "DISCOUNT" ++ w))) =
      S "DISCOUNT" ++ trimRight (collapseSt false (trimRight w)) := by
  have hDne : (S "DISCOUNT" : Str) ≠ [] := by decide
  have hDh : headWs (S "DISCOUNT") = false := by decide
  have hDl : lastWs (S "DISCOUNT") = false := by decide
  rw [trim_dpre hDne hDh hDl]
  unfold collapse
  rw [collapseSt_append _ hDne hDl]
  rw [show collapseSt false (S "DISCOUNT") = S "DISCOUNT" from by decide]
  rw [trim_dpre hDne hDh hDl]

theorem lastMoneyVal_mem {line : Str} {pr : Str × ℚ} (h : lastMoneyVal line = some pr) :
    ∃ i, (i, pr.1) ∈ moneyScan line := by
  unfold lastMoneyVal at h
  rcases hg : (moneyScan line).getLast? with _ | ⟨i, tok⟩
  · rw [hg] at h; exact absurd h (by simp)
  · rw [hg] at h
    dsimp only at h
    split at h
    · exact absurd h (by simp)
    · rw [Option.some.injEq] at h
      subst h
      exact ⟨i, List.mem_of_mem_getLast? hg⟩

theorem noPrice_cut_eq {P A T y : Str} {n : Nat}
    (hP : P ≠ []) (hPh : headWs P = false) (hPlet : ∀ c ∈ P, isLetterC c = false)
    (hA : A ≠ []) (hAt : ∀ c ∈ A, isTokC c = true)
    (hT : T ≠ []) (hTt : ∀ c ∈ T, isTokC c = true)
    (hn : 9 ≤ n)
    (hdec : S "DISCOUNT" ++ ' ' :: (P ++ ' ' :: A) =
      (S "DISCOUNT" ++ ' ' :: (P ++ ' ' :: A)).take n ++ (T ++ y)) :
    ∃ W, W ≠ [] ∧ (∀ c ∈ W, isLetterC c = false) ∧
      trim (stripTrailingMarker (trim
        ((S "DISCOUNT" ++ ' ' :: (P ++ ' ' :: A)).take n ++
         (S "DISCOUNT" ++ ' ' :: (P ++ ' ' :: A)).drop (n + T.length)))) =
      S "DISCOUNT" ++ W := by
  have hDne : (S "DISCOUNT" : Str) ≠ [] := by decide
  have hDh : headWs (S "DISCOUNT") = false := by decide
  have hDl : lastWs (S "DISCOUNT") = false := by decide
  have hAn : ∀ c ∈ A, isWsC c = false := fun c hc => (isTokC_classes (hAt c hc)).1
  have hvlet : ∀ e ∈ P ++ ' ' :: A, isLetterC e = false := by
    intro e he
    rcases List.mem_append.mp he with h1 | h1
    · exact hPlet e h1
    · rcases List.mem_cons.mp h1 with rfl | h1
      · decide
      · exact (isTokC_classes (hAt e h1)).2
  have hTpos : 0 < T.length := List.length_pos.mpr hT
  have hlen := congrArg List.length hdec
  simp only [List.length_append, List.length_take] at hlen
  have hdrop : (S "DISCOUNT" ++ ' ' :: (P ++ ' ' :: A)).drop (n + T.length) = y := by
    conv_lhs => rw [hdec]
    rw [← List.append_assoc]
    apply List.drop_left'
    simp only [List.length_append, List.length_take]
    omega
  have htake := dline_take (v := P ++ ' ' :: A) hn
  have hveq : P ++ ' ' :: A = (P ++ ' ' :: A).take (n - 9) ++ (T ++ y) := by
    have h2 := hdec
    rw [htake, List.append_assoc, List.cons_append] at h2
    have h3 := List.append_cancel_left h2
    simpa using h3
  obtain ⟨c, hcmem, hcw⟩ := span_keeps_nonws hP hPh hA hAn
    (fun c hc => (isTokC_classes (hTt c hc)).1) hveq
  have hWne : trimRight (' ' :: ((P ++ ' ' :: A).take (n - 9) ++ y)) ≠ [] :=
    trimRight_ne_nil_of (List.mem_cons_of_mem _ hcmem) hcw
  have hWlet : ∀ e ∈ trimRight (' ' :: ((P ++ ' ' :: A).take (n - 9) ++ y)),
      isLetterC e = false := by
    intro e he
    have hm := mem_trimRight he
    rcases List.mem_cons.mp hm with rfl | hm2
    · decide
    · rcases List.mem_append.mp hm2 with h1 | h1
      · exact hvlet e (List.mem_of_mem_take h1)
      · apply hvlet e
        rw [hveq]
        exact List.mem_append_right _ (List.mem_append_right _ h1)
  refine ⟨_, hWne, hWlet, ?_⟩
  rw [htake, hdrop, List.append_assoc, List.cons_append, trim_dpre hDne hDh hDl]
  obtain ⟨cl, hcl'⟩ := getLast_exists hWne
  have hstr : stripTrailingMarker (S "DISCOUNT" ++
      trimRight (' ' :: ((P ++ ' ' :: A).take (n - 9) ++ y))) =
      S "DISCOUNT" ++ trimRight (' ' :: ((P ++ ' ' :: A).take (n - 9) ++ y)) := by
    apply stripTrailingMarker_noop (c := cl)
    · rw [List.getLast?_append_of_ne_nil _ hWne]
      exact hcl'
    · have h4 := trimRight_lastWs (' ' :: ((P ++ ' ' :: A).take (n - 9) ++ y))
      unfold lastWs at h4
      rwa [hcl'] at h4
    · exact hWlet cl (List.mem_of_mem_getLast? hcl')
  rw [hstr, trim_dpre hDne hDh hDl, trimRight_eq_self_clean (trimRight_lastWs _)]

theorem noPrice_plain_eq {P A : Str}
    (hA : A ≠ []) (hAt : ∀ c ∈ A, isTokC c = true) :
    trim (stripTrailingMarker (trim (S "DISCOUNT" ++ ' ' :: (P ++ ' ' :: A)))) =
      S "DISCOUNT" ++ ' ' :: (P ++ ' ' :: A) := by
  have hDne : (S "DISCOUNT" : Str) ≠ [] := by decide
  have hDh : headWs (S "DISCOUNT") = false := by decide
  have hDl : lastWs (S "DISCOUNT") = false := by decide
  have hAn : ∀ c ∈ A, isWsC c = false := fun c hc => (isTokC_classes (hAt c hc)).1
  have hvne : (P ++ ' ' :: A : Str) ≠ [] := by simp
  have hvlast : lastWs (P ++ ' ' :: A) = false := by
    rw [lastWs_append (show (' ' :: A : Str) ≠ [] by simp), lastWs_cons hA]
    exact lastWs_false_of_all_nonws hAn
  have hlh : headWs (S "DISCOUNT" ++ ' ' :: (P ++ ' ' :: A)) = false := by
    rw [headWs_append hDne]
    exact hDh
  have hllast : lastWs (S "DISCOUNT" ++ ' ' :: (P ++ ' ' :: A)) = false := by
    rw [lastWs_append (by simp), lastWs_cons hvne]
    exact hvlast
  have htl : trim (S "DISCOUNT" ++ ' ' :: (P ++ ' ' :: A)) =
      S "DISCOUNT" ++ ' ' :: (P ++ ' ' :: A) := trim_eq_self_clean hlh hllast
  obtain ⟨ca, hca⟩ := getLast_exists hA
  have hglast : (S "DISCOUNT" ++ ' ' :: (P ++ ' ' :: A)).getLast? = some ca := by
    rw [show (S "DISCOUNT" ++ ' ' :: (P ++ ' ' :: A) : Str) =
      (S "DISCOUNT" ++ ' ' :: P ++ [' ']) ++ A from by
        simp [List.append_assoc]]
    rw [List.getLast?_append_of_ne_nil _ hA]
    exact hca
  have hcam : ca ∈ A := List.mem_of_mem_getLast? hca
  rw [htl, stripTrailingMarker_noop hglast ((isTokC_classes (hAt ca hcam)).1)
    ((isTokC_classes (hAt ca hcam)).2), htl]

theorem discount_tail {W rt : Str} {sdw : Bool} {it : Item}
    {d vsku bc : Option Str} {oq up lt wt : Option ℚ} {ou un : Option Str}
    {pm : Option ItemProduceMeta}
    (h : (if (if trim (collapse (trim (S "DISCOUNT" ++ W))) = [] ∧ sdw = true
              then S "DISCOUNT" else trim (collapse (trim (S "DISCOUNT" ++ W)))) = []
          then none
          else some (Item.mk rt
            (if trim (collapse (trim (S "DISCOUNT" ++ W))) = [] ∧ sdw = true
             then S "DISCOUNT" else trim (collapse (trim (S "DISCOUNT" ++ W))))
            d vsku bc oq ou up lt wt un pm)) = some it) :
    litAt (S "DISCOUNT") it.name = true := by
  rw [name0_dpre] at h
  by_cases hc1 : (S "DISCOUNT" ++ trimRight (collapseSt false (trimRight W)) : Str)
      = [] ∧ sdw = true
  · exact absurd hc1.1 (by
      simp [show S "DISCOUNT" = 'D' :: S "ISCOUNT" from by decide])
  · rw [if_neg hc1] at h
    rw [if_neg (show ¬(S "DISCOUNT" ++ trimRight (collapseSt false (trimRight W)) : Str)
        = [] from by
      simp [show S "DISCOUNT" = 'D' :: S "ISCOUNT" from by decide])] at h
    rw [Option.some.injEq] at h
    subst h
    exact litAt_append _ _

theorem discount_item_name {P A : Str}
    (hP : P ≠ []) (hPh : headWs P = false)
    (hPlet : ∀ c ∈ P, isLetterC c = false)
    (hA : A ≠ []) (hAt : ∀ c ∈ A, isTokC c = true) :
    ∀ (mg : Bool) (it : Item),
      extractItem1 mg (S "DISCOUNT" ++ ' ' :: (P ++ ' ' :: A)) = some it →
      litAt (S "DISCOUNT") it.name = true := by
  intro mg it h
  have hDne : (S "DISCOUNT" : Str) ≠ [] := by decide
  have hDh : headWs (S "DISCOUNT") = false := by decide
  have hDl : lastWs (S "DISCOUNT") = false := by decide
  have hAn : ∀ c ∈ A, isWsC c = false := fun c hc => (isTokC_classes (hAt c hc)).1
  have hvne : (P ++ ' ' :: A : Str) ≠ [] := by simp
  have hvlast : lastWs (P ++ ' ' :: A) = false := by
    rw [lastWs_append (show (' ' :: A : Str) ≠ [] by simp), lastWs_cons hA]
    exact lastWs_false_of_all_nonws hAn
  have hvlet : ∀ e ∈ P ++ ' ' :: A, isLetterC e = false := by
    intro e he
    rcases List.mem_append.mp he with h1 | h1
    · exact hPlet e h1
    · rcases List.mem_cons.mp h1 with rfl | h1
      · decide
      · exact (isTokC_classes (hAt e h1)).2
  have hlh : headWs (S "DISCOUNT" ++ ' ' :: (P ++ ' ' :: A)) = false := by
    rw [headWs_append hDne]
    exact hDh
  have hllast : lastWs (S "DISCOUNT" ++ ' ' :: (P ++ ' ' :: A)) = false := by
    rw [lastWs_append (by simp), lastWs_cons hvne]
    exact hvlast
  have htl : trim (S "DISCOUNT" ++ ' ' :: (P ++ ' ' :: A)) =
      S "DISCOUNT" ++ ' ' :: (P ++ ' ' :: A) := trim_eq_self_clean hlh hllast
  have hsq' := squashSt_lastWs (P ++ ' ' :: A) hvne hvlast true
  have hsq : trim (squash (S "DISCOUNT" ++ ' ' :: (P ++ ' ' :: A))) =
      S "DISCOUNT" ++ ' ' :: squashSt true (P ++ ' ' :: A) := by
    unfold squash
    rw [squashSt_append _ hDne hDl]
    rw [show squashSt false (S "DISCOUNT") = S "DISCOUNT" from by decide]
    rw [show squashSt false (' ' :: (P ++ ' ' :: A)) =
      ' ' :: squashSt true (P ++ ' ' :: A) from by
        simp [squashSt, show isWsC ' ' = true from rfl]]
    rw [trim_dpre hDne hDh hDl]
    congr 1
    apply trimRight_eq_self_clean
    rw [lastWs_cons hsq'.1]
    exact hsq'.2
  have hsqlet : ∀ c ∈ (' ' :: squashSt true (P ++ ' ' :: A) : Str), isLetterC c = false := by
    intro c hc
    rcases List.mem_cons.mp hc with rfl | hc
    · decide
    · rcases mem_squashSt hc with hc | rfl
      · exact hvlet c hc
      · decide
  unfold extractItem1 at h
  dsimp only at h
  by_cases hg1 : (totalsHit (toLowerS (S "DISCOUNT" ++ ' ' :: (P ++ ' ' :: A))) ||
      tenderHit (toLowerS (S "DISCOUNT" ++ ' ' :: (P ++ ' ' :: A))) ||
      cashHit (toLowerS (S "DISCOUNT" ++ ' ' :: (P ++ ' ' :: A)))) = true
  · rw [if_pos hg1] at h
    exact absurd h (by simp)
  · rw [if_neg hg1] at h
    by_cases hg2 : Option.map (fun t => t.value)
        (pickLineTotalToken (S "DISCOUNT" ++ ' ' :: (P ++ ' ' :: A))) = none ∧
        (discountHintHit (S "DISCOUNT" ++ ' ' :: (P ++ ' ' :: A)) ||
          startsDiscountWord (S "DISCOUNT" ++ ' ' :: (P ++ ' ' :: A))) = false
    · rw [if_pos hg2] at h
      exact absurd h (by simp)
    · rw [if_neg hg2] at h
      rcases hPd : detectProduce (S "DISCOUNT" ++ ' ' :: (P ++ ' ' :: A))
          (some produceTolDefault) with _ | p
      · rw [hPd] at h
        dsimp only at h
        rcases hTok : pickLineTotalToken (S "DISCOUNT" ++ ' ' :: (P ++ ' ' :: A)) with _ | tk
        · rw [hTok] at h
          dsimp only at h
          rcases hms : (moneyScan (S "DISCOUNT" ++ ' ' :: (P ++ ' ' :: A))).getLast?
            with _ | pr
          · rw [hms] at h
            dsimp only at h
            rw [noPrice_plain_eq hA hAt] at h
            rw [skuSplit_dpre] at h
            dsimp only at h
            exact discount_tail h
          · rw [hms] at h
            dsimp only at h
            rcases hidx : lastIndexOfSub pr.2
                (trim (S "DISCOUNT" ++ ' ' :: (P ++ ' ' :: A))) with _ | idx
            · rw [hidx] at h
              dsimp only at h
              rw [noPrice_plain_eq hA hAt] at h
              rw [skuSplit_dpre] at h
              dsimp only at h
              exact discount_tail h
            · rw [hidx] at h
              dsimp only at h
              have hmem : (pr.1, pr.2) ∈ moneyScan (S "DISCOUNT" ++ ' ' :: (P ++ ' ' :: A)) := by
                rw [Prod.mk.eta]
                exact List.mem_of_mem_getLast? hms
              obtain ⟨hrne, hrcl⟩ := moneyScan_class hmem
              have hlit : litAt pr.2 ((S "DISCOUNT" ++ ' ' :: (P ++ ' ' :: A)).drop idx)
                  = true := by
                have hs := lastIndexOfSub_sound hidx
                rwa [htl] at hs
              have hn9 : 9 ≤ idx := tok_pos_ge hlit hrne hrcl
              obtain ⟨yy, hyy⟩ := litAt_sound hlit
              have hdec : S "DISCOUNT" ++ ' ' :: (P ++ ' ' :: A) =
                  (S "DISCOUNT" ++ ' ' :: (P ++ ' ' :: A)).take idx ++ (pr.2 ++ yy) := by
                conv_lhs => rw [← List.take_append_drop idx
                  (S "DISCOUNT" ++ ' ' :: (P ++ ' ' :: A))]
                rw [hyy]
              obtain ⟨W, -, -, hWeq⟩ :=
                noPrice_cut_eq hP hPh hPlet hA hAt hrne hrcl hn9 hdec
              rw [htl] at h; rw [hWeq] at h
              rw [skuSplit_dpre] at h
              dsimp only at h
              exact discount_tail h
        · rw [hTok] at h
          dsimp only at h
          obtain ⟨hmem, hstop⟩ := pickTok_core hTok
          obtain ⟨x, y, hxy, hxlen⟩ := moneyScan_sound hmem
          obtain ⟨hrne, hrcl⟩ := moneyScan_class hmem
          have htk : (S "DISCOUNT" ++ ' ' :: (P ++ ' ' :: A)).take tk.start = x := by
            conv_lhs => rw [hxy, List.append_assoc]
            exact List.take_left' hxlen
          have hdec : S "DISCOUNT" ++ ' ' :: (P ++ ' ' :: A) =
              (S "DISCOUNT" ++ ' ' :: (P ++ ' ' :: A)).take tk.start ++ (tk.raw ++ y) := by
            rw [htk, ← List.append_assoc, ← hxy]
          have hlit : litAt tk.raw ((S "DISCOUNT" ++ ' ' :: (P ++ ' ' :: A)).drop tk.start)
              = true := by
            rw [hxy, List.append_assoc, ← hxlen, List.drop_left' rfl]
            exact litAt_append _ _
          have hn9 : 9 ≤ tk.start := tok_pos_ge hlit hrne hrcl
          obtain ⟨W, -, -, hWeq⟩ :=
            noPrice_cut_eq hP hPh hPlet hA hAt hrne hrcl hn9 hdec
          rw [hstop] at h
          rw [htl] at h; rw [hWeq] at h
          rw [skuSplit_dpre] at h
          dsimp only at h
          exact discount_tail h
      · rw [hPd] at h
        dsimp only at h
        unfold detectProduce at hPd
        dsimp only at hPd
        by_cases hq1 : trim (squash (S "DISCOUNT" ++ ' ' :: (P ++ ' ' :: A))) = []
        · rw [if_pos hq1] at hPd
          exact absurd hPd (by simp)
        · rw [if_neg hq1] at hPd
          cases hq2 : hasProduceSignals (trim (squash (S "DISCOUNT" ++ ' ' :: (P ++ ' ' :: A)))) with
          | false =>
            rw [if_pos (show (!hasProduceSignals (trim (squash
              (S "DISCOUNT" ++ ' ' :: (P ++ ' ' :: A))))) = true by rw [hq2]; rfl)] at hPd
            exact absurd hPd (by simp)
          | true =>
            rw [if_neg (show ¬(!hasProduceSignals (trim (squash
              (S "DISCOUNT" ++ ' ' :: (P ++ ' ' :: A))))) = true by rw [hq2]; decide)] at hPd
            rw [Option.some.injEq] at hPd
            subst hPd
            dsimp only at h
            rw [hsq] at h
            rw [weightUnitMatch_dnone hsqlet] at h
            dsimp only at h
            rcases hlmv : lastMoneyVal (S "DISCOUNT" ++ ' ' :: squashSt true (P ++ ' ' :: A))
              with _ | pr2
            · rw [hlmv] at h
              dsimp only at h
              rw [Option.none_bind] at h
              dsimp only at h
              rcases hTok : pickLineTotalToken (S "DISCOUNT" ++ ' ' :: (P ++ ' ' :: A)) with _ | tk
              · rw [hTok] at h
                dsimp only at h
                rcases hms : (moneyScan (S "DISCOUNT" ++ ' ' :: (P ++ ' ' :: A))).getLast?
                  with _ | pr
                · rw [hms] at h
                  dsimp only at h
                  rw [noPrice_plain_eq hA hAt] at h
                  rw [skuSplit_dpre] at h
                  dsimp only at h
                  exact discount_tail h
                · rw [hms] at h
                  dsimp only at h
                  rcases hidx : lastIndexOfSub pr.2
                      (trim (S "DISCOUNT" ++ ' ' :: (P ++ ' ' :: A))) with _ | idx
                  · rw [hidx] at h
                    dsimp only at h
                    rw [noPrice_plain_eq hA hAt] at h
                    rw [skuSplit_dpre] at h
                    dsimp only at h
                    exact discount_tail h
                  · rw [hidx] at h
                    dsimp only at h
                    have hmem : (pr.1, pr.2) ∈ moneyScan (S "DISCOUNT" ++ ' ' :: (P ++ ' ' :: A)) := by
                      rw [Prod.mk.eta]
                      exact List.mem_of_mem_getLast? hms
                    obtain ⟨hrne, hrcl⟩ := moneyScan_class hmem
                    have hlit : litAt pr.2 ((S "DISCOUNT" ++ ' ' :: (P ++ ' ' :: A)).drop idx)
                        = true := by
                      have hs := lastIndexOfSub_sound hidx
                      rwa [htl] at hs
                    have hn9 : 9 ≤ idx := tok_pos_ge hlit hrne hrcl
                    obtain ⟨yy, hyy⟩ := litAt_sound hlit
                    have hdec : S "DISCOUNT" ++ ' ' :: (P ++ ' ' :: A) =
                        (S "DISCOUNT" ++ ' ' :: (P ++ ' ' :: A)).take idx ++ (pr.2 ++ yy) := by
                      conv_lhs => rw [← List.take_append_drop idx
                        (S "DISCOUNT" ++ ' ' :: (P ++ ' ' :: A))]
                      rw [hyy]
                    obtain ⟨W, -, -, hWeq⟩ :=
                      noPrice_cut_eq hP hPh hPlet hA hAt hrne hrcl hn9 hdec
                    rw [htl] at h; rw [hWeq] at h
                    rw [skuSplit_dpre] at h
                    dsimp only at h
                    exact discount_tail h
              · rw [hTok] at h
                dsimp only at h
                obtain ⟨hmem, hstop⟩ := pickTok_core hTok
                obtain ⟨x, y, hxy, hxlen⟩ := moneyScan_sound hmem
                obtain ⟨hrne, hrcl⟩ := moneyScan_class hmem
                have htk : (S "DISCOUNT" ++ ' ' :: (P ++ ' ' :: A)).take tk.start = x := by
                  conv_lhs => rw [hxy, List.append_assoc]
                  exact List.take_left' hxlen
                have hdec : S "DISCOUNT" ++ ' ' :: (P ++ ' ' :: A) =
                    (S "DISCOUNT" ++ ' ' :: (P ++ ' ' :: A)).take tk.start ++ (tk.raw ++ y) := by
                  rw [htk, ← List.append_assoc, ← hxy]
                have hlit : litAt tk.raw ((S "DISCOUNT" ++ ' ' :: (P ++ ' ' :: A)).drop tk.start)
                    = true := by
                  rw [hxy, List.append_assoc, ← hxlen, List.drop_left' rfl]
                  exact litAt_append _ _
                have hn9 : 9 ≤ tk.start := tok_pos_ge hlit hrne hrcl
                obtain ⟨W, -, -, hWeq⟩ :=
                  noPrice_cut_eq hP hPh hPlet hA hAt hrne hrcl hn9 hdec
                rw [hstop] at h
                rw [htl] at h; rw [hWeq] at h
                rw [skuSplit_dpre] at h
                dsimp only at h
                exact discount_tail h
            · rw [hlmv] at h
              dsimp only at h
              rcases hidx2 : lastIndexOfSub pr2.1
                  (S "DISCOUNT" ++ ' ' :: squashSt true (P ++ ' ' :: A)) with _ | idx2
              · rw [hidx2] at h
                dsimp only at h
                rw [Option.none_bind] at h
                dsimp only at h
                rcases hTok : pickLineTotalToken (S "DISCOUNT" ++ ' ' :: (P ++ ' ' :: A)) with _ | tk
                · rw [hTok] at h
                  dsimp only at h
                  rcases hms : (moneyScan (S "DISCOUNT" ++ ' ' :: (P ++ ' ' :: A))).getLast?
                    with _ | pr
                  · rw [hms] at h
                    dsimp only at h
                    rw [noPrice_plain_eq hA hAt] at h
                    rw [skuSplit_dpre] at h
                    dsimp only at h
                    exact discount_tail h
                  · rw [hms] at h
                    dsimp only at h
                    rcases hidx : lastIndexOfSub pr.2
                        (trim (S "DISCOUNT" ++ ' ' :: (P ++ ' ' :: A))) with _ | idx
                    · rw [hidx] at h
                      dsimp only at h
                      rw [noPrice_plain_eq hA hAt] at h
                      rw [skuSplit_dpre] at h
                      dsimp only at h
                      exact discount_tail h
                    · rw [hidx] at h
                      dsimp only at h
                      have hmem : (pr.1, pr.2) ∈ moneyScan (S "DISCOUNT" ++ ' ' :: (P ++ ' ' :: A)) := by
                        rw [Prod.mk.eta]
                        exact List.mem_of_mem_getLast? hms
                      obtain ⟨hrne, hrcl⟩ := moneyScan_class hmem
                      have hlit : litAt pr.2 ((S "DISCOUNT" ++ ' ' :: (P ++ ' ' :: A)).drop idx)
                          = true := by
                        have hs := lastIndexOfSub_sound hidx
                        rwa [htl] at hs
                      have hn9 : 9 ≤ idx := tok_pos_ge hlit hrne hrcl
                      obtain ⟨yy, hyy⟩ := litAt_sound hlit
                      have hdec : S "DISCOUNT" ++ ' ' :: (P ++ ' ' :: A) =
                          (S "DISCOUNT" ++ ' ' :: (P ++ ' ' :: A)).take idx ++ (pr.2 ++ yy) := by
                        conv_lhs => rw [← List.take_append_drop idx
                          (S "DISCOUNT" ++ ' ' :: (P ++ ' ' :: A))]
                        rw [hyy]
                      obtain ⟨W, -, -, hWeq⟩ :=
                        noPrice_cut_eq hP hPh hPlet hA hAt hrne hrcl hn9 hdec
                      rw [htl] at h; rw [hWeq] at h
                      rw [skuSplit_dpre] at h
                      dsimp only at h
                      exact discount_tail h
                · rw [hTok] at h
                  dsimp only at h
                  obtain ⟨hmem, hstop⟩ := pickTok_core hTok
                  obtain ⟨x, y, hxy, hxlen⟩ := moneyScan_sound hmem
                  obtain ⟨hrne, hrcl⟩ := moneyScan_class hmem
                  have htk : (S "DISCOUNT" ++ ' ' :: (P ++ ' ' :: A)).take tk.start = x := by
                    conv_lhs => rw [hxy, List.append_assoc]
                    exact List.take_left' hxlen
                  have hdec : S "DISCOUNT" ++ ' ' :: (P ++ ' ' :: A) =
                      (S "DISCOUNT" ++ ' ' :: (P ++ ' ' :: A)).take tk.start ++ (tk.raw ++ y) := by
                    rw [htk, ← List.append_assoc, ← hxy]
                  have hlit : litAt tk.raw ((S "DISCOUNT" ++ ' ' :: (P ++ ' ' :: A)).drop tk.start)
                      = true := by
                    rw [hxy, List.append_assoc, ← hxlen, List.drop_left' rfl]
                    exact litAt_append _ _
                  have hn9 : 9 ≤ tk.start := tok_pos_ge hlit hrne hrcl
                  obtain ⟨W, -, -, hWeq⟩ :=
                    noPrice_cut_eq hP hPh hPlet hA hAt hrne hrcl hn9 hdec
                  rw [hstop] at h
                  rw [htl] at h; rw [hWeq] at h
                  rw [skuSplit_dpre] at h
                  dsimp only at h
                  exact discount_tail h
              · rw [hidx2] at h
                dsimp only at h
                rw [Option.some_bind] at h
                obtain ⟨i2, hmem2⟩ := lastMoneyVal_mem hlmv
                obtain ⟨hne2, hcl2⟩ := moneyScan_class hmem2
                have hlit2 := lastIndexOfSub_sound hidx2
                have hidx29 : 9 ≤ idx2 := tok_pos_ge hlit2 hne2 hcl2
                rw [dline_take hidx29, trim_dpre hDne hDh hDl] at h
                rw [if_neg (show ¬(S "DISCOUNT" ++ trimRight
                    (' ' :: (squashSt true (P ++ ' ' :: A)).take (idx2 - 9)) : Str) = [] from by
                  simp [show S "DISCOUNT" = 'D' :: S "ISCOUNT" from by decide])] at h
                dsimp only at h
                rw [skuSplit_dpre] at h
                dsimp only at h
                exact discount_tail h

/-- C3 (corrected): a non-garbage logical line whose tail-extracted trailing
amount is negative and whose non-empty prefix before the amount contains no
letters is rewritten by semanticRepairLogicalLines into a line that starts
with "DISCOUNT"; the rewritten line appears in the repaired logical-line list
handed to the item extractor, and every ParsedLineItem the item extractor
produces from the rewritten line has a name that starts with "DISCOUNT".  (The
original claim fails both for lines with letters before the negative amount,
which are left unrepaired, and for lines with an empty prefix, whose repaired
line loses the DISCOUNT prefix again in the item extractor — see the
counterexample.) -/
theorem discount_naming_amended (a : Str) (ex : TailParts) (n : ℚ)
    (hgar : garbageLine a = false)
    (htra : trim a = a)
    (hx : extractTail a = some ex)
    (hn : safeParseNumber ex.amount = some n)
    (hneg : n < 0)
    (hpfx : ex.pfx ≠ [])
    (hlet : ex.pfx.any (fun c => isLetterC c) = false) :
    repairLine a =
      some (trim (collapse (S "DISCOUNT " ++ ex.pfx ++ ' ' :: ex.amount))) ∧
    trim (collapse (S "DISCOUNT " ++ ex.pfx ++ ' ' :: ex.amount)) ∈ semanticRepair [a] ∧
    litAt (S "DISCOUNT") (trim (collapse (S "DISCOUNT " ++ ex.pfx ++ ' ' :: ex.amount)))
      = true ∧
    ∀ (mg : Bool) (it : Item),
      extractItem1 mg (trim (collapse (S "DISCOUNT " ++ ex.pfx ++ ' ' :: ex.amount)))
        = some it →
      litAt (S "DISCOUNT") it.name = true := by
  obtain ⟨⟨hph, hpl⟩, hane, hat⟩ := extractTail_inv hx
  have hDne : (S "DISCOUNT" : Str) ≠ [] := by decide
  have hDh : headWs (S "DISCOUNT") = false := by decide
  have hDl : lastWs (S "DISCOUNT") = false := by decide
  have hamnws : ∀ c ∈ ex.amount, isWsC c = false :=
    fun c hc => (isTokC_classes (hat c hc)).1
  have hamh : headWs ex.amount = false := by
    rcases hamc : ex.amount with _ | ⟨c0, r0⟩
    · rfl
    · have hc0 : isWsC c0 = false := by
        apply hamnws c0
        rw [hamc]
        simp
      simpa [headWs] using hc0
  have hlet' : ∀ c ∈ ex.pfx, isLetterC c = false := by
    intro c hc
    by_contra hcl
    rw [Bool.not_eq_false] at hcl
    have hany : ex.pfx.any (fun c => isLetterC c) = true := List.any_eq_true.mpr ⟨c, hc, hcl⟩
    rw [hlet] at hany
    exact absurd hany (by decide)
  have hrep : repairLine a =
      some (trim (collapse (S "DISCOUNT " ++ ex.pfx ++ ' ' :: ex.amount))) := by
    unfold repairLine
    rw [if_neg (show ¬garbageLine a = true from by rw [hgar]; decide)]
    rw [hx]
    dsimp only
    rw [hn]
    dsimp only
    rw [if_pos hneg, if_neg hpfx]
    rw [if_pos (show (!(ex.pfx.any fun c => isLetterC c)) = true from by rw [hlet]; rfl)]
  have hinner : collapse (ex.pfx ++ ' ' :: ex.amount) = collapse ex.pfx ++ ' ' :: ex.amount := by
    unfold collapse
    rw [collapseSt_append _ hpfx hpl]
    rw [collapse_sep hamh hane]
    rw [collapse_eq_self_of_no_ws hamnws]
  have hbbh : headWs (ex.pfx ++ ' ' :: ex.amount) = false := by
    rw [headWs_append hpfx]
    exact hph
  have hcol : collapse (S "DISCOUNT " ++ ex.pfx ++ ' ' :: ex.amount) =
      S "DISCOUNT" ++ ' ' :: (collapse ex.pfx ++ ' ' :: ex.amount) := by
    rw [show S "DISCOUNT " ++ ex.pfx ++ ' ' :: ex.amount =
      S "DISCOUNT" ++ ' ' :: (ex.pfx ++ ' ' :: ex.amount) from by
        with_unfolding_all rfl]
    unfold collapse
    rw [collapseSt_append _ hDne hDl]
    rw [show collapseSt false (S "DISCOUNT") = S "DISCOUNT" from by decide]
    rw [collapse_sep hbbh (by simp)]
    rw [show collapse (ex.pfx ++ ' ' :: ex.amount) = collapseSt false ex.pfx ++ ' ' :: ex.amount
      from hinner]
  have hPfacts := collapse_clean hpfx hph hpl
  have hPlet' : ∀ c ∈ collapse ex.pfx, isLetterC c = false := by
    intro c hc
    rcases mem_collapseSt hc with hc | rfl
    · exact hlet' c hc
    · decide
  have htrimr : trim (S "DISCOUNT" ++ ' ' :: (collapse ex.pfx ++ ' ' :: ex.amount)) =
      S "DISCOUNT" ++ ' ' :: (collapse ex.pfx ++ ' ' :: ex.amount) := by
    apply trim_eq_self_clean
    · rw [headWs_append hDne]
      exact hDh
    · rw [lastWs_append (by simp),
        lastWs_cons (show (collapse ex.pfx ++ ' ' :: ex.amount : Str) ≠ [] by simp),
        lastWs_append (show (' ' :: ex.amount : Str) ≠ [] by simp),
        lastWs_cons hane]
      exact lastWs_false_of_all_nonws hamnws
  have hr : trim (collapse (S "DISCOUNT " ++ ex.pfx ++ ' ' :: ex.amount)) =
      S "DISCOUNT" ++ ' ' :: (collapse ex.pfx ++ ' ' :: ex.amount) := by
    rw [hcol, htrimr]
  have hane' : a ≠ [] := by
    intro h0
    have hnone : extractTail ([] : Str) = none := by decide
    rw [h0, hnone] at hx
    exact absurd hx (by simp)
  refine ⟨hrep, ?_, ?_, ?_⟩
  · unfold semanticRepair
    rw [List.map_cons, List.map_nil, htra]
    rw [show List.filter (fun l => decide (l ≠ [])) [a] = [a] from by
      simp [List.filter_cons, hane']]
    rw [List.filterMap_cons, hrep]
    simp
  · rw [hr]
    exact litAt_append _ _
  · intro mg it hit
    rw [hr] at hit
    exact discount_item_name hPfacts.1 hPfacts.2.1 hPlet' hane hat mg it hit

/-- Counterexample to C3 as stated: "BEER 5.00-" has resolved line-total -5
yet extracts as the item name "BE" (a line with letters before the negative
amount is never rewritten), and "7.80-" (empty prefix) is repaired to
"DISCOUNT 7.80-" yet extracts as the item name "DISCOU", because removing the
money token leaves the bare word DISCOUNT whose last two letters the
trailing-marker strip removes. -/
theorem discount_naming_cex :
    (Option.map (fun t => t.value) (pickLineTotalToken (S "BEER 5.00-")) = some (-5) ∧
     repairLine (S "BEER 5.00-") = some (S "BEER 5.00-") ∧
     Option.map (fun it => it.name) (extractItem1 false (S "BEER 5.00-")) = some (S "BE") ∧
     litAt (S "DISCOUNT") (S "BE") = false) ∧
    (Option.map (fun t => t.value) (pickLineTotalToken (S "7.80-")) = some (-39 / 5) ∧
     repairLine (S "7.80-") = some (S "DISCOUNT 7.80-") ∧
     Option.map (fun it => it.name) (extractItem1 false (S "DISCOUNT 7.80-"))
       = some (S "DISCOU") ∧
     litAt (S "DISCOUNT") (S "DISCOU") = false) := by
  with_unfolding_all decide

/-- Witness for C3 (corrected) at the discount reference row
"351935 /847909 4.00-". -/
theorem discount_naming_amended_witness :
    repairLine (S "351935 /847909 4.00-") =
      some (trim (collapse (S "DISCOUNT " ++ S "351935 /847909" ++ ' ' :: S "4.00-"))) ∧
    trim (collapse (S "DISCOUNT " ++ S "351935 /847909" ++ ' ' :: S "4.00-")) ∈
      semanticRepair [S "351935 /847909 4.00-"] ∧
    litAt (S "DISCOUNT")
      (trim (collapse (S "DISCOUNT " ++ S "351935 /847909" ++ ' ' :: S "4.00-"))) = true ∧
    ∀ (mg : Bool) (it : Item),
      extractItem1 mg (trim (collapse (S "DISCOUNT " ++ S "351935 /847909" ++ ' ' :: S "4.00-")))
        = some it →
      litAt (S "DISCOUNT") it.name = true :=
  discount_naming_amended (S "351935 /847909 4.00-")
    (TailParts.mk (S "351935 /847909") (S "4.00-") []) (-4)
    (by decide) (by decide) (by decide)
    (by with_unfolding_all decide) (by with_unfolding_all decide)
    (by decide) (by decide)
